import Mathlib

set_option linter.unusedVariables false

/-!
A shallow embedding of the CDCL SAT solver in `src/lib.rs` (module `screwsat`),
together with proofs about its behaviour.  The Rust solver state is modelled
field by field; vectors become `List`s, `HashMap<Lit, Vec<usize>>` becomes an
association list (only `get`/`entry(..).push` are used, so entry order of keys
is irrelevant), and each `loop`/`while` becomes a structurally recursive
function on an explicit fuel argument, returning an error value when the fuel
runs out.  Rust panics that the specification talks about (the `unwrap` of a
reason, and the tail-pointer underflow in `analyze`) are modelled as explicit
error values; other out-of-bounds indexing is modelled by `List.getD`/`List.set`
defaults, which agree with the Rust code on all in-range executions.
-/

namespace Screwsat

/-- A propositional variable: `pub type Var = usize`. -/
abbrev Var := Nat

/-- A literal: `pub type Lit = (Var, bool)`; `(0, true)` means x0, `(0, false)` means ¬x0. -/
abbrev Lit := Var × Bool

/-- The solver state, mirroring `struct Solver` in `src/lib.rs`. -/
structure Solver where
  n : Nat
  assigns : List Bool
  clauses : List (List Lit)
  watchers : List (Lit × List Nat)
  reason : List (Option Nat)
  level : List Nat
  que : List Var
  head : Nat
deriving Repr, DecidableEq

/-- Lookup in the watcher map: `self.watchers.get(&p)`; a missing key behaves
like an empty list (the Rust code skips the whole loop in that case). -/
def watchGet : List (Lit × List Nat) → Lit → List Nat
  | [], _ => []
  | e :: rest, l => if e.1 = l then e.2 else watchGet rest l

/-- `self.watchers.entry(c).or_insert(vec![]).push(clause_idx)`. -/
def watchAdd : List (Lit × List Nat) → Lit → Nat → List (Lit × List Nat)
  | [], l, idx => [(l, [idx])]
  | e :: rest, l, idx =>
    if e.1 = l then (e.1, e.2 ++ [idx]) :: rest else e :: watchAdd rest l idx

/-- `Solver::add_clause`: register the clause under every literal it contains,
then push it to the clause store. -/
def Solver.add_clause (s : Solver) (clause : List Lit) : Solver :=
  let idx := s.clauses.length
  { s with
    watchers := clause.foldl (fun w c => watchAdd w c idx) s.watchers,
    clauses := s.clauses ++ [clause] }

/-- The level stored by `enqueue`: the level of the variable currently at the
back of the trail, or `1` if the trail is empty. -/
def tailLevel (s : Solver) : Nat :=
  match s.que.getLast? with
  | some last => s.level.getD last 0
  | none => 1

/-- `Solver::enqueue`: record an assignment and append the variable to the trail. -/
def Solver.enqueue (s : Solver) (var : Var) (assign : Bool) (reason : Option Nat) : Solver :=
  { s with
    assigns := s.assigns.set var assign,
    reason := s.reason.set var reason,
    level := s.level.set var (tailLevel s),
    que := s.que ++ [var] }

/-- Result of scanning one watched clause inside `propagate`. -/
inductive ScanResult where
  | satisfied (cl : List Lit)
  | scanned (cl : List Lit) (cnt : Nat)
deriving Repr, DecidableEq

/-- `self.clauses[cr].swap(c, 0)`. -/
def swapFront (cl : List Lit) (c : Nat) : List Lit :=
  if c = 0 then cl
  else (cl.set 0 (cl.getD c (0, false))).set c (cl.getD 0 (0, false))

/-- The `for c in 0..len` scan of one clause in `propagate`, with `rem`
counting the remaining positions (initially the clause length, so the
recursion is structural). -/
def scanGo (assigns : List Bool) (level : List Nat) :
    Nat → List Lit → Nat → Nat → ScanResult
  | 0, cl, _, cnt => .scanned cl cnt
  | rem + 1, cl, c, cnt =>
    let vs := cl.getD c (0, false)
    if level.getD vs.1 0 = 0 then
      scanGo assigns level rem (swapFront cl c) (c + 1) (cnt + 1)
    else if assigns.getD vs.1 false = vs.2 then
      .satisfied (swapFront cl c)
    else
      scanGo assigns level rem cl (c + 1) cnt

/-- Scan a whole clause as `propagate` does. -/
def scanClause (assigns : List Bool) (level : List Nat) (cl : List Lit) : ScanResult :=
  scanGo assigns level cl.length cl 0 0

/-- Outcome of handling one watched clause. -/
inductive PropStep where
  | conflict (cr : Nat) (s : Solver)
  | next (s : Solver)
deriving Repr, DecidableEq

/-- Handle one watched clause id `cr`: scan it, write the reordered clause
back, and return a conflict, enqueue a unit, or move on. -/
def propClause (s : Solver) (cr : Nat) : PropStep :=
  match scanClause s.assigns s.level (s.clauses.getD cr []) with
  | .satisfied cl2 => .next { s with clauses := s.clauses.set cr cl2 }
  | .scanned cl2 cnt =>
    let s1 : Solver := { s with clauses := s.clauses.set cr cl2 }
    if cnt = 0 then .conflict cr s1
    else if cnt = 1 then
      let vs := cl2.getD 0 (0, false)
      .next (s1.enqueue vs.1 vs.2 (some cr))
    else .next s1

/-- The `'next_clause: for &cr in watcher.iter()` loop. -/
def propClauses : Solver → List Nat → PropStep
  | s, [] => .next s
  | s, cr :: rest =>
    match propClause s cr with
    | .conflict c s1 => .conflict c s1
    | .next s1 => propClauses s1 rest

/-- Result of `Solver::propagate`. -/
inductive PropResult where
  | conflict (cr : Nat) (s : Solver)
  | done (s : Solver)
deriving Repr, DecidableEq

/-- `Solver::propagate`: drain the trail from `head`; `none` means the fuel ran
out (the Rust loop has no such case; every lemma below either supplies enough
fuel or holds for every fuel). -/
def propagateGo : Nat → Solver → Option PropResult
  | 0, _ => none
  | fuel + 1, s =>
    if s.head < s.que.length then
      let v := s.que.getD s.head 0
      let s1 : Solver := { s with head := s.head + 1 }
      let p : Lit := (v, !s1.assigns.getD v false)
      match propClauses s1 (watchGet s1.watchers p) with
      | .conflict cr s2 => some (.conflict cr s2)
      | .next s2 => propagateGo fuel s2
    else some (.done s)

/-- Accumulator of the resolution loop in `Solver::analyze`. -/
structure AState where
  checked : List Var
  learnt : List Lit
  bt : Nat
  slc : Int
deriving Repr, DecidableEq

/-- The `for p in self.clauses[confl].iter()` phase of the analyze loop:
dedup via the checked set, collect lower-level literals into the learnt
clause, raise the backtrack level, count conflict-level literals. -/
def checkLits (level : List Nat) (current_level : Nat) : List Lit → AState → AState
  | [], st => st
  | p :: rest, st =>
    if p.1 ∈ st.checked then checkLits level current_level rest st
    else
      let st1 : AState := { st with checked := p.1 :: st.checked }
      if level.getD p.1 0 < current_level then
        checkLits level current_level rest
          { st1 with learnt := st1.learnt ++ [p], bt := max st1.bt (level.getD p.1 0) }
      else
        checkLits level current_level rest { st1 with slc := st1.slc + 1 }

/-- The `while !checked_vars.contains(&self.que[que_tail]) { que_tail -= 1 }`
search; `none` models the usize underflow panic when no checked variable is
found down to the front of the trail. -/
def findTail (checked : List Var) (que : List Var) : Nat → Option Nat
  | 0 => if que.getD 0 0 ∈ checked then some 0 else none
  | j + 1 => if que.getD (j + 1) 0 ∈ checked then some (j + 1) else findTail checked que j

/-- Failure modes of `Solver::analyze`: fuel exhaustion of the model, the
`self.reason[..].unwrap()` panic, and the tail-pointer underflow panic. -/
inductive AnalyzeErr where
  | fuel
  | noReason
  | tailMiss
deriving Repr, DecidableEq

/-- The main resolution loop of `Solver::analyze`; returns the final tail
pointer and accumulator. -/
def analyzeGo (s : Solver) (current_level : Nat) :
    Nat → Nat → AState → Nat → Except AnalyzeErr (Nat × AState)
  | 0, _, _, _ => .error .fuel
  | fuel + 1, confl, st, que_tail =>
    let st1 := checkLits s.level current_level (s.clauses.getD confl []) st
    match findTail st1.checked s.que que_tail with
    | none => .error .tailMiss
    | some qt =>
      let st2 : AState := { st1 with slc := st1.slc - 1 }
      if st2.slc ≤ 1 then .ok (qt, st2)
      else
        match s.reason.getD (s.que.getD qt 0) none with
        | none => .error .noReason
        | some confl2 => analyzeGo s current_level fuel confl2 st2 qt

/-- The `while let Some(p) = self.que.back()` backtracking loop, expressed on
the reversed trail (popping the back of the trail is taking from the front of
its reversal). -/
def cancelGo (bt : Nat) : List Var → List Nat → List Var × List Nat
  | [], level => ([], level)
  | v :: rest, level =>
    if bt < level.getD v 0 then cancelGo bt rest (level.set v 0)
    else (v :: rest, level)

/-- The undo step of `Solver::analyze` as a state transformer: cancel trail
entries from the back while their level exceeds the backtrack level, zeroing
the level of each popped variable. -/
def Solver.cancelUntil (s : Solver) (bt : Nat) : Solver :=
  let res := cancelGo bt s.que.reverse s.level
  { s with que := res.1.reverse, level := res.2 }

/-- `Solver::analyze`: run the resolution loop, push the asserting literal,
backtrack, assert the literal with the id the learnt clause will get, reset
the propagation cursor, and register the learnt clause. -/
def Solver.analyze (fuel : Nat) (s : Solver) (confl : Nat) : Except AnalyzeErr Solver :=
  let que_tail := s.que.length - 1
  let current_level := s.level.getD (s.que.getD que_tail 0) 0
  match analyzeGo s current_level fuel confl ⟨[], [], 1, 0⟩ que_tail with
  | .error e => .error e
  | .ok (qt, st) =>
    let p := s.que.getD qt 0
    let learnt := st.learnt ++ [(p, !s.assigns.getD p false)]
    let s1 := s.cancelUntil st.bt
    let s2 := s1.enqueue p (!s1.assigns.getD p false) (some s1.clauses.length)
    let s3 : Solver := { s2 with head := s2.que.length - 1 }
    .ok (s3.add_clause learnt)

/-- `Solver::new`. -/
def Solver.new (n : Nat) (clauses : List (List Lit)) : Solver :=
  clauses.foldl (fun s c => s.add_clause c)
    { n := n, que := [], head := 0, clauses := [],
      reason := List.replicate n none, level := List.replicate n 0,
      assigns := List.replicate n false, watchers := [] }

/-- The `for v in 0..self.n` search for the first unassigned variable in the
decision phase of `solve`. -/
def Solver.findUnassigned (s : Solver) : Option Var :=
  (List.range s.n).find? (fun v => s.level.getD v 0 == 0)

/-- Outcome of one iteration of the `solve` loop. -/
inductive Step where
  | sat (s : Solver)
  | unsat (s : Solver)
  | next (s : Solver)
deriving Repr, DecidableEq

/-- Failure modes of a model run: fuel exhaustion, or a panic inside analyze. -/
inductive RunErr where
  | fuel
  | analyzePanic (e : AnalyzeErr)
deriving Repr, DecidableEq

/-- One iteration of the `loop` in `Solver::solve` (no time limit): propagate;
on conflict either report UNSAT at level 1 or analyze; otherwise decide on the
first unassigned variable using its current (stale) `assigns` value as the
branching value, or report SAT when every variable is assigned. -/
def Solver.solveStep (pf af : Nat) (s : Solver) : Except RunErr Step :=
  match propagateGo pf s with
  | none => .error .fuel
  | some (.conflict confl s1) =>
    let current_level := s1.level.getD (s1.que.getLast?.getD 0) 0
    if current_level = 1 then .ok (.unsat s1)
    else
      match Solver.analyze af s1 confl with
      | .error e => .error (.analyzePanic e)
      | .ok s2 => .ok (.next s2)
  | some (.done s1) =>
    match s1.findUnassigned with
    | some p =>
      let s2 := s1.enqueue p (s1.assigns.getD p false) none
      .ok (.next { s2 with level := s2.level.set p (s2.level.getD p 0 + 1) })
    | none => .ok (.sat s1)

/-- The `loop` in `Solver::solve`, fuelled. -/
def solveLoop : Nat → Nat → Nat → Solver → Except RunErr (Bool × Solver)
  | 0, _, _, _ => .error .fuel
  | fuel + 1, pf, af, s =>
    match s.solveStep pf af with
    | .error e => .error e
    | .ok (.sat s1) => .ok (true, s1)
    | .ok (.unsat s1) => .ok (false, s1)
    | .ok (.next s1) => solveLoop fuel pf af s1

/-- Build the solver and run `solve(None)` with the given fuel. -/
def solveTop (fuel : Nat) (n : Nat) (cs : List (List Lit)) : Except RunErr (Bool × Solver) :=
  solveLoop fuel fuel fuel (Solver.new n cs)

/-- The boolean verdict of a run, `none` when the model ran out of fuel. -/
def solveResult (fuel : Nat) (n : Nat) (cs : List (List Lit)) : Option Bool :=
  match solveTop fuel n cs with
  | .ok (b, _) => some b
  | .error _ => none

/-- A literal is true under an assignment vector. -/
def litSat (assigns : List Bool) (l : Lit) : Bool :=
  assigns.getD l.1 false == l.2

/-- A clause is satisfied: some literal is true. -/
def clauseSat (assigns : List Bool) (c : List Lit) : Bool :=
  c.any (litSat assigns)

/-- A formula is satisfied: every clause is. -/
def formulaSat (assigns : List Bool) (cs : List (List Lit)) : Bool :=
  cs.all (clauseSat assigns)

instance decEqExcept {ε : Type _} {α : Type _} [DecidableEq ε] [DecidableEq α] :
    DecidableEq (Except ε α) := fun x y =>
  match x, y with
  | .ok a, .ok b =>
    if h : a = b then .isTrue (by rw [h]) else .isFalse (fun hc => h (Except.ok.inj hc))
  | .error a, .error b =>
    if h : a = b then .isTrue (by rw [h]) else .isFalse (fun hc => h (Except.error.inj hc))
  | .ok a, .error b => .isFalse (fun hc => Except.noConfusion hc)
  | .error a, .ok b => .isFalse (fun hc => Except.noConfusion hc)

/-! ### Basic list helpers -/

theorem getD_set_ne {α : Type _} {l : List α} {i j : Nat} {x d : α} (h : i ≠ j) :
    (l.set i x).getD j d = l.getD j d := by
  simp [List.getD_eq_getElem?_getD, List.getElem?_set_ne h]

theorem getD_set_self {α : Type _} {l : List α} {i : Nat} {x d : α} (h : i < l.length) :
    (l.set i x).getD i d = x := by
  simp [List.getD_eq_getElem?_getD, List.getElem?_set_self, h]

theorem getD_append_left {α : Type _} {l₁ l₂ : List α} {i : Nat} {d : α} (h : i < l₁.length) :
    (l₁ ++ l₂).getD i d = l₁.getD i d := by
  simp [List.getD_eq_getElem?_getD, List.getElem?_append_left h]

theorem swapFront_length (cl : List Lit) (c : Nat) :
    (swapFront cl c).length = cl.length := by
  unfold swapFront
  split
  · rfl
  · simp

/-- Reading slot 0 after the swap gives the element that was at position `c`. -/
theorem swapFront_getD_zero (cl : List Lit) (c : Nat) (h : c < cl.length) :
    (swapFront cl c).getD 0 (0, false) = cl.getD c (0, false) := by
  unfold swapFront
  split
  · subst c; rfl
  · rename_i hc
    rw [getD_set_ne hc, getD_set_self (by omega)]

/-- The swap does not touch positions past `c`. -/
theorem swapFront_drop (cl : List Lit) (c k : Nat) (hk : c < k) :
    (swapFront cl c).drop k = cl.drop k := by
  unfold swapFront
  split
  · rfl
  · rw [List.drop_set, List.drop_set]
    simp [Nat.lt_of_lt_of_le hk (Nat.le_refl k), hk, Nat.lt_of_le_of_lt (Nat.zero_le c) hk]

/-- A transposition of two list entries is a permutation. -/
theorem set_set_perm {α : Type _} (t : List α) (x : α) (j : Nat) (hj : j < t.length) :
    (t[j] :: t.set j x).Perm (x :: t) := by
  have hset : t.set j x = t.take j ++ x :: t.drop (j + 1) :=
    List.set_eq_take_cons_drop x hj
  have ht : t.take j ++ t[j] :: t.drop (j + 1) = t := by
    rw [List.getElem_cons_drop t j hj, List.take_append_drop]
  have p1 : (t[j] :: (t.take j ++ x :: t.drop (j + 1))).Perm
      (t[j] :: (x :: (t.take j ++ t.drop (j + 1)))) :=
    List.Perm.cons _ List.perm_middle
  have p2 : (t[j] :: (x :: (t.take j ++ t.drop (j + 1)))).Perm
      (x :: (t[j] :: (t.take j ++ t.drop (j + 1)))) :=
    List.Perm.swap _ _ _
  have p3 : (x :: (t[j] :: (t.take j ++ t.drop (j + 1)))).Perm
      (x :: (t.take j ++ t[j] :: t.drop (j + 1))) :=
    List.Perm.cons _ List.perm_middle.symm
  rw [hset]
  have := (p1.trans p2).trans p3
  rw [ht] at this
  exact this

theorem swapFront_perm (cl : List Lit) (c : Nat) (h : c < cl.length) :
    (swapFront cl c).Perm cl := by
  unfold swapFront
  split
  · exact List.Perm.refl _
  · rename_i hc
    match cl, c, hc with
    | x :: t, j + 1, _ =>
      have hj : j < t.length := by simpa using h
      have h0 : (x :: t).getD 0 (0, false) = x := rfl
      have hcget : (x :: t).getD (j + 1) (0, false) = t[j] := by
        rw [List.getD_eq_getElem _ _ h]
        simp
      rw [h0, hcget]
      show (t[j] :: t.set j x).Perm (x :: t)
      exact set_set_perm t x j hj

/-! ### Characterisation of the clause scan -/

/-- The literal is true under the current assignment (and its variable assigned). -/
def litIsTrue (assigns : List Bool) (level : List Nat) (l : Lit) : Prop :=
  level.getD l.1 0 ≠ 0 ∧ assigns.getD l.1 false = l.2

/-- The literal's variable is unassigned. -/
def litUnassigned (level : List Nat) (l : Lit) : Prop :=
  level.getD l.1 0 = 0

instance decLitIsTrue (assigns : List Bool) (level : List Nat) (l : Lit) :
    Decidable (litIsTrue assigns level l) :=
  inferInstanceAs (Decidable (_ ∧ _))

instance decLitUnassigned (level : List Nat) (l : Lit) :
    Decidable (litUnassigned level l) :=
  inferInstanceAs (Decidable (_ = _))

/-- The boolean test used to count unassigned literals. -/
def unassignedB (level : List Nat) (l : Lit) : Bool :=
  level.getD l.1 0 == 0

theorem scanGo_spec (assigns : List Bool) (level : List Nat) (orig : List Lit) :
    ∀ rem cur c cnt,
    c + rem = orig.length →
    cur.length = orig.length →
    cur.drop c = orig.drop c →
    cur.Perm orig →
    cnt = (orig.take c).countP (unassignedB level) →
    (∀ l ∈ orig.take c, ¬ litIsTrue assigns level l) →
    (cnt ≠ 0 → litUnassigned level (cur.getD 0 (0, false)) ∧ cur.getD 0 (0, false) ∈ orig) →
    (∀ cl2, scanGo assigns level rem cur c cnt = .satisfied cl2 →
        cl2.Perm orig ∧ ∃ l ∈ orig, litIsTrue assigns level l) ∧
    (∀ cl2 cnt2, scanGo assigns level rem cur c cnt = .scanned cl2 cnt2 →
        cl2.Perm orig ∧ cnt2 = orig.countP (unassignedB level) ∧
        (∀ l ∈ orig, ¬ litIsTrue assigns level l) ∧
        (cnt2 ≠ 0 → litUnassigned level (cl2.getD 0 (0, false)) ∧ cl2.getD 0 (0, false) ∈ orig)) := by
  intro rem
  induction rem with
  | zero =>
    intro cur c cnt hlen hclen hdrop hperm hcnt htake hunit
    have hc : c = orig.length := by omega
    constructor
    · intro cl2 h
      exact absurd h (by simp [scanGo])
    · intro cl2 cnt2 h
      rw [show scanGo assigns level 0 cur c cnt = .scanned cur cnt from rfl] at h
      cases h
      subst hc
      rw [List.take_length] at hcnt htake
      exact ⟨hperm, hcnt, htake, hunit⟩
  | succ rem ih =>
    intro cur c cnt hlen hclen hdrop hperm hcnt htake hunit
    have hc : c < orig.length := by omega
    have hcc : c < cur.length := by omega
    -- the literal read at position c is the original literal at position c
    have hread : cur.getD c (0, false) = orig.getD c (0, false) := by
      have h1 : (cur.drop c)[0]? = (orig.drop c)[0]? := by rw [hdrop]
      rw [List.getElem?_drop, List.getElem?_drop] at h1
      rw [List.getD_eq_getElem?_getD, List.getD_eq_getElem?_getD]
      rw [show c + 0 = c from rfl] at h1
      rw [h1]
    have hmem : orig.getD c (0, false) ∈ orig := by
      rw [List.getD_eq_getElem _ _ hc]; exact List.getElem_mem hc
    have htakesucc : orig.take (c + 1) = orig.take c ++ [orig.getD c (0, false)] := by
      rw [List.take_succ, List.getElem?_eq_getElem hc]
      rw [List.getD_eq_getElem _ _ hc]
      rfl
    rw [show scanGo assigns level (rem + 1) cur c cnt =
        (let vs := cur.getD c (0, false);
         if level.getD vs.1 0 = 0 then
           scanGo assigns level rem (swapFront cur c) (c + 1) (cnt + 1)
         else if assigns.getD vs.1 false = vs.2 then
           .satisfied (swapFront cur c)
         else scanGo assigns level rem cur (c + 1) cnt) from rfl]
    simp only [hread]
    by_cases h0 : level.getD (orig.getD c (0, false)).1 0 = 0
    · -- unassigned literal: swap to the front, bump the count
      simp only [h0, if_pos rfl, if_true]
      have hswlen : (swapFront cur c).length = orig.length := by
        rw [swapFront_length]; exact hclen
      have hswdrop : (swapFront cur c).drop (c + 1) = orig.drop (c + 1) := by
        rw [swapFront_drop cur c (c + 1) (Nat.lt_succ_self c)]
        have : cur.drop (c + 1) = (cur.drop c).drop 1 := by
          rw [List.drop_drop]
        rw [this, hdrop, List.drop_drop]
      have hswperm : (swapFront cur c).Perm orig :=
        (swapFront_perm cur c hcc).trans hperm
      have hswget : (swapFront cur c).getD 0 (0, false) = orig.getD c (0, false) := by
        rw [swapFront_getD_zero cur c hcc, hread]
      have hb : unassignedB level (orig.getD c (0, false)) = true := by
        unfold unassignedB
        exact beq_iff_eq.2 h0
      refine ih (swapFront cur c) (c + 1) (cnt + 1) (by omega) hswlen hswdrop hswperm ?_ ?_ ?_
      · rw [htakesucc, List.countP_append, hcnt, List.countP_cons, hb]
        simp
      · intro l hl
        rw [htakesucc] at hl
        rcases List.mem_append.1 hl with hl | hl
        · exact htake l hl
        · rw [List.mem_singleton] at hl
          subst hl
          intro ht
          exact ht.1 h0
      · intro _
        rw [hswget]
        exact ⟨h0, hmem⟩
    · simp only [h0, if_false]
      by_cases hTrue : assigns.getD (orig.getD c (0, false)).1 false = (orig.getD c (0, false)).2
      · -- satisfying literal: the clause is satisfied
        simp only [hTrue, if_pos rfl, if_true]
        constructor
        · intro cl2 h
          cases h
          exact ⟨(swapFront_perm cur c hcc).trans hperm, orig.getD c (0, false), hmem, h0, hTrue⟩
        · intro cl2 cnt2 h
          cases h
      · -- false literal: move on unchanged
        simp only [hTrue, if_false]
        have hb : unassignedB level (orig.getD c (0, false)) = false := by
          unfold unassignedB
          exact beq_eq_false_iff_ne.2 h0
        refine ih cur (c + 1) cnt (by omega) hclen ?_ hperm ?_ ?_ hunit
        · have : cur.drop (c + 1) = (cur.drop c).drop 1 := by rw [List.drop_drop]
          rw [this, hdrop, List.drop_drop]
        · rw [htakesucc, List.countP_append, hcnt, List.countP_cons, hb]
          simp
        · intro l hl
          rw [htakesucc] at hl
          rcases List.mem_append.1 hl with hl | hl
          · exact htake l hl
          · rw [List.mem_singleton] at hl
            subst hl
            intro ht
            exact hTrue ht.2

theorem scanClause_satisfied {assigns : List Bool} {level : List Nat} {cl cl2 : List Lit}
    (h : scanClause assigns level cl = .satisfied cl2) :
    cl2.Perm cl ∧ ∃ l ∈ cl, litIsTrue assigns level l :=
  ((scanGo_spec assigns level cl cl.length cl 0 0 (by omega) rfl rfl (List.Perm.refl _)
    (by simp) (by simp) (by simp)).1 cl2 h)

theorem scanClause_scanned {assigns : List Bool} {level : List Nat} {cl cl2 : List Lit} {cnt : Nat}
    (h : scanClause assigns level cl = .scanned cl2 cnt) :
    cl2.Perm cl ∧ cnt = cl.countP (unassignedB level) ∧
    (∀ l ∈ cl, ¬ litIsTrue assigns level l) ∧
    (cnt ≠ 0 → litUnassigned level (cl2.getD 0 (0, false)) ∧ cl2.getD 0 (0, false) ∈ cl) :=
  ((scanGo_spec assigns level cl cl.length cl 0 0 (by omega) rfl rfl (List.Perm.refl _)
    (by simp) (by simp) (by simp)).2 cl2 cnt h)

/-- A clause scanned with count 0 is fully falsified. -/
theorem scanClause_conflict {assigns : List Bool} {level : List Nat} {cl cl2 : List Lit}
    (h : scanClause assigns level cl = .scanned cl2 0) :
    ∀ l ∈ cl, level.getD l.1 0 ≠ 0 ∧ assigns.getD l.1 false ≠ l.2 := by
  obtain ⟨hperm, hcnt, hfalse, _⟩ := scanClause_scanned h
  intro l hl
  have hun : ¬ unassignedB level l = true := List.countP_eq_zero.1 hcnt.symm l hl
  have hne : level.getD l.1 0 ≠ 0 := fun h0 => hun (by unfold unassignedB; exact beq_iff_eq.2 h0)
  exact ⟨hne, fun hev => hfalse l hl ⟨hne, hev⟩⟩

/-! ### More list helpers -/

theorem getD_set_zero (l : List Nat) (v : Nat) : (l.set v 0).getD v 0 = 0 := by
  by_cases h : v < l.length
  · exact getD_set_self h
  · rw [List.set_eq_of_length_le (by omega)]
    rw [List.getD_eq_getElem?_getD, List.getElem?_eq_none (by omega)]
    rfl

theorem set_getD_self {α : Type _} {l : List α} {v : Nat} {d : α} (h : v < l.length) :
    l.set v (l.getD v d) = l := by
  apply List.ext_getElem (by simp)
  intro i h1 h2
  rw [List.getElem_set]
  split
  · rename_i he
    subst he
    rw [List.getD_eq_getElem _ _ h]
  · rfl

theorem countP_two_positions {p : Lit → Bool} {cl : List Lit} {i j : Nat}
    (hij : i < j) (hj : j < cl.length)
    (hpi : p (cl.getD i (0, false)) = true) (hpj : p (cl.getD j (0, false)) = true) :
    2 ≤ cl.countP p := by
  have hi : i < cl.length := Nat.lt_trans hij hj
  have hdecomp : cl = cl.take i ++ cl[i] :: cl.drop (i + 1) := by
    rw [List.getElem_cons_drop cl i hi, List.take_append_drop]
  have hidx : i + 1 + (j - i - 1) = j := by omega
  have hjd : (cl.drop (i + 1)).getD (j - i - 1) (0, false) = cl.getD j (0, false) := by
    rw [List.getD_eq_getElem?_getD, List.getD_eq_getElem?_getD, List.getElem?_drop, hidx]
  have hjlen : j - i - 1 < (cl.drop (i + 1)).length := by
    rw [List.length_drop]
    omega
  have hmemj : cl.getD j (0, false) ∈ cl.drop (i + 1) := by
    rw [← hjd, List.getD_eq_getElem _ _ hjlen]
    exact List.getElem_mem hjlen
  have h1 : 0 < (cl.drop (i + 1)).countP p := List.countP_pos_iff.2 ⟨_, hmemj, hpj⟩
  have hcl : p cl[i] = true := by
    have h2 := hpi
    rw [List.getD_eq_getElem cl (0, false) hi] at h2
    exact h2
  have hsum : cl.countP p =
      (cl.take i).countP p + ((cl.drop (i + 1)).countP p + 1) := by
    conv_lhs => rw [hdecomp]
    rw [List.countP_append, List.countP_cons, hcl]
    simp
  omega

/-! ### Observables of a propagation step -/

/-- Whether the step reported a conflict. -/
def PropStep.isConflict : PropStep → Bool
  | .conflict _ _ => true
  | .next _ => false

/-- The solver state carried by the step. -/
def PropStep.state : PropStep → Solver
  | .conflict _ s => s
  | .next s => s

/-- Reduction of `propClause` once the scan result is known to be `satisfied`. -/
theorem propClause_eq_satisfied {s : Solver} {cr : Nat} {cl2 : List Lit}
    (hscan : scanClause s.assigns s.level (s.clauses.getD cr []) = .satisfied cl2) :
    propClause s cr = .next { s with clauses := s.clauses.set cr cl2 } := by
  unfold propClause
  rw [hscan]

/-- Reduction of `propClause` once the scan result is known to be `scanned`. -/
theorem propClause_eq_scanned {s : Solver} {cr : Nat} {cl2 : List Lit} {cnt : Nat}
    (hscan : scanClause s.assigns s.level (s.clauses.getD cr []) = .scanned cl2 cnt) :
    propClause s cr =
      (if cnt = 0 then .conflict cr { s with clauses := s.clauses.set cr cl2 }
       else if cnt = 1 then
         .next (Solver.enqueue { s with clauses := s.clauses.set cr cl2 }
           (cl2.getD 0 (0, false)).1 (cl2.getD 0 (0, false)).2 (some cr))
       else .next { s with clauses := s.clauses.set cr cl2 }) := by
  unfold propClause
  rw [hscan]

/-- Exhaustive description of `propClause` when it does not conflict. -/
theorem propClause_next_inv {s : Solver} {cr : Nat} {s1 : Solver}
    (h : propClause s cr = .next s1) :
    (∃ cl2, cl2.Perm (s.clauses.getD cr []) ∧
        s1 = { s with clauses := s.clauses.set cr cl2 } ∧
        ((∃ l ∈ s.clauses.getD cr [], litIsTrue s.assigns s.level l) ∨
         2 ≤ (s.clauses.getD cr []).countP (unassignedB s.level))) ∨
    (∃ cl2 u, cl2.Perm (s.clauses.getD cr []) ∧
        litUnassigned s.level u ∧ u ∈ s.clauses.getD cr [] ∧
        (s.clauses.getD cr []).countP (unassignedB s.level) = 1 ∧
        (∀ l ∈ s.clauses.getD cr [], ¬ litIsTrue s.assigns s.level l) ∧
        s1 = Solver.enqueue { s with clauses := s.clauses.set cr cl2 } u.1 u.2 (some cr)) := by
  cases hscan : scanClause s.assigns s.level (s.clauses.getD cr []) with
  | satisfied cl2 =>
    rw [propClause_eq_satisfied hscan] at h
    cases h
    obtain ⟨hperm, hex⟩ := scanClause_satisfied hscan
    exact Or.inl ⟨cl2, hperm, rfl, Or.inl hex⟩
  | scanned cl2 cnt =>
    rw [propClause_eq_scanned hscan] at h
    obtain ⟨hperm, hcnt, hfalse, hunit⟩ := scanClause_scanned hscan
    by_cases h0 : cnt = 0
    · rw [if_pos h0] at h
      cases h
    · rw [if_neg h0] at h
      by_cases h1 : cnt = 1
      · rw [if_pos h1] at h
        cases h
        refine Or.inr ⟨cl2, cl2.getD 0 (0, false), hperm, ?_, ?_, ?_, hfalse, rfl⟩
        · exact (hunit h0).1
        · exact (hunit h0).2
        · omega
      · rw [if_neg h1] at h
        cases h
        exact Or.inl ⟨cl2, hperm, rfl, Or.inr (by omega)⟩

/-- Description of `propClause` when it reports a conflict. -/
theorem propClause_conflict_inv {s : Solver} {cr cr2 : Nat} {s1 : Solver}
    (h : propClause s cr = .conflict cr2 s1) :
    cr2 = cr ∧ (∃ cl2, cl2.Perm (s.clauses.getD cr []) ∧
      s1 = { s with clauses := s.clauses.set cr cl2 }) ∧
    (∀ l ∈ s.clauses.getD cr [],
      s.level.getD l.1 0 ≠ 0 ∧ s.assigns.getD l.1 false ≠ l.2) := by
  cases hscan : scanClause s.assigns s.level (s.clauses.getD cr []) with
  | satisfied cl2 =>
    rw [propClause_eq_satisfied hscan] at h
    cases h
  | scanned cl2 cnt =>
    rw [propClause_eq_scanned hscan] at h
    by_cases h0 : cnt = 0
    · rw [if_pos h0] at h
      cases h
      subst h0
      obtain ⟨hperm, _, _, _⟩ := scanClause_scanned hscan
      exact ⟨rfl, ⟨cl2, hperm, rfl⟩, scanClause_conflict hscan⟩
    · rw [if_neg h0] at h
      by_cases h1 : cnt = 1
      · rw [if_pos h1] at h
        cases h
      · rw [if_neg h1] at h
        cases h

/-! ### C10: unit detection counts literal occurrences, not variables -/

/-- C10: when propagation scans a watched clause, the unassigned count is
incremented once per literal occurrence, so a clause containing the same
unassigned variable in two literal positions (with every other literal false)
yields a count of at least 2 and forces nothing, and is not reported as a
conflict while that variable is unassigned. -/
theorem propClause_counts_occurrences (s : Solver) (cr i j : Nat)
    (hij : i < j) (hj : j < (s.clauses.getD cr []).length)
    (hsame : ((s.clauses.getD cr []).getD i (0, false)).1 =
             ((s.clauses.getD cr []).getD j (0, false)).1)
    (hui : litUnassigned s.level ((s.clauses.getD cr []).getD i (0, false)))
    (huj : litUnassigned s.level ((s.clauses.getD cr []).getD j (0, false)))
    (hnosat : ∀ l ∈ s.clauses.getD cr [], ¬ litIsTrue s.assigns s.level l) :
    2 ≤ (s.clauses.getD cr []).countP (unassignedB s.level) ∧
    (propClause s cr).isConflict = false ∧
    (propClause s cr).state.que = s.que ∧
    (propClause s cr).state.assigns = s.assigns ∧
    (propClause s cr).state.level = s.level ∧
    (propClause s cr).state.reason = s.reason := by
  have hcnt2 : 2 ≤ (s.clauses.getD cr []).countP (unassignedB s.level) := by
    refine countP_two_positions hij hj ?_ ?_
    · unfold unassignedB
      exact beq_iff_eq.2 hui
    · unfold unassignedB
      exact beq_iff_eq.2 huj
  refine ⟨hcnt2, ?_⟩
  cases hscan : scanClause s.assigns s.level (s.clauses.getD cr []) with
  | satisfied cl2 =>
    obtain ⟨_, l, hl, hlt⟩ := scanClause_satisfied hscan
    exact absurd hlt (hnosat l hl)
  | scanned cl2 cnt =>
    obtain ⟨hperm, hcnt, _, _⟩ := scanClause_scanned hscan
    rw [propClause_eq_scanned hscan, if_neg (by omega), if_neg (by omega)]
    exact ⟨rfl, rfl, rfl, rfl, rfl⟩

theorem propClause_counts_occurrences_witness :
    2 ≤ ((Solver.new 1 [[(0, true), (0, true)]]).clauses.getD 0 []).countP
        (unassignedB (Solver.new 1 [[(0, true), (0, true)]]).level) ∧
    (propClause (Solver.new 1 [[(0, true), (0, true)]]) 0).isConflict = false ∧
    (propClause (Solver.new 1 [[(0, true), (0, true)]]) 0).state.que =
      (Solver.new 1 [[(0, true), (0, true)]]).que := by
  have h := propClause_counts_occurrences (Solver.new 1 [[(0, true), (0, true)]]) 0 0 1
    (by decide) (by decide) (by decide) (by decide) (by decide) (by decide)
  exact ⟨h.1, h.2.1, h.2.2.1⟩

/-! ### C9: the backtracking undo step -/

theorem cancelGo_cons (bt : Nat) (v : Var) (rest : List Var) (level : List Nat) :
    cancelGo bt (v :: rest) level =
      if bt < level.getD v 0 then cancelGo bt rest (level.set v 0)
      else (v :: rest, level) := rfl

theorem cancelGo_spec (bt : Nat) : ∀ (rq : List Var) (level : List Nat),
    rq.Nodup →
    (rq.map (fun v => level.getD v 0)).Pairwise (fun a b => b ≤ a) →
    (∃ pop, rq = pop ++ (cancelGo bt rq level).1 ∧
      ∀ v ∈ pop, bt < level.getD v 0) ∧
    (∀ v ∈ (cancelGo bt rq level).1, level.getD v 0 ≤ bt) ∧
    (∀ v ∈ rq, bt < level.getD v 0 → (cancelGo bt rq level).2.getD v 0 = 0) ∧
    (∀ v, ¬(v ∈ rq ∧ bt < level.getD v 0) →
      (cancelGo bt rq level).2.getD v 0 = level.getD v 0) := by
  intro rq
  induction rq with
  | nil =>
    intro level hnd hpw
    exact ⟨⟨[], rfl, by simp⟩, by simp [cancelGo], by simp, fun v _ => rfl⟩
  | cons v rest ih =>
    intro level hnd hpw
    have hvrest : v ∉ rest := (List.nodup_cons.1 hnd).1
    have hndr : rest.Nodup := (List.nodup_cons.1 hnd).2
    have hmap : rest.map (fun w => (level.set v 0).getD w 0) =
        rest.map (fun w => level.getD w 0) := by
      apply List.map_congr_left
      intro w hw
      exact getD_set_ne (fun he => hvrest (he ▸ hw))
    have hpwr : (rest.map (fun w => level.getD w 0)).Pairwise (fun a b => b ≤ a) :=
      (List.pairwise_cons.1 hpw).2
    have hhead : ∀ w ∈ rest, level.getD w 0 ≤ level.getD v 0 := by
      intro w hw
      exact (List.pairwise_cons.1 hpw).1 _ (List.mem_map_of_mem _ hw)
    by_cases h : bt < level.getD v 0
    · have hcg : cancelGo bt (v :: rest) level = cancelGo bt rest (level.set v 0) := by
        rw [cancelGo_cons, if_pos h]
      have hlevmem : ∀ w ∈ rest, (level.set v 0).getD w 0 = level.getD w 0 :=
        fun w hw => getD_set_ne (fun he => hvrest (he ▸ hw))
      obtain ⟨⟨pop, hdec, hpop⟩, hkept, hzero, hframe⟩ :=
        ih (level.set v 0) hndr (by rw [hmap]; exact hpwr)
      rw [hcg]
      have hkeptsub : ∀ w ∈ (cancelGo bt rest (level.set v 0)).1, w ∈ rest := by
        intro w hw
        rw [hdec]
        exact List.mem_append.2 (Or.inr hw)
      refine ⟨⟨v :: pop, by rw [List.cons_append, ← hdec], ?_⟩, ?_, ?_, ?_⟩
      · intro w hw
        rcases List.mem_cons.1 hw with he | hw2
        · subst he; exact h
        · rw [← hlevmem w (by rw [hdec]; exact List.mem_append.2 (Or.inl hw2))]
          exact hpop w hw2
      · intro w hw
        rw [← hlevmem w (hkeptsub w hw)]
        exact hkept w hw
      · intro w hw hbw
        rcases List.mem_cons.1 hw with he | hw2
        · rw [he, hframe v (fun hc => hvrest hc.1)]
          exact getD_set_zero level v
        · rw [← hlevmem w hw2] at hbw
          exact hzero w hw2 hbw
      · intro w hw
        have hwv : w ≠ v := by
          intro he
          subst he
          exact hw ⟨List.mem_cons_self _ _, h⟩
        rw [hframe w ?_, getD_set_ne (fun he => hwv he.symm)]
        intro ⟨hwr, hbw⟩
        rw [hlevmem w hwr] at hbw
        exact hw ⟨List.mem_cons.2 (Or.inr hwr), hbw⟩
    · have hcg : cancelGo bt (v :: rest) level = (v :: rest, level) := by
        rw [cancelGo_cons, if_neg h]
      rw [hcg]
      refine ⟨⟨[], rfl, by simp⟩, ?_, ?_, fun w _ => rfl⟩
      · intro w hw
        rcases List.mem_cons.1 hw with he | hw2
        · subst he; omega
        · exact Nat.le_trans (hhead w hw2) (by omega)
      · intro w hw hbw
        exfalso
        rcases List.mem_cons.1 hw with he | hw2
        · subst he; omega
        · have := hhead w hw2
          omega

/-- C9: the undo step of conflict analysis pops exactly the trail-tail
variables whose level is strictly greater than the backtrack level; each
popped variable gets level 0 while its assignment and reason are untouched,
and everything else (including all variables not popped) is unchanged. -/
theorem cancelUntil_spec (s : Solver) (bt : Nat)
    (hsort : (s.que.map (fun v => s.level.getD v 0)).Chain' (· ≤ ·))
    (hnd : s.que.Nodup) :
    (s.cancelUntil bt).assigns = s.assigns ∧
    (s.cancelUntil bt).reason = s.reason ∧
    (s.cancelUntil bt).clauses = s.clauses ∧
    (s.cancelUntil bt).watchers = s.watchers ∧
    (s.cancelUntil bt).head = s.head ∧
    (s.cancelUntil bt).n = s.n ∧
    s.que = (s.cancelUntil bt).que ++ s.que.drop (s.cancelUntil bt).que.length ∧
    (∀ v ∈ (s.cancelUntil bt).que, s.level.getD v 0 ≤ bt) ∧
    (∀ v ∈ s.que.drop (s.cancelUntil bt).que.length,
      bt < s.level.getD v 0 ∧ (s.cancelUntil bt).level.getD v 0 = 0) ∧
    (∀ v, ¬(v ∈ s.que ∧ bt < s.level.getD v 0) →
      (s.cancelUntil bt).level.getD v 0 = s.level.getD v 0) := by
  have hndr : s.que.reverse.Nodup := List.nodup_reverse.2 hnd
  have hpw : (s.que.map (fun v => s.level.getD v 0)).Pairwise (· ≤ ·) :=
    List.chain'_iff_pairwise.1 hsort
  have hpwr : (s.que.reverse.map (fun v => s.level.getD v 0)).Pairwise
      (fun a b => b ≤ a) := by
    rw [List.map_reverse]
    exact List.pairwise_reverse.2 hpw
  obtain ⟨⟨pop, hdec, hpop⟩, hkept, hzero, hframe⟩ :=
    cancelGo_spec bt s.que.reverse s.level hndr hpwr
  have hque : (s.cancelUntil bt).que = (cancelGo bt s.que.reverse s.level).1.reverse := rfl
  have hlev : (s.cancelUntil bt).level = (cancelGo bt s.que.reverse s.level).2 := rfl
  have hqdec : s.que = (cancelGo bt s.que.reverse s.level).1.reverse ++ pop.reverse := by
    have := congrArg List.reverse hdec
    rw [List.reverse_reverse, List.reverse_append] at this
    exact this
  have hdrop : s.que.drop (s.cancelUntil bt).que.length = pop.reverse := by
    have h2 := congrArg
      (List.drop (cancelGo bt s.que.reverse s.level).1.reverse.length) hqdec
    rw [List.drop_left] at h2
    rw [hque]
    exact h2
  have hmemrev : ∀ v, v ∈ s.que.reverse ↔ v ∈ s.que := fun v => List.mem_reverse
  refine ⟨rfl, rfl, rfl, rfl, rfl, rfl, ?_, ?_, ?_, ?_⟩
  · rw [hdrop, hque]
    exact hqdec
  · intro v hv
    rw [hque, List.mem_reverse] at hv
    exact hkept v hv
  · intro v hv
    rw [hdrop, List.mem_reverse] at hv
    refine ⟨hpop v hv, ?_⟩
    rw [hlev]
    refine hzero v ?_ (hpop v hv)
    rw [hdec]
    exact List.mem_append.2 (Or.inl hv)
  · intro v hv
    rw [hlev]
    refine hframe v ?_
    intro ⟨hvq, hbv⟩
    exact hv ⟨(hmemrev v).1 hvq, hbv⟩

theorem cancelUntil_spec_witness :
    (({ n := 3, assigns := [true, true, false], clauses := [], watchers := [],
        reason := [none, none, none], level := [1, 2, 2], que := [0, 1, 2],
        head := 3 } : Solver).cancelUntil 1).assigns = [true, true, false] ∧
    (({ n := 3, assigns := [true, true, false], clauses := [], watchers := [],
        reason := [none, none, none], level := [1, 2, 2], que := [0, 1, 2],
        head := 3 } : Solver).cancelUntil 1).reason = [none, none, none] := by
  have h := cancelUntil_spec
    { n := 3, assigns := [true, true, false], clauses := [], watchers := [],
      reason := [none, none, none], level := [1, 2, 2], que := [0, 1, 2], head := 3 } 1
    (List.chain'_iff_pairwise.2 (by decide)) (by decide)
  exact ⟨h.1, h.2.1⟩

/-! ### C8: the decision step uses the stale polarity -/

theorem findUnassigned_spec {s : Solver} {v : Var} (h : s.findUnassigned = some v) :
    v < s.n ∧ s.level.getD v 0 = 0 ∧ ∀ w, w < v → s.level.getD w 0 ≠ 0 := by
  unfold Solver.findUnassigned at h
  rw [List.find?_eq_some] at h
  obtain ⟨hp, as, bs, hsplit, hrest⟩ := h
  have hv0 : s.level.getD v 0 = 0 := beq_iff_eq.1 hp
  have hvn : v < s.n := by
    have hv : v ∈ List.range s.n := by
      rw [hsplit]
      exact List.mem_append.2 (Or.inr (List.mem_cons_self _ _))
    exact List.mem_range.1 hv
  have hlen : as.length ≤ s.n := by
    have h3 := congrArg List.length hsplit
    rw [List.length_range, List.length_append, List.length_cons] at h3
    omega
  have has : as = List.range as.length := by
    have h2 := congrArg (List.take as.length) hsplit
    rw [List.take_range, List.take_left, Nat.min_eq_left hlen] at h2
    exact h2.symm
  have hvlen : v = as.length := by
    have h2 : (List.range s.n)[as.length]? = some v := by
      rw [hsplit, List.getElem?_append_right (Nat.le_refl _)]
      simp
    rw [List.getElem?_range] at h2
    · exact (Option.some_inj.1 h2).symm
    · by_contra hc
      rw [List.getElem?_eq_none (by simpa using hc)] at h2
      cases h2
  refine ⟨hvn, hv0, ?_⟩
  intro w hw
  have hwas : w ∈ as := by
    rw [has, List.mem_range, ← hvlen]
    exact hw
  have hfa : (s.level.getD w 0 == 0) = false := by
    have h4 := hrest w hwas
    rwa [Bool.not_eq_true'] at h4
  intro h0
  have h5 := beq_iff_eq.2 h0
  rw [hfa] at h5
  cases h5

/-- Reduction of one `solve` iteration in the decision case. -/
theorem solveStep_done_decide {pf af : Nat} {s s1 : Solver} {v : Var}
    (hprop : propagateGo pf s = some (.done s1))
    (hfind : s1.findUnassigned = some v) :
    s.solveStep pf af = .ok (.next
      { s1.enqueue v (s1.assigns.getD v false) none with
        level := (s1.enqueue v (s1.assigns.getD v false) none).level.set v
          ((s1.enqueue v (s1.assigns.getD v false) none).level.getD v 0 + 1) }) := by
  simp only [Solver.solveStep, hprop, hfind]

/-- C8: the decide phase selects the first variable with level 0, enqueues it
as a decision (reason `none`) with branching value the boolean currently in
`assigns` (left unchanged as a list), then sets its level to one more than the
previous trail tail's level; the stored value is `false` at construction and
is never reset by the backtracking step. -/
theorem solveStep_decision_stale (pf af : Nat) (s s1 : Solver) (v : Var)
    (n0 : Nat) (cs0 : List (List Lit)) (sb : Solver) (bt : Nat)
    (hprop : propagateGo pf s = some (.done s1))
    (hfind : s1.findUnassigned = some v)
    (hva : v < s1.assigns.length) (hvl : v < s1.level.length) :
    s.solveStep pf af = .ok (.next
      { s1 with
        reason := s1.reason.set v none,
        level := s1.level.set v (tailLevel s1 + 1),
        que := s1.que ++ [v] }) ∧
    v < s1.n ∧ s1.level.getD v 0 = 0 ∧ (∀ w, w < v → s1.level.getD w 0 ≠ 0) ∧
    (Solver.new n0 cs0).assigns = List.replicate n0 false ∧
    (sb.cancelUntil bt).assigns = sb.assigns := by
  obtain ⟨hvn, hv0, hfirst⟩ := findUnassigned_spec hfind
  refine ⟨?_, hvn, hv0, hfirst, ?_, rfl⟩
  · rw [solveStep_done_decide hprop hfind]
    have heq1 : s1.assigns.set v (s1.assigns.getD v false) = s1.assigns :=
      set_getD_self hva
    have heq2 : (s1.level.set v (tailLevel s1)).set v
        ((s1.level.set v (tailLevel s1)).getD v 0 + 1) =
        s1.level.set v (tailLevel s1 + 1) := by
      rw [getD_set_self hvl, List.set_set]
    show Except.ok (Step.next
      { n := s1.n, assigns := s1.assigns.set v (s1.assigns.getD v false),
        clauses := s1.clauses, watchers := s1.watchers,
        reason := s1.reason.set v none,
        level := (s1.level.set v (tailLevel s1)).set v
          ((s1.level.set v (tailLevel s1)).getD v 0 + 1),
        que := s1.que ++ [v], head := s1.head }) = _
    rw [heq1, heq2]
  · unfold Solver.new
    have hgen : ∀ (cs : List (List Lit)) (st : Solver),
        (cs.foldl (fun s c => s.add_clause c) st).assigns = st.assigns := by
      intro cs
      induction cs with
      | nil => intro st; rfl
      | cons c rest ih => intro st; exact ih _
    rw [hgen]

theorem solveStep_decision_stale_witness :
    (0 : Var) < (Solver.new 2 [[(0, true), (1, true)]]).n ∧
    (Solver.new 3 []).assigns = List.replicate 3 false := by
  have h := solveStep_decision_stale 5 5 (Solver.new 2 [[(0, true), (1, true)]])
    (Solver.new 2 [[(0, true), (1, true)]]) 0 3 [] (Solver.new 2 []) 1
    (by decide) (by decide) (by decide) (by decide)
  exact ⟨h.2.1, h.2.2.2.2.1⟩

/-! ### C3: unit clauses do not force before a conflicting decision -/

/-- C3 counterexample: on the one-variable formula consisting of the single
unit clause x0, the very first iteration of `solve` takes a decision (reason
`none`) assigning x0 := false — the negation of the forced value — while the
unit clause is registered and x0 is still unassigned (level 0 beforehand). -/
theorem unit_clause_decision_violated :
    (Solver.new 1 [[(0, true)]]).clauses = [[(0, true)]] ∧
    (Solver.new 1 [[(0, true)]]).level.getD 0 0 = 0 ∧
    (Solver.new 1 [[(0, true)]]).solveStep 5 5 = .ok (.next
      { n := 1, assigns := [false], clauses := [[(0, true)]],
        watchers := [((0, true), [0])], reason := [none], level := [2],
        que := [0], head := 0 }) := by decide

/-- True when a propagation run completed without finding a conflict. -/
def propagateDoneB (fuel : Nat) (s : Solver) : Bool :=
  match propagateGo fuel s with
  | some (.done _) => true
  | _ => false

/-- Invariant for the amended C3: clause `c` is the registered unit clause
`[(v, sgn)]`, its literal is currently false, and auxiliary well-formedness of
the state that unit propagation preserves. -/
def UnitPending (c : Nat) (v : Var) (sgn : Bool) (s : Solver) : Prop :=
  s.clauses.getD c [] = [(v, sgn)] ∧
  c ∈ watchGet s.watchers (v, sgn) ∧
  s.level.getD v 0 ≠ 0 ∧
  s.assigns.getD v false = !sgn ∧
  (∀ w ∈ s.que, s.level.getD w 0 ≠ 0) ∧
  (∀ cl ∈ s.clauses, ∀ l ∈ cl, l.1 < s.level.length) ∧
  s.que ≠ []

instance decUnitPending (c : Nat) (v : Var) (sgn : Bool) (s : Solver) :
    Decidable (UnitPending c v sgn s) := by
  unfold UnitPending
  infer_instance

theorem mem_set_or {α : Type _} {l : List α} {i : Nat} {x y : α}
    (h : y ∈ l.set i x) : y = x ∨ y ∈ l := by
  induction l generalizing i with
  | nil => cases h
  | cons a t ih =>
    cases i with
    | zero =>
      rcases List.mem_cons.1 h with he | ht
      · exact Or.inl he
      · exact Or.inr (List.mem_cons.2 (Or.inr ht))
    | succ i =>
      rcases List.mem_cons.1 h with he | ht
      · exact Or.inr (List.mem_cons.2 (Or.inl he))
      · rcases ih ht with he | ht2
        · exact Or.inl he
        · exact Or.inr (List.mem_cons.2 (Or.inr ht2))

/-- Scanning a falsified singleton clause reports count 0 (a conflict). -/
theorem scanClause_singleton_false {assigns : List Bool} {level : List Nat}
    {v : Var} {sgn : Bool}
    (hlv : level.getD v 0 ≠ 0) (hav : assigns.getD v false ≠ sgn) :
    scanClause assigns level [(v, sgn)] = .scanned [(v, sgn)] 0 := by
  show (if level.getD v 0 = 0 then
          scanGo assigns level 0 (swapFront [(v, sgn)] 0) 1 1
        else if assigns.getD v false = sgn then
          .satisfied (swapFront [(v, sgn)] 0)
        else scanGo assigns level 0 [(v, sgn)] 1 0) = .scanned [(v, sgn)] 0
  rw [if_neg hlv, if_neg hav]
  rfl

/-- `propClause` on a registered falsified unit clause reports it as the
conflict. -/
theorem propClause_unit_conflict {s : Solver} {c : Nat} {v : Var} {sgn : Bool}
    (hcl : s.clauses.getD c [] = [(v, sgn)])
    (hlv : s.level.getD v 0 ≠ 0)
    (hav : s.assigns.getD v false = !sgn) :
    propClause s c = .conflict c { s with clauses := s.clauses.set c [(v, sgn)] } := by
  have hne : s.assigns.getD v false ≠ sgn := by
    rw [hav]
    cases sgn <;> simp
  have hscan : scanClause s.assigns s.level (s.clauses.getD c []) = .scanned [(v, sgn)] 0 := by
    rw [hcl]
    exact scanClause_singleton_false hlv hne
  rw [propClause_eq_scanned hscan, if_pos rfl]

/-- `propClause` preserves the `UnitPending` invariant when no conflict is
reported, extends the trail only by appending, and touches neither the head
cursor nor the watchers. -/
theorem propClause_next_unit {c : Nat} {v : Var} {sgn : Bool} {s s2 : Solver} {cr : Nat}
    (hU : UnitPending c v sgn s) (h : propClause s cr = .next s2) :
    UnitPending c v sgn s2 ∧ s2.head = s.head ∧ ∃ ext, s2.que = s.que ++ ext := by
  obtain ⟨hcl, hw, hlv, hav, hqpos, hvars, hqne⟩ := hU
  have hclset : ∀ cl2 : List Lit, cl2.Perm (s.clauses.getD cr []) →
      (s.clauses.set cr cl2).getD c [] = [(v, sgn)] := by
    intro cl2 hperm
    by_cases hceq : cr = c
    · subst hceq
      by_cases hcr : cr < s.clauses.length
      · rw [getD_set_self (by simpa using hcr)]
        rw [hcl] at hperm
        exact List.perm_singleton.1 hperm
      · rw [List.set_eq_of_length_le (by omega)]
        exact hcl
    · rw [getD_set_ne hceq]
      exact hcl
  have hvarsset : ∀ cl2 : List Lit, cl2.Perm (s.clauses.getD cr []) →
      ∀ cl ∈ s.clauses.set cr cl2, ∀ l ∈ cl, l.1 < s.level.length := by
    intro cl2 hperm cl hmem l hl
    rcases mem_set_or hmem with he | hmem2
    · subst he
      have hl2 : l ∈ s.clauses.getD cr [] := hperm.mem_iff.1 hl
      by_cases hcr : cr < s.clauses.length
      · refine hvars _ ?_ l hl2
        rw [List.getD_eq_getElem _ _ hcr]
        exact List.getElem_mem hcr
      · rw [List.getD_eq_getElem?_getD, List.getElem?_eq_none (by omega)] at hl2
        cases hl2
    · exact hvars cl hmem2 l hl
  rcases propClause_next_inv h with ⟨cl2, hperm, hs2, _⟩ | ⟨cl2, u, hperm, hu0, humem, _, _, hs2⟩
  · subst hs2
    refine ⟨⟨hclset cl2 hperm, hw, hlv, hav, hqpos, hvarsset cl2 hperm, hqne⟩, rfl, [], by simp⟩
  · -- a unit literal u was enqueued; its variable was unassigned, so ≠ v
    have huv : u.1 ≠ v := by
      intro he
      unfold litUnassigned at hu0
      rw [he] at hu0
      exact hlv hu0
    have hulen : u.1 < s.level.length := by
      by_cases hcr : cr < s.clauses.length
      · refine hvars _ ?_ u humem
        rw [List.getD_eq_getElem _ _ hcr]
        exact List.getElem_mem hcr
      · rw [List.getD_eq_getElem?_getD, List.getElem?_eq_none (by omega)] at humem
        cases humem
    have hunotq : u.1 ∉ s.que := fun hq => hqpos u.1 hq hu0
    subst hs2
    have htl : tailLevel { s with clauses := s.clauses.set cr cl2 } ≠ 0 := by
      unfold tailLevel
      show (match s.que.getLast? with
        | some last => s.level.getD last 0
        | none => 1) ≠ 0
      cases hlast : s.que.getLast? with
      | some last =>
        have hlmem : last ∈ s.que := by
          obtain ⟨hne2, heq⟩ := List.mem_getLast?_eq_getLast
            (show last ∈ s.que.getLast? by rw [hlast]; rfl)
          rw [heq]
          exact List.getLast_mem hne2
        exact hqpos last hlmem
      | none =>
        exact one_ne_zero
    refine ⟨⟨?_, hw, ?_, ?_, ?_, ?_, ?_⟩, rfl, [u.1], rfl⟩
    · show ((s.clauses.set cr cl2).getD c []) = [(v, sgn)]
      exact hclset cl2 hperm
    · show (s.level.set u.1 _).getD v 0 ≠ 0
      rw [getD_set_ne huv]
      exact hlv
    · show (s.assigns.set u.1 u.2).getD v false = !sgn
      rw [getD_set_ne huv]
      exact hav
    · intro w hwq
      rcases List.mem_append.1 hwq with hwq | hwq
      · have hwu : u.1 ≠ w := fun he => hunotq (he ▸ hwq)
        show (s.level.set u.1 _).getD w 0 ≠ 0
        rw [getD_set_ne hwu]
        exact hqpos w hwq
      · rw [List.mem_singleton] at hwq
        subst hwq
        show (s.level.set u.1 _).getD u.1 0 ≠ 0
        rw [getD_set_self hulen]
        exact htl
    · intro cl hcl2 l hl
      have hlt := hvarsset cl2 hperm cl hcl2 l hl
      show l.1 < (s.level.set u.1 _).length
      rw [List.length_set]
      exact hlt
    · show s.que ++ [u.1] ≠ []
      simp


/-- The watcher-list fold preserves `UnitPending`, the head cursor, and the
trail front when it finishes without a conflict. -/
theorem propClauses_next_unit {c : Nat} {v : Var} {sgn : Bool} :
    ∀ (lst : List Nat) (s s2 : Solver), UnitPending c v sgn s →
    propClauses s lst = .next s2 →
    UnitPending c v sgn s2 ∧ s2.head = s.head ∧ ∃ ext, s2.que = s.que ++ ext := by
  intro lst
  induction lst with
  | nil =>
    intro s s2 hU h
    cases h
    exact ⟨hU, rfl, [], by simp⟩
  | cons cr rest ih =>
    intro s s2 hU h
    unfold propClauses at h
    cases hpc : propClause s cr with
    | conflict c2 s1 =>
      rw [hpc] at h
      cases h
    | next s1 =>
      rw [hpc] at h
      obtain ⟨hU1, hh1, ext1, hq1⟩ := propClause_next_unit hU hpc
      obtain ⟨hU2, hh2, ext2, hq2⟩ := ih s1 s2 hU1 h
      exact ⟨hU2, by rw [hh2, hh1], ext1 ++ ext2,
        by rw [hq2, hq1, List.append_assoc]⟩

/-- If the watcher list contains the falsified registered unit clause, the
fold cannot finish without reporting a conflict. -/
theorem propClauses_conflict_unit {c : Nat} {v : Var} {sgn : Bool} :
    ∀ (lst : List Nat) (s : Solver), UnitPending c v sgn s → c ∈ lst →
    ∀ s2, propClauses s lst ≠ .next s2 := by
  intro lst
  induction lst with
  | nil =>
    intro s hU hc
    cases hc
  | cons cr rest ih =>
    intro s hU hc s2 h
    unfold propClauses at h
    cases hpc : propClause s cr with
    | conflict c2 s1 =>
      rw [hpc] at h
      cases h
    | next s1 =>
      rw [hpc] at h
      rcases List.mem_cons.1 hc with he | hcr
      · subst he
        obtain ⟨hcl, _, hlv, hav, _, _, _⟩ := hU
        rw [propClause_unit_conflict hcl hlv hav] at hpc
        cases hpc
      · obtain ⟨hU1, _, _, _⟩ := propClause_next_unit hU hpc
        exact ih s1 hU1 hcr s2 h

/-- Unfolding equation for one iteration of `propagateGo`. -/
theorem propagateGo_succ (fuel : Nat) (s : Solver) :
    propagateGo (fuel + 1) s =
      (if s.head < s.que.length then
        match propClauses { s with head := s.head + 1 }
            (watchGet s.watchers
              (s.que.getD s.head 0, !s.assigns.getD (s.que.getD s.head 0) false)) with
        | .conflict cr s2 => some (.conflict cr s2)
        | .next s2 => propagateGo fuel s2
      else some (.done s)) := rfl

/-- C3 (amended): a decision conflicting with a registered unit clause can be
taken; what the unit clause guarantees instead is a conflict report: whenever
its literal `(v, sgn)` is false with `v` assigned and still pending in the
propagation queue, no propagation run — with however much fuel — completes
without reporting a conflict. -/
theorem unit_clause_forces_conflict (c : Nat) (v : Var) (sgn : Bool) :
    ∀ (fuel : Nat) (s : Solver), UnitPending c v sgn s →
    (∃ i, s.head ≤ i ∧ i < s.que.length ∧ s.que.getD i 0 = v) →
    propagateDoneB fuel s = false := by
  intro fuel
  induction fuel with
  | zero =>
    intro s hU hpend
    rfl
  | succ fuel ih =>
    intro s hU hpend
    obtain ⟨i, hhi, hilen, hiv⟩ := hpend
    have hlt : s.head < s.que.length := Nat.lt_of_le_of_lt hhi hilen
    unfold propagateDoneB
    rw [propagateGo_succ, if_pos hlt]
    have hU1 : UnitPending c v sgn { s with head := s.head + 1 } := hU
    by_cases hhead : s.head = i
    · -- the falsified unit variable is being processed: the fold must conflict
      have hp : ((s.que.getD s.head 0 : Var),
          !s.assigns.getD (s.que.getD s.head 0) false) = ((v : Var), sgn) := by
        rw [hhead, hiv, hU.2.2.2.1, Bool.not_not]
      rw [hp]
      cases hfold : propClauses { s with head := s.head + 1 }
          (watchGet s.watchers (v, sgn)) with
      | conflict cr s2 =>
        rfl
      | next s2 =>
        exact absurd hfold (propClauses_conflict_unit _ _ hU1 hU1.2.1 s2)
    · -- another entry is processed first; the invariant is preserved
      cases hfold : propClauses { s with head := s.head + 1 }
          (watchGet s.watchers
            (s.que.getD s.head 0, !s.assigns.getD (s.que.getD s.head 0) false)) with
      | conflict cr s2 =>
        rfl
      | next s2 =>
        obtain ⟨hU2, hh2, ext, hq2⟩ := propClauses_next_unit _ _ _ hU1 hfold
        show propagateDoneB fuel s2 = false
        refine ih s2 hU2 ⟨i, ?_, ?_, ?_⟩
        · rw [hh2]
          show s.head + 1 ≤ i
          omega
        · rw [hq2]
          show i < (s.que ++ ext).length
          rw [List.length_append]
          omega
        · rw [hq2, getD_append_left hilen]
          exact hiv

theorem unit_clause_forces_conflict_witness :
    UnitPending 0 0 true
      { n := 1, assigns := [false], clauses := [[(0, true)]],
        watchers := [((0, true), [0])], reason := [none], level := [2],
        que := [0], head := 0 } ∧
    propagateDoneB 5
      { n := 1, assigns := [false], clauses := [[(0, true)]],
        watchers := [((0, true), [0])], reason := [none], level := [2],
        que := [0], head := 0 } = false := by
  refine ⟨by decide, ?_⟩
  exact unit_clause_forces_conflict 0 0 true 5
    { n := 1, assigns := [false], clauses := [[(0, true)]],
      watchers := [((0, true), [0])], reason := [none], level := [2],
      que := [0], head := 0 }
    (by decide) ⟨0, by decide, by decide, by decide⟩

/-! ### Counterexamples to C1 and C2: the invisible empty clause -/

/-- All total assignments to `n` variables. -/
def allAssignments : Nat → List (List Bool)
  | 0 => [[]]
  | n + 1 => (allAssignments n).map (fun a => false :: a) ++
             (allAssignments n).map (fun a => true :: a)

/-- Decidable unsatisfiability check: no assignment of the `n` variables
satisfies the formula. -/
def unsatB (n : Nat) (cs : List (List Lit)) : Bool :=
  (allAssignments n).all (fun a => !formulaSat a cs)

/-- C1 counterexample: the formula consisting of one empty clause (all of its
variable indices are vacuously in range) makes `solve(None)` return `true`,
yet the resulting assignment does not satisfy every original clause — the
empty clause is unsatisfied. -/
theorem empty_clause_breaks_soundness :
    (solveTop 5 1 [[]]).toOption.map (fun r => (r.1, formulaSat r.2.assigns [[]])) =
      some (true, false) := by decide

/-- C2 counterexample: the formula consisting of one empty clause is
unsatisfiable, yet `solve(None)` terminates returning `true`, not `false`. -/
theorem empty_clause_breaks_completeness :
    unsatB 1 [[]] = true ∧ solveResult 5 1 [[]] = some true := by decide

/-! ### C5: the learnt clause is not entailed by the original clauses -/

/-- The satisfiable formula on which conflict analysis learns a wrong unit
clause: (x0 ∨ x1) ∧ (x0 ∨ x2) ∧ (¬x1 ∨ ¬x2) ∧ x2. -/
def csC5 : List (List Lit) :=
  [[(0, true), (1, true)], [(0, true), (2, true)], [(1, false), (2, false)], [(2, true)]]

/-- The clause stored at index `i` after a run. -/
def clauseAfterRun (fuel n : Nat) (cs : List (List Lit)) (i : Nat) : List Lit :=
  match solveTop fuel n cs with
  | .ok (_, sf) => sf.clauses.getD i []
  | .error _ => []

/-- C5: the learnt-clause contract fails. On the satisfiable formula `csC5`
(satisfied by x0 = true, x1 = false, x2 = true), the first conflict analysis
learns the unit clause ¬x2, which is falsified by that satisfying assignment
of the original clauses — so the learnt clause is not entailed by the original
set — and the solver goes on to report unsatisfiable on a satisfiable input. -/
theorem analyze_learns_unentailed_clause :
    formulaSat [true, false, true] csC5 = true ∧
    solveResult 20 3 csC5 = some false ∧
    clauseAfterRun 20 3 csC5 4 = [(2, false)] ∧
    clauseSat [true, false, true] [(2, false)] = false := by decide

/-! ### The watcher index after clause registration -/

theorem watchGet_cons (e : Lit × List Nat) (rest : List (Lit × List Nat)) (l : Lit) :
    watchGet (e :: rest) l = if e.1 = l then e.2 else watchGet rest l := rfl

theorem watchAdd_cons (e : Lit × List Nat) (rest : List (Lit × List Nat)) (l : Lit) (idx : Nat) :
    watchAdd (e :: rest) l idx =
      if e.1 = l then (e.1, e.2 ++ [idx]) :: rest else e :: watchAdd rest l idx := rfl

theorem watchAdd_get (w : List (Lit × List Nat)) (l0 l : Lit) (idx : Nat) :
    watchGet (watchAdd w l0 idx) l =
      if l = l0 then watchGet w l ++ [idx] else watchGet w l := by
  induction w with
  | nil =>
    show watchGet [(l0, [idx])] l = _
    rw [watchGet_cons]
    by_cases h : l = l0
    · rw [if_pos (show l0 = l from h.symm), if_pos h]
      rfl
    · rw [if_neg (show ¬ l0 = l from fun he => h he.symm), if_neg h]
  | cons e rest ih =>
    rw [watchAdd_cons]
    by_cases he : e.1 = l0
    · rw [if_pos he]
      simp only [watchGet_cons]
      by_cases hl : e.1 = l
      · have hll : l = l0 := by rw [← hl, he]
        rw [if_pos hll, if_pos hl, if_pos hl]
      · have hll : ¬ l = l0 := fun hx => hl (by rw [he, hx])
        rw [if_neg hll, if_neg hl, if_neg hl]
    · rw [if_neg he]
      simp only [watchGet_cons]
      by_cases hl : e.1 = l
      · have hll : ¬ l = l0 := fun hx => he (by rw [hl, hx])
        rw [if_neg hll, if_pos hl, if_pos hl]
      · rw [if_neg hl, if_neg hl]
        exact ih

theorem foldAdd_get (idx : Nat) : ∀ (lits : List Lit) (w : List (Lit × List Nat)) (l : Lit),
    watchGet (lits.foldl (fun w c => watchAdd w c idx) w) l =
      watchGet w l ++ List.replicate (lits.count l) idx := by
  intro lits
  induction lits with
  | nil =>
    intro w l
    simp
  | cons c rest ih =>
    intro w l
    rw [List.foldl_cons, ih, watchAdd_get, List.count_cons]
    by_cases h : l = c
    · rw [if_pos h, if_pos (show (c == l) = true from beq_iff_eq.2 h.symm),
        List.append_assoc]
      congr 1
    · rw [if_neg h, if_neg (show ¬ (c == l) = true from
        fun hx => h (beq_iff_eq.1 hx).symm), Nat.add_zero]

theorem add_clause_watchGet (s : Solver) (clause : List Lit) (l : Lit) :
    watchGet (s.add_clause clause).watchers l =
      watchGet s.watchers l ++ List.replicate (clause.count l) s.clauses.length :=
  foldAdd_get s.clauses.length clause s.watchers l

theorem add_clause_watch_mem {s : Solver} {clause : List Lit} {l : Lit} {cr : Nat} :
    cr ∈ watchGet (s.add_clause clause).watchers l ↔
      cr ∈ watchGet s.watchers l ∨ (cr = s.clauses.length ∧ l ∈ clause) := by
  rw [add_clause_watchGet, List.mem_append, List.mem_replicate]
  constructor
  · rintro (h | ⟨hc, he⟩)
    · exact Or.inl h
    · exact Or.inr ⟨he, List.count_pos_iff.1 (Nat.pos_of_ne_zero hc)⟩
  · rintro (h | ⟨he, hm⟩)
    · exact Or.inl h
    · exact Or.inr ⟨Nat.pos_iff_ne_zero.1 (List.count_pos_iff.2 hm), he⟩

/-- Well-formedness of a watcher index for a clause store. -/
def WatchOk (s : Solver) : Prop :=
  ∀ l cr, cr ∈ watchGet s.watchers l ↔ cr < s.clauses.length ∧ l ∈ s.clauses.getD cr []

theorem getD_concat_length {α : Type _} (l : List α) (a d : α) :
    (l ++ [a]).getD l.length d = a := by
  rw [List.getD_eq_getElem?_getD, List.getElem?_append_right (Nat.le_refl _)]
  simp

theorem add_clause_WatchOk {s : Solver} (h : WatchOk s) (clause : List Lit) :
    WatchOk (s.add_clause clause) := by
  intro l cr
  rw [add_clause_watch_mem]
  have hlen : (s.add_clause clause).clauses = s.clauses ++ [clause] := rfl
  rw [hlen]
  constructor
  · rintro (hm | ⟨he, hmem⟩)
    · obtain ⟨h1, h2⟩ := (h l cr).1 hm
      refine ⟨by rw [List.length_append, List.length_singleton]; omega, ?_⟩
      rw [List.getD_eq_getElem?_getD, List.getElem?_append_left h1,
        ← List.getD_eq_getElem?_getD]
      exact h2
    · subst he
      refine ⟨by rw [List.length_append, List.length_singleton]; omega, ?_⟩
      rw [getD_concat_length]
      exact hmem
  · rintro ⟨h1, h2⟩
    rw [List.length_append, List.length_singleton] at h1
    by_cases hcr : cr < s.clauses.length
    · rw [List.getD_eq_getElem?_getD, List.getElem?_append_left hcr,
        ← List.getD_eq_getElem?_getD] at h2
      exact Or.inl ((h l cr).2 ⟨hcr, h2⟩)
    · have hce : cr = s.clauses.length := by omega
      subst hce
      rw [getD_concat_length] at h2
      exact Or.inr ⟨rfl, h2⟩

/-- The construction fold changes only the clause store and the watcher index. -/
theorem foldl_add_clause_fields : ∀ (cs : List (List Lit)) (s : Solver),
    (cs.foldl (fun s c => s.add_clause c) s).n = s.n ∧
    (cs.foldl (fun s c => s.add_clause c) s).assigns = s.assigns ∧
    (cs.foldl (fun s c => s.add_clause c) s).level = s.level ∧
    (cs.foldl (fun s c => s.add_clause c) s).reason = s.reason ∧
    (cs.foldl (fun s c => s.add_clause c) s).que = s.que ∧
    (cs.foldl (fun s c => s.add_clause c) s).head = s.head ∧
    (cs.foldl (fun s c => s.add_clause c) s).clauses = s.clauses ++ cs := by
  intro cs
  induction cs with
  | nil =>
    intro s
    exact ⟨rfl, rfl, rfl, rfl, rfl, rfl, by simp⟩
  | cons c rest ih =>
    intro s
    obtain ⟨h1, h2, h3, h4, h5, h6, h7⟩ := ih (s.add_clause c)
    refine ⟨h1, h2, h3, h4, h5, h6, ?_⟩
    rw [List.foldl_cons, h7]
    show (s.clauses ++ [c]) ++ rest = s.clauses ++ (c :: rest)
    rw [List.append_assoc]
    rfl

theorem new_fields (n : Nat) (cs : List (List Lit)) :
    (Solver.new n cs).n = n ∧
    (Solver.new n cs).assigns = List.replicate n false ∧
    (Solver.new n cs).level = List.replicate n 0 ∧
    (Solver.new n cs).reason = List.replicate n none ∧
    (Solver.new n cs).que = [] ∧
    (Solver.new n cs).head = 0 ∧
    (Solver.new n cs).clauses = cs :=
  foldl_add_clause_fields cs _

theorem new_WatchOk (n : Nat) (cs : List (List Lit)) : WatchOk (Solver.new n cs) := by
  have hgen : ∀ (cs2 : List (List Lit)) (s0 : Solver), WatchOk s0 →
      WatchOk (cs2.foldl (fun s c => s.add_clause c) s0) := by
    intro cs2
    induction cs2 with
    | nil =>
      intro s0 h0
      exact h0
    | cons c rest ih =>
      intro s0 h0
      rw [List.foldl_cons]
      exact ih _ (add_clause_WatchOk h0 c)
  refine hgen cs _ ?_
  intro l cr
  constructor
  · intro h
    cases h
  · rintro ⟨h1, _⟩
    exact absurd h1 (Nat.not_lt_zero cr)

/-! ### Trail positions and sortedness helpers -/

/-- The decision level of the most recent trail entry (0 for an empty trail). -/
def lastLevel (s : Solver) : Nat :=
  match s.que.getLast? with
  | some v => s.level.getD v 0
  | none => 0

theorem tailLevel_of_ne_nil {s : Solver} (h : s.que ≠ []) : tailLevel s = lastLevel s := by
  unfold tailLevel lastLevel
  cases hlast : s.que.getLast? with
  | some v => rfl
  | none => exact absurd (List.getLast?_eq_none_iff.1 hlast) h

theorem lastLevel_eq_getD {s : Solver} (h : s.que ≠ []) :
    lastLevel s = s.level.getD (s.que.getD (s.que.length - 1) 0) 0 := by
  unfold lastLevel
  have hlen : 0 < s.que.length := List.length_pos.2 h
  rw [List.getLast?_eq_getElem?, List.getElem?_eq_getElem (by omega)]
  show s.level.getD s.que[s.que.length - 1] 0 = _
  congr 1
  rw [List.getD_eq_getElem _ _ (by omega)]

theorem mem_que_getD {que : List Var} {v : Var} (h : v ∈ que) :
    ∃ i, i < que.length ∧ que.getD i 0 = v := by
  obtain ⟨i, hi, he⟩ := List.mem_iff_getElem.1 h
  exact ⟨i, hi, by rw [List.getD_eq_getElem _ _ hi]; exact he⟩

theorem getD_mem_que {que : List Var} {i : Nat} (h : i < que.length) :
    que.getD i 0 ∈ que := by
  rw [List.getD_eq_getElem _ _ h]
  exact List.getElem_mem h

theorem sorted_getD_mono {que : List Var} {level : List Nat}
    (hs : (que.map (fun v => level.getD v 0)).Chain' (· ≤ ·))
    {i j : Nat} (hij : i ≤ j) (hj : j < que.length) :
    level.getD (que.getD i 0) 0 ≤ level.getD (que.getD j 0) 0 := by
  rcases Nat.lt_or_ge i j with hlt | hge
  · have hp := List.chain'_iff_pairwise.1 hs
    have hpg := List.pairwise_iff_getElem.1 hp
    have hi : i < que.length := by omega
    have := hpg i j (by simpa using hi) (by simpa using hj) hlt
    rw [List.getElem_map, List.getElem_map] at this
    rw [List.getD_eq_getElem _ _ hi, List.getD_eq_getElem _ _ hj]
    exact this
  · have he : i = j := by omega
    rw [he]

/-! ### The global invariant -/

/-- The reachable-state invariant of the solver. -/
structure Inv (s : Solver) : Prop where
  len_a : s.assigns.length = s.n
  len_r : s.reason.length = s.n
  len_l : s.level.length = s.n
  que_lt : ∀ v ∈ s.que, v < s.n
  que_nd : s.que.Nodup
  que_pos : ∀ v ∈ s.que, s.level.getD v 0 ≠ 0
  mem_que : ∀ v, s.level.getD v 0 ≠ 0 → v ∈ s.que
  sorted : (s.que.map (fun v => s.level.getD v 0)).Chain' (· ≤ ·)
  head_le : s.head ≤ s.que.length
  suffix_level : ∀ i, s.head ≤ i → i < s.que.length →
    s.level.getD (s.que.getD i 0) 0 = lastLevel s
  watch_sound : ∀ l cr, cr ∈ watchGet s.watchers l →
    cr < s.clauses.length ∧ l ∈ s.clauses.getD cr []
  watch_complete : ∀ cr, cr < s.clauses.length →
    ∀ l ∈ s.clauses.getD cr [], cr ∈ watchGet s.watchers l
  clause_vars : ∀ cl ∈ s.clauses, ∀ l ∈ cl, l.1 < s.n
  reason_sound : ∀ j, j < s.que.length → ∀ cr,
    s.reason.getD (s.que.getD j 0) none = some cr →
    cr < s.clauses.length ∧
    ∀ l ∈ s.clauses.getD cr [], ∃ i, i ≤ j ∧ i < s.que.length ∧ s.que.getD i 0 = l.1
  block_reason : ∀ i j, i < j → j < s.que.length →
    s.level.getD (s.que.getD i 0) 0 = s.level.getD (s.que.getD j 0) 0 →
    s.reason.getD (s.que.getD j 0) none ≠ none
  cap0 : s.que ≠ [] → s.level.getD (s.que.getD 0 0) 0 ≤ 2
  capsucc : ∀ j, j + 1 < s.que.length →
    s.level.getD (s.que.getD (j + 1) 0) 0 ≤ s.level.getD (s.que.getD j 0) 0 + 1

/-- The central progress property: a clause is satisfied, has an unassigned
literal, or is watched by a pending (not yet propagated) trail entry whose
literal occurs falsified in it. -/
def ClauseOk (s : Solver) (cr : Nat) : Prop :=
  (∃ l ∈ s.clauses.getD cr [], s.level.getD l.1 0 ≠ 0 ∧ s.assigns.getD l.1 false = l.2) ∨
  (∃ l ∈ s.clauses.getD cr [], s.level.getD l.1 0 = 0) ∨
  (∃ i, s.head ≤ i ∧ i < s.que.length ∧
    (s.que.getD i 0, !s.assigns.getD (s.que.getD i 0) false) ∈ s.clauses.getD cr []) ∨
  s.clauses.getD cr [] = []

/-- Every stored clause is in a good state. -/
def AllOk (s : Solver) : Prop := ∀ cr, cr < s.clauses.length → ClauseOk s cr

theorem new_Inv (n : Nat) (cs : List (List Lit))
    (hvars : ∀ c ∈ cs, ∀ l ∈ c, l.1 < n) : Inv (Solver.new n cs) := by
  obtain ⟨hn, ha, hl, hr, hq, hh, hc⟩ := new_fields n cs
  have hwa := new_WatchOk n cs
  have hlev0 : ∀ v, (Solver.new n cs).level.getD v 0 = 0 := by
    intro v
    rw [hl, List.getD_eq_getElem?_getD]
    rcases Nat.lt_or_ge v n with hv | hv
    · rw [List.getElem?_eq_getElem (by simpa using hv)]
      simp
    · rw [List.getElem?_eq_none (by simpa using hv)]
      rfl
  refine ⟨?_, ?_, ?_, ?_, ?_, ?_, ?_, ?_, ?_, ?_, ?_, ?_, ?_, ?_, ?_, ?_, ?_⟩
  · rw [ha, hn]; simp
  · rw [hr, hn]; simp
  · rw [hl, hn]; simp
  · rw [hq]; intro v hv; cases hv
  · rw [hq]; exact List.nodup_nil
  · rw [hq]; intro v hv; cases hv
  · intro v hv; exact absurd (hlev0 v) hv
  · rw [hq]; exact List.chain'_nil
  · rw [hq, hh]; exact Nat.le_refl 0
  · rw [hq]; intro i _ hi; cases hi
  · intro l cr hm
    obtain ⟨h1, h2⟩ := (hwa l cr).1 hm
    rw [hc] at h1 h2
    exact ⟨by rw [hc]; exact h1, by rw [hc]; exact h2⟩
  · intro cr h1 l h2
    rw [hc] at h1 h2
    exact (hwa l cr).2 ⟨by rw [hc]; exact h1, by rw [hc]; exact h2⟩
  · rw [hc, hn]; exact hvars
  · rw [hq]; intro j hj; cases hj
  · rw [hq]; intro i j _ hj; cases hj
  · rw [hq]; intro hne; exact absurd rfl hne
  · rw [hq]; intro j hj; cases hj

theorem new_AllOk (n : Nat) (cs : List (List Lit)) : AllOk (Solver.new n cs) := by
  obtain ⟨hn, ha, hl, hr, hq, hh, hc⟩ := new_fields n cs
  intro cr hcr
  rw [hc] at hcr
  cases hemp : cs.getD cr [] with
  | nil =>
    refine Or.inr (Or.inr (Or.inr ?_))
    rw [hc]
    exact hemp
  | cons l rest =>
    refine Or.inr (Or.inl ⟨l, ?_, ?_⟩)
    · rw [hc, hemp]
      exact List.mem_cons_self _ _
    · rw [hl, List.getD_eq_getElem?_getD]
      rcases Nat.lt_or_ge l.1 n with hv | hv
      · rw [List.getElem?_eq_getElem (by simpa using hv)]
        simp
      · rw [List.getElem?_eq_none (by simpa using hv)]
        rfl

/-! ### Invariant preservation through propagation -/

theorem mem_getD_set_clause {cs : List (List Lit)} {cr : Nat} {cl2 : List Lit}
    (hperm : cl2.Perm (cs.getD cr [])) (i : Nat) (l : Lit) :
    l ∈ (cs.set cr cl2).getD i [] ↔ l ∈ cs.getD i [] := by
  by_cases hci : cr = i
  · subst hci
    by_cases h : cr < cs.length
    · rw [getD_set_self h]
      exact hperm.mem_iff
    · rw [List.set_eq_of_length_le (by omega)]
  · rw [getD_set_ne hci]

theorem two_distinct_mem_countP {p : Lit → Bool} {cl : List Lit} {a b : Lit}
    (hab : a ≠ b) (ha : a ∈ cl) (hb : b ∈ cl) (hpa : p a = true) (hpb : p b = true) :
    2 ≤ cl.countP p := by
  obtain ⟨s1, t1, rfl⟩ := List.append_of_mem ha
  have hsum : (s1 ++ a :: t1).countP p = s1.countP p + (t1.countP p + 1) := by
    rw [List.countP_append, List.countP_cons, hpa]
    simp
  rcases List.mem_append.1 hb with hbs | hbt
  · have h1 : 0 < s1.countP p := List.countP_pos_iff.2 ⟨b, hbs, hpb⟩
    omega
  · rcases List.mem_cons.1 hbt with he | hbt2
    · exact absurd he.symm hab
    · have h1 : 0 < t1.countP p := List.countP_pos_iff.2 ⟨b, hbt2, hpb⟩
      omega

/-- Frame facts relating the state before and after (part of) a propagation
pass. -/
def PropFrame (s s2 : Solver) : Prop :=
  s2.watchers = s.watchers ∧ s2.n = s.n ∧ s2.head = s.head ∧
  (∃ ext, s2.que = s.que ++ ext) ∧
  (∀ w ∈ s.que, s2.level.getD w 0 = s.level.getD w 0) ∧
  (∀ w ∈ s.que, s2.assigns.getD w false = s.assigns.getD w false) ∧
  s2.clauses.length = s.clauses.length ∧
  (∀ i, (s2.clauses.getD i []).Perm (s.clauses.getD i [])) ∧
  (s.que ≠ [] → lastLevel s2 = lastLevel s)

theorem PropFrame.refl (s : Solver) : PropFrame s s :=
  ⟨rfl, rfl, rfl, ⟨[], by simp⟩, fun _ _ => rfl, fun _ _ => rfl, rfl,
    fun _ => List.Perm.refl _, fun _ => rfl⟩

theorem PropFrame.transitive {s s1 s2 : Solver} (h1 : PropFrame s s1) (h2 : PropFrame s1 s2) :
    PropFrame s s2 := by
  obtain ⟨w1, n1, h1h, ⟨e1, q1⟩, l1, a1, c1, p1, ll1⟩ := h1
  obtain ⟨w2, n2, h2h, ⟨e2, q2⟩, l2, a2, c2, p2, ll2⟩ := h2
  refine ⟨by rw [w2, w1], by rw [n2, n1], by rw [h2h, h1h],
    ⟨e1 ++ e2, by rw [q2, q1, List.append_assoc]⟩, ?_, ?_, by rw [c2, c1],
    fun i => (p2 i).trans (p1 i), ?_⟩
  · intro w hw
    rw [l2 w (by rw [q1]; exact List.mem_append.2 (Or.inl hw)), l1 w hw]
  · intro w hw
    rw [a2 w (by rw [q1]; exact List.mem_append.2 (Or.inl hw)), a1 w hw]
  · intro hne
    rw [ll2 (by rw [q1]; intro hc; exact hne (List.append_eq_nil.1 hc).1), ll1 hne]

/-- Setting a clause to a permutation of itself preserves the invariant. -/
theorem set_clause_inv {s : Solver} {cr : Nat} {cl2 : List Lit}
    (hInv : Inv s) (hperm : cl2.Perm (s.clauses.getD cr [])) :
    Inv { s with clauses := s.clauses.set cr cl2 } := by
  have hmem := @mem_getD_set_clause s.clauses cr cl2 hperm
  refine ⟨hInv.len_a, hInv.len_r, hInv.len_l, hInv.que_lt, hInv.que_nd, hInv.que_pos,
    hInv.mem_que, hInv.sorted, hInv.head_le, hInv.suffix_level, ?_, ?_, ?_, ?_,
    hInv.block_reason, hInv.cap0, hInv.capsucc⟩
  · intro l cr2 hcr2
    obtain ⟨h1, h2⟩ := hInv.watch_sound l cr2 hcr2
    exact ⟨by rw [List.length_set]; exact h1, (hmem cr2 l).2 h2⟩
  · intro cr2 hcr2 l hl
    rw [List.length_set] at hcr2
    exact hInv.watch_complete cr2 hcr2 l ((hmem cr2 l).1 hl)
  · intro cl hcl l hl
    rcases mem_set_or hcl with he | hcl2
    · subst he
      have hl2 : l ∈ s.clauses.getD cr [] := hperm.mem_iff.1 hl
      by_cases h : cr < s.clauses.length
      · exact hInv.clause_vars _ (by rw [List.getD_eq_getElem _ _ h]; exact List.getElem_mem h) l hl2
      · rw [List.getD_eq_getElem?_getD, List.getElem?_eq_none (by omega)] at hl2
        cases hl2
    · exact hInv.clause_vars cl hcl2 l hl
  · intro j hj cr2 hr
    obtain ⟨h1, h2⟩ := hInv.reason_sound j hj cr2 hr
    refine ⟨by rw [List.length_set]; exact h1, ?_⟩
    intro l hl
    exact h2 l ((hmem cr2 l).1 hl)

/-- `ClauseOk` only depends on clause membership, which clause permutation
preserves. -/
theorem clauseOk_set {s : Solver} {cr : Nat} {cl2 : List Lit}
    (hperm : cl2.Perm (s.clauses.getD cr [])) (cr2 : Nat)
    (h : ClauseOk s cr2) : ClauseOk { s with clauses := s.clauses.set cr cl2 } cr2 := by
  have hmem := @mem_getD_set_clause s.clauses cr cl2 hperm
  rcases h with ⟨l, hl, h1, h2⟩ | ⟨l, hl, h1⟩ | ⟨i, h1, h2, h3⟩ | hemp
  · exact Or.inl ⟨l, (hmem cr2 l).2 hl, h1, h2⟩
  · exact Or.inr (Or.inl ⟨l, (hmem cr2 l).2 hl, h1⟩)
  · exact Or.inr (Or.inr (Or.inl ⟨i, h1, h2, (hmem cr2 _).2 h3⟩))
  · refine Or.inr (Or.inr (Or.inr ?_))
    rw [List.eq_nil_iff_forall_not_mem]
    intro l hl
    have h4 := (hmem cr2 l).1 hl
    rw [hemp] at h4
    cases h4

theorem getLast?_mem {l : List Var} {a : Var} (h : l.getLast? = some a) : a ∈ l := by
  obtain ⟨hne, heq⟩ := List.mem_getLast?_eq_getLast
    (show a ∈ l.getLast? by rw [h]; rfl)
  rw [heq]
  exact List.getLast_mem hne

theorem lastLevel_eq_getLast {s : Solver} (h : s.que ≠ []) :
    lastLevel s = s.level.getD (s.que.getLast h) 0 := by
  unfold lastLevel
  rw [List.getLast?_eq_getLast_of_ne_nil h]

theorem lastLevel_pos {s : Solver} (hInv : Inv s) (hqne : s.que ≠ []) :
    lastLevel s ≠ 0 := by
  rw [lastLevel_eq_getLast hqne]
  exact hInv.que_pos _ (List.getLast_mem hqne)

/-- Enqueueing a unit consequence preserves the invariant.  `u` is the forced
literal of clause `cr`, whose variable is unassigned and is the only
unassigned occurrence in the clause. -/
theorem enqueue_prop_inv {σ : Solver} (hInv : Inv σ) (hqne : σ.que ≠ [])
    {u : Lit} {cr : Nat} (hcr : cr < σ.clauses.length)
    (humem : u ∈ σ.clauses.getD cr [])
    (hu0 : σ.level.getD u.1 0 = 0)
    (hcnt1 : (σ.clauses.getD cr []).countP (unassignedB σ.level) = 1) :
    Inv (σ.enqueue u.1 u.2 (some cr)) ∧ PropFrame σ (σ.enqueue u.1 u.2 (some cr)) := by
  have hclmem : σ.clauses.getD cr [] ∈ σ.clauses := by
    rw [List.getD_eq_getElem _ _ hcr]
    exact List.getElem_mem hcr
  have hun : u.1 < σ.n := hInv.clause_vars _ hclmem u humem
  have hunotq : u.1 ∉ σ.que := fun h => hInv.que_pos u.1 h hu0
  have hulev : u.1 < σ.level.length := by rw [hInv.len_l]; exact hun
  have hTL : tailLevel σ = lastLevel σ := tailLevel_of_ne_nil hqne
  have hTLpos : tailLevel σ ≠ 0 := by rw [hTL]; exact lastLevel_pos hInv hqne
  have hlv2 : ∀ w, w ≠ u.1 →
      (σ.level.set u.1 (tailLevel σ)).getD w 0 = σ.level.getD w 0 :=
    fun w hw => getD_set_ne (fun he => hw he.symm)
  have hlvu : (σ.level.set u.1 (tailLevel σ)).getD u.1 0 = tailLevel σ :=
    getD_set_self hulev
  have hque2 : (σ.enqueue u.1 u.2 (some cr)).que = σ.que ++ [u.1] := rfl
  have hqw : ∀ w ∈ σ.que, w ≠ u.1 := fun w hw he => hunotq (he ▸ hw)
  have hmapeq : σ.que.map (fun v => (σ.level.set u.1 (tailLevel σ)).getD v 0) =
      σ.que.map (fun v => σ.level.getD v 0) :=
    List.map_congr_left (fun w hw => hlv2 w (hqw w hw))
  have hlast2 : lastLevel (σ.enqueue u.1 u.2 (some cr)) = lastLevel σ := by
    unfold lastLevel
    rw [show (σ.enqueue u.1 u.2 (some cr)).que = σ.que ++ [u.1] from rfl,
      List.getLast?_concat]
    show (σ.level.set u.1 (tailLevel σ)).getD u.1 0 = _
    rw [hlvu]
    unfold tailLevel
    cases hl : σ.que.getLast? with
    | some v => rfl
    | none => exact absurd (List.getLast?_eq_none_iff.1 hl) hqne
  have hunique : ∀ l ∈ σ.clauses.getD cr [], l ≠ u → σ.level.getD l.1 0 ≠ 0 := by
    intro l hl hne h0
    have h2 : 2 ≤ (σ.clauses.getD cr []).countP (unassignedB σ.level) :=
      two_distinct_mem_countP hne hl humem
        (by unfold unassignedB; exact beq_iff_eq.2 h0)
        (by unfold unassignedB; exact beq_iff_eq.2 hu0)
    omega
  have hframe : PropFrame σ (σ.enqueue u.1 u.2 (some cr)) := by
    refine ⟨rfl, rfl, rfl, ⟨[u.1], rfl⟩, ?_, ?_, rfl, fun _ => List.Perm.refl _,
      fun _ => hlast2⟩
    · intro w hw
      exact hlv2 w (hqw w hw)
    · intro w hw
      exact getD_set_ne (fun he => (hqw w hw) he.symm)
  refine ⟨⟨?_, ?_, ?_, ?_, ?_, ?_, ?_, ?_, ?_, ?_, ?_, ?_, ?_, ?_, ?_, ?_, ?_⟩, hframe⟩
  · show (σ.assigns.set u.1 u.2).length = σ.n
    rw [List.length_set]
    exact hInv.len_a
  · show (σ.reason.set u.1 (some cr)).length = σ.n
    rw [List.length_set]
    exact hInv.len_r
  · show (σ.level.set u.1 (tailLevel σ)).length = σ.n
    rw [List.length_set]
    exact hInv.len_l
  · intro v hv
    rcases List.mem_append.1 hv with hv | hv
    · exact hInv.que_lt v hv
    · rw [List.mem_singleton] at hv
      rw [hv]
      exact hun
  · exact hInv.que_nd.append (List.nodup_singleton _)
      (fun a ha hb => hunotq ((List.mem_singleton.1 hb) ▸ ha))
  · intro v hv
    show (σ.level.set u.1 (tailLevel σ)).getD v 0 ≠ 0
    rcases List.mem_append.1 hv with hv | hv
    · rw [hlv2 v (hqw v hv)]
      exact hInv.que_pos v hv
    · rw [List.mem_singleton] at hv
      rw [hv, hlvu]
      exact hTLpos
  · intro v hv
    replace hv : (σ.level.set u.1 (tailLevel σ)).getD v 0 ≠ 0 := hv
    show v ∈ σ.que ++ [u.1]
    by_cases he : v = u.1
    · rw [he]
      exact List.mem_append.2 (Or.inr (List.mem_singleton.2 rfl))
    · rw [hlv2 v he] at hv
      exact List.mem_append.2 (Or.inl (hInv.mem_que v hv))
  · show ((σ.que ++ [u.1]).map (fun v => (σ.level.set u.1 (tailLevel σ)).getD v 0)).Chain' (· ≤ ·)
    rw [List.map_append, hmapeq]
    rw [List.chain'_append]
    refine ⟨hInv.sorted, List.chain'_singleton _, ?_⟩
    intro a ha b hb
    rw [List.getLast?_map] at ha
    cases hql : σ.que.getLast? with
    | none => exact absurd (List.getLast?_eq_none_iff.1 hql) hqne
    | some w =>
      rw [hql] at ha
      have ha2 : a = σ.level.getD w 0 := by
        have : a ∈ some (σ.level.getD w 0) := ha
        exact (Option.mem_some_iff.1 this).symm
      have hb2 : b = (σ.level.set u.1 (tailLevel σ)).getD u.1 0 := by
        have : b ∈ some ((σ.level.set u.1 (tailLevel σ)).getD u.1 0) := hb
        exact (Option.mem_some_iff.1 this).symm
      rw [ha2, hb2, hlvu]
      unfold tailLevel
      rw [hql]
  · show σ.head ≤ (σ.que ++ [u.1]).length
    rw [List.length_append, List.length_singleton]
    exact Nat.le_trans hInv.head_le (by omega)
  · intro i hhi hi
    rw [hque2] at hi
    rw [List.length_append, List.length_singleton] at hi
    rw [hlast2]
    show (σ.level.set u.1 (tailLevel σ)).getD ((σ.que ++ [u.1]).getD i 0) 0 = lastLevel σ
    rcases Nat.lt_or_ge i σ.que.length with hlt | hge
    · rw [getD_append_left hlt, hlv2 _ (hqw _ (getD_mem_que hlt))]
      exact hInv.suffix_level i hhi hlt
    · have hieq : i = σ.que.length := by omega
      rw [hieq, getD_concat_length, hlvu, hTL]
  · intro l cr2 hcr2
    obtain ⟨h1, h2⟩ := hInv.watch_sound l cr2 hcr2
    exact ⟨h1, h2⟩
  · intro cr2 hcr2 l hl
    exact hInv.watch_complete cr2 hcr2 l hl
  · exact hInv.clause_vars
  · intro j hj cr2 hr
    rw [hque2, List.length_append, List.length_singleton] at hj
    replace hr : (σ.reason.set u.1 (some cr)).getD ((σ.que ++ [u.1]).getD j 0) none =
        some cr2 := hr
    show cr2 < σ.clauses.length ∧
      ∀ l ∈ σ.clauses.getD cr2 [],
        ∃ i, i ≤ j ∧ i < (σ.que ++ [u.1]).length ∧ (σ.que ++ [u.1]).getD i 0 = l.1
    rcases Nat.lt_or_ge j σ.que.length with hlt | hge
    · rw [getD_append_left hlt] at hr
      have hne : σ.que.getD j 0 ≠ u.1 := hqw _ (getD_mem_que hlt)
      rw [getD_set_ne (fun he => hne he.symm)] at hr
      obtain ⟨h1, h2⟩ := hInv.reason_sound j hlt cr2 hr
      refine ⟨h1, ?_⟩
      intro l hl
      obtain ⟨i, hij, hi, he⟩ := h2 l hl
      refine ⟨i, hij, ?_, ?_⟩
      · rw [List.length_append, List.length_singleton]
        omega
      · rw [getD_append_left hi]
        exact he
    · have hjeq : j = σ.que.length := by omega
      rw [hjeq, getD_concat_length,
        getD_set_self (by rw [hInv.len_r]; exact hun)] at hr
      have hce : cr2 = cr := (Option.some_inj.1 hr).symm
      subst hce
      refine ⟨hcr, ?_⟩
      intro l hl
      by_cases hlu : l = u
      · refine ⟨σ.que.length, by omega, ?_, ?_⟩
        · rw [List.length_append, List.length_singleton]
          omega
        · rw [getD_concat_length, hlu]
      · have hl0 : σ.level.getD l.1 0 ≠ 0 := hunique l hl hlu
        have hlq : l.1 ∈ σ.que := hInv.mem_que l.1 hl0
        obtain ⟨i, hi, he⟩ := mem_que_getD hlq
        refine ⟨i, by omega, ?_, ?_⟩
        · rw [List.length_append, List.length_singleton]
          omega
        · rw [getD_append_left hi]
          exact he
  · intro i j hij hj hlev
    rw [hque2, List.length_append, List.length_singleton] at hj
    replace hlev : (σ.level.set u.1 (tailLevel σ)).getD ((σ.que ++ [u.1]).getD i 0) 0 =
        (σ.level.set u.1 (tailLevel σ)).getD ((σ.que ++ [u.1]).getD j 0) 0 := hlev
    show (σ.reason.set u.1 (some cr)).getD ((σ.que ++ [u.1]).getD j 0) none ≠ none
    rcases Nat.lt_or_ge j σ.que.length with hlt | hge
    · rw [getD_append_left hlt,
        getD_set_ne (fun he => (hqw _ (getD_mem_que hlt)) he.symm)]
      rw [getD_append_left hlt, getD_append_left (show i < σ.que.length by omega),
        hlv2 _ (hqw _ (getD_mem_que (show i < σ.que.length by omega))),
        hlv2 _ (hqw _ (getD_mem_que hlt))] at hlev
      exact hInv.block_reason i j hij hlt hlev
    · have hjeq : j = σ.que.length := by omega
      rw [hjeq, getD_concat_length,
        getD_set_self (by rw [hInv.len_r]; exact hun)]
      exact fun h => Option.noConfusion h
  · intro hne
    show (σ.level.set u.1 (tailLevel σ)).getD ((σ.que ++ [u.1]).getD 0 0) 0 ≤ 2
    have h0 : 0 < σ.que.length := List.length_pos.2 hqne
    rw [getD_append_left h0, hlv2 _ (hqw _ (getD_mem_que h0))]
    exact hInv.cap0 hqne
  · intro j hj
    rw [hque2, List.length_append, List.length_singleton] at hj
    show (σ.level.set u.1 (tailLevel σ)).getD ((σ.que ++ [u.1]).getD (j + 1) 0) 0 ≤
      (σ.level.set u.1 (tailLevel σ)).getD ((σ.que ++ [u.1]).getD j 0) 0 + 1
    rcases Nat.lt_or_ge (j + 1) σ.que.length with hlt | hge
    · rw [getD_append_left hlt, getD_append_left (by omega),
        hlv2 _ (hqw _ (getD_mem_que hlt)),
        hlv2 _ (hqw _ (getD_mem_que (show j < σ.que.length by omega)))]
      exact hInv.capsucc j hlt
    · have hjeq : j + 1 = σ.que.length := by omega
      rw [hjeq, getD_concat_length, hlvu,
        getD_append_left (show j < σ.que.length by omega),
        hlv2 _ (hqw _ (getD_mem_que (show j < σ.que.length by omega)))]
      rw [hTL, lastLevel_eq_getD hqne]
      have hje : j = σ.que.length - 1 := by omega
      rw [hje]
      omega

/-- `ClauseOk` is preserved by a unit enqueue. -/
theorem clauseOk_enqueue {σ : Solver} (hInv : Inv σ) (hqne : σ.que ≠ [])
    {u : Lit} {cr : Nat} (hcr : cr < σ.clauses.length)
    (humem : u ∈ σ.clauses.getD cr [])
    (hu0 : σ.level.getD u.1 0 = 0)
    (cr2 : Nat) (h : ClauseOk σ cr2) : ClauseOk (σ.enqueue u.1 u.2 (some cr)) cr2 := by
  have hclmem : σ.clauses.getD cr [] ∈ σ.clauses := by
    rw [List.getD_eq_getElem _ _ hcr]
    exact List.getElem_mem hcr
  have hun : u.1 < σ.n := hInv.clause_vars _ hclmem u humem
  have hunotq : u.1 ∉ σ.que := fun h2 => hInv.que_pos u.1 h2 hu0
  have hulev : u.1 < σ.level.length := by rw [hInv.len_l]; exact hun
  have hua : u.1 < σ.assigns.length := by rw [hInv.len_a]; exact hun
  have hTLpos : tailLevel σ ≠ 0 := by
    rw [tailLevel_of_ne_nil hqne]
    exact lastLevel_pos hInv hqne
  have hclauses : (σ.enqueue u.1 u.2 (some cr)).clauses = σ.clauses := rfl
  rcases h with ⟨l, hl, h1, h2⟩ | ⟨l, hl, h1⟩ | ⟨i, h1, h2, h3⟩ | hemp
  · -- satisfied stays satisfied: the witness variable is assigned, hence ≠ u.1
    have hne : l.1 ≠ u.1 := fun he => h1 (he ▸ hu0)
    refine Or.inl ⟨l, by rw [hclauses]; exact hl, ?_, ?_⟩
    · show (σ.level.set u.1 (tailLevel σ)).getD l.1 0 ≠ 0
      rw [getD_set_ne (fun he => hne he.symm)]
      exact h1
    · show (σ.assigns.set u.1 u.2).getD l.1 false = l.2
      rw [getD_set_ne (fun he => hne he.symm)]
      exact h2
  · by_cases hne : l.1 = u.1
    · -- the unassigned witness is the enqueued variable: satisfied or re-watched
      by_cases hsg : l.2 = u.2
      · refine Or.inl ⟨l, by rw [hclauses]; exact hl, ?_, ?_⟩
        · show (σ.level.set u.1 (tailLevel σ)).getD l.1 0 ≠ 0
          rw [hne, getD_set_self hulev]
          exact hTLpos
        · show (σ.assigns.set u.1 u.2).getD l.1 false = l.2
          rw [hne, getD_set_self hua, hsg]
      · -- the literal is the negation of the enqueued value: pending via the new entry
        refine Or.inr (Or.inr (Or.inl ⟨σ.que.length, hInv.head_le, ?_, ?_⟩))
        · show σ.que.length < (σ.que ++ [u.1]).length
          rw [List.length_append, List.length_singleton]
          omega
        · rw [hclauses]
          rw [show (σ.enqueue u.1 u.2 (some cr)).que = σ.que ++ [u.1] from rfl,
            getD_concat_length]
          show ((u.1 : Var), !(σ.assigns.set u.1 u.2).getD u.1 false) ∈ σ.clauses.getD cr2 []
          rw [getD_set_self hua]
          have hls : l = (u.1, !u.2) := by
            have := Bool.eq_not_of_ne hsg
            rw [Prod.ext_iff]
            exact ⟨hne, this⟩
          rw [← hls]
          exact hl
    · refine Or.inr (Or.inl ⟨l, by rw [hclauses]; exact hl, ?_⟩)
      show (σ.level.set u.1 (tailLevel σ)).getD l.1 0 = 0
      rw [getD_set_ne (fun he => hne he.symm)]
      exact h1
  · -- pending entries stay pending
    have hqi : (σ.que ++ [u.1]).getD i 0 = σ.que.getD i 0 := getD_append_left h2
    have hmem : σ.que.getD i 0 ∈ σ.que := getD_mem_que h2
    have hne : σ.que.getD i 0 ≠ u.1 := fun he => hunotq (he ▸ hmem)
    refine Or.inr (Or.inr (Or.inl ⟨i, h1, ?_, ?_⟩))
    · show i < (σ.que ++ [u.1]).length
      rw [List.length_append, List.length_singleton]
      omega
    · rw [hclauses]
      show ((σ.que ++ [u.1]).getD i 0,
        !(σ.assigns.set u.1 u.2).getD ((σ.que ++ [u.1]).getD i 0) false) ∈ _
      rw [hqi, getD_set_ne (fun he => hne he.symm)]
      exact h3
  · exact Or.inr (Or.inr (Or.inr hemp))

theorem set_clause_frame {s : Solver} {cr : Nat} {cl2 : List Lit}
    (hperm : cl2.Perm (s.clauses.getD cr [])) :
    PropFrame s { s with clauses := s.clauses.set cr cl2 } := by
  refine ⟨rfl, rfl, rfl, ⟨[], by simp⟩, fun _ _ => rfl, fun _ _ => rfl,
    List.length_set .., ?_, fun _ => rfl⟩
  intro i
  by_cases hci : cr = i
  · subst hci
    by_cases h : cr < s.clauses.length
    · rw [getD_set_self h]
      exact hperm
    · rw [List.set_eq_of_length_le (by omega)]
  · rw [getD_set_ne hci]

/-- One watched-clause step: full case analysis with invariant preservation. -/
theorem propClause_inv {s : Solver} {cr : Nat} (hInv : Inv s) (hqne : s.que ≠ [])
    (hcr : cr < s.clauses.length) :
    (∀ s2, propClause s cr = .next s2 → Inv s2 ∧ PropFrame s s2 ∧ ClauseOk s2 cr ∧
        (∀ cr2, ClauseOk s cr2 → ClauseOk s2 cr2)) ∧
    (∀ c2 s2, propClause s cr = .conflict c2 s2 → c2 = cr ∧ Inv s2 ∧ PropFrame s s2 ∧
        (∀ l ∈ s2.clauses.getD cr [], s2.level.getD l.1 0 ≠ 0 ∧
          s2.assigns.getD l.1 false ≠ l.2) ∧
        (∀ cr2, ClauseOk s cr2 → ClauseOk s2 cr2)) := by
  constructor
  · intro s2 h
    rcases propClause_next_inv h with ⟨cl2, hperm, hs2, hsat⟩ |
      ⟨cl2, u, hperm, hu0, humem, hcnt1, hnosat, hs2⟩
    · subst hs2
      refine ⟨set_clause_inv hInv hperm, set_clause_frame hperm, ?_, clauseOk_set hperm⟩
      rcases hsat with ⟨l, hl, hlt⟩ | hcnt
      · exact Or.inl ⟨l, (mem_getD_set_clause hperm cr l).2 hl, hlt.1, hlt.2⟩
      · have hex : ∃ l ∈ s.clauses.getD cr [], unassignedB s.level l = true :=
          List.countP_pos_iff.1 (by omega)
        obtain ⟨l, hl, hul⟩ := hex
        refine Or.inr (Or.inl ⟨l, (mem_getD_set_clause hperm cr l).2 hl, ?_⟩)
        exact beq_iff_eq.1 hul
    · have hInvσ : Inv { s with clauses := s.clauses.set cr cl2 } :=
        set_clause_inv hInv hperm
      have hframeσ : PropFrame s { s with clauses := s.clauses.set cr cl2 } :=
        set_clause_frame hperm
      have hcrσ : cr < ({ s with clauses := s.clauses.set cr cl2 } : Solver).clauses.length := by
        show cr < (s.clauses.set cr cl2).length
        rw [List.length_set]
        exact hcr
      have hgetσ : ({ s with clauses := s.clauses.set cr cl2 } : Solver).clauses.getD cr []
          = cl2 := by
        show (s.clauses.set cr cl2).getD cr [] = cl2
        exact getD_set_self hcr
      have humemσ : u ∈ ({ s with clauses := s.clauses.set cr cl2 } : Solver).clauses.getD cr [] := by
        rw [hgetσ]
        exact hperm.mem_iff.2 humem
      have hcnt1σ : (({ s with clauses := s.clauses.set cr cl2 } : Solver).clauses.getD cr []).countP
          (unassignedB s.level) = 1 := by
        rw [hgetσ, hperm.countP_eq]
        exact hcnt1
      obtain ⟨hInv2, hframe2⟩ := enqueue_prop_inv hInvσ hqne hcrσ humemσ hu0 hcnt1σ
      subst hs2
      refine ⟨hInv2, hframeσ.transitive hframe2, ?_, ?_⟩
      · -- the forced literal satisfies the scanned clause
        have hulev : u.1 < s.level.length := by
          rw [hInv.len_l]
          exact hInv.clause_vars _ (by rw [List.getD_eq_getElem _ _ hcr]; exact List.getElem_mem hcr)
            u humem
        have hua : u.1 < s.assigns.length := by
          rw [hInv.len_a, ← hInv.len_l]
          exact hulev
        refine Or.inl ⟨u, ?_, ?_, ?_⟩
        · show u ∈ (s.clauses.set cr cl2).getD cr []
          rw [getD_set_self hcr]
          exact hperm.mem_iff.2 humem
        · show (s.level.set u.1 _).getD u.1 0 ≠ 0
          rw [getD_set_self hulev]
          show tailLevel s ≠ 0
          rw [tailLevel_of_ne_nil hqne]
          exact lastLevel_pos hInv hqne
        · show (s.assigns.set u.1 u.2).getD u.1 false = u.2
          rw [getD_set_self hua]
      · intro cr2 hok
        exact clauseOk_enqueue hInvσ hqne hcrσ humemσ hu0 cr2 (clauseOk_set hperm cr2 hok)
  · intro c2 s2 h
    obtain ⟨hc2, ⟨cl2, hperm, hs2⟩, hfalse⟩ := propClause_conflict_inv h
    subst hs2
    subst hc2
    refine ⟨rfl, set_clause_inv hInv hperm, set_clause_frame hperm, ?_, clauseOk_set hperm⟩
    intro l hl
    exact hfalse l ((mem_getD_set_clause hperm _ l).1 hl)

/-- The watcher-list fold preserves the invariant; scanned clauses become
`ClauseOk`, and a conflict yields a fully falsified clause from the list. -/
theorem propClauses_inv : ∀ (lst : List Nat) (s : Solver), Inv s → s.que ≠ [] →
    (∀ cr ∈ lst, cr < s.clauses.length) →
    (∀ s2, propClauses s lst = .next s2 →
        Inv s2 ∧ PropFrame s s2 ∧
        (∀ cr2, (ClauseOk s cr2 ∨ cr2 ∈ lst) → ClauseOk s2 cr2)) ∧
    (∀ confl s2, propClauses s lst = .conflict confl s2 →
        Inv s2 ∧ PropFrame s s2 ∧ confl ∈ lst ∧
        (∀ l ∈ s2.clauses.getD confl [], s2.level.getD l.1 0 ≠ 0 ∧
          s2.assigns.getD l.1 false ≠ l.2) ∧
        (∀ cr2, ClauseOk s cr2 → ClauseOk s2 cr2)) := by
  intro lst
  induction lst with
  | nil =>
    intro s hInv hqne hbound
    constructor
    · intro s2 h
      cases h
      refine ⟨hInv, PropFrame.refl s, ?_⟩
      intro cr2 hok
      rcases hok with hok | hok
      · exact hok
      · cases hok
    · intro confl s2 h
      cases h
  | cons cr rest ih =>
    intro s hInv hqne hbound
    have hcr : cr < s.clauses.length := hbound cr (List.mem_cons_self _ _)
    obtain ⟨hnext, hconfl⟩ := propClause_inv hInv hqne hcr
    constructor
    · intro s2 h
      unfold propClauses at h
      cases hpc : propClause s cr with
      | conflict c1 s1 =>
        rw [hpc] at h
        cases h
      | next s1 =>
        rw [hpc] at h
        obtain ⟨hInv1, hframe1, hok1, hpres1⟩ := hnext s1 hpc
        have hqne1 : s1.que ≠ [] := by
          obtain ⟨_, _, _, ⟨ext, hq⟩, _⟩ := hframe1
          rw [hq]
          intro hc
          exact hqne (List.append_eq_nil.1 hc).1
        have hbound1 : ∀ cr2 ∈ rest, cr2 < s1.clauses.length := by
          intro cr2 hcr2
          obtain ⟨_, _, _, _, _, _, hlen, _⟩ := hframe1
          rw [hlen]
          exact hbound cr2 (List.mem_cons.2 (Or.inr hcr2))
        obtain ⟨hn2, _⟩ := ih s1 hInv1 hqne1 hbound1
        obtain ⟨hInv2, hframe2, hpres2⟩ := hn2 s2 h
        refine ⟨hInv2, hframe1.transitive hframe2, ?_⟩
        intro cr2 hok
        rcases hok with hok | hok
        · exact hpres2 cr2 (Or.inl (hpres1 cr2 hok))
        · rcases List.mem_cons.1 hok with he | hok
          · subst he
            exact hpres2 cr2 (Or.inl hok1)
          · exact hpres2 cr2 (Or.inr hok)
    · intro confl s2 h
      unfold propClauses at h
      cases hpc : propClause s cr with
      | conflict c1 s1 =>
        rw [hpc] at h
        cases h
        obtain ⟨hc2, hInv1, hframe1, hfalse, hpres⟩ := hconfl confl s2 hpc
        subst hc2
        exact ⟨hInv1, hframe1, List.mem_cons_self _ _, hfalse, hpres⟩
      | next s1 =>
        rw [hpc] at h
        obtain ⟨hInv1, hframe1, hok1, hpres1⟩ := hnext s1 hpc
        have hqne1 : s1.que ≠ [] := by
          obtain ⟨_, _, _, ⟨ext, hq⟩, _⟩ := hframe1
          rw [hq]
          intro hc
          exact hqne (List.append_eq_nil.1 hc).1
        have hbound1 : ∀ cr2 ∈ rest, cr2 < s1.clauses.length := by
          intro cr2 hcr2
          obtain ⟨_, _, _, _, _, _, hlen, _⟩ := hframe1
          rw [hlen]
          exact hbound cr2 (List.mem_cons.2 (Or.inr hcr2))
        obtain ⟨_, hc2⟩ := ih s1 hInv1 hqne1 hbound1
        obtain ⟨hInv2, hframe2, hmem, hfalse, hpres2⟩ := hc2 confl s2 h
        exact ⟨hInv2, hframe1.transitive hframe2, List.mem_cons.2 (Or.inr hmem), hfalse,
          fun cr2 hok => hpres2 cr2 (hpres1 cr2 hok)⟩

/-- Frame of a whole propagation run: like `PropFrame` but the head may move. -/
def StepFrame (s s2 : Solver) : Prop :=
  s2.watchers = s.watchers ∧ s2.n = s.n ∧
  (∃ ext, s2.que = s.que ++ ext) ∧
  (∀ w ∈ s.que, s2.level.getD w 0 = s.level.getD w 0) ∧
  (∀ w ∈ s.que, s2.assigns.getD w false = s.assigns.getD w false) ∧
  s2.clauses.length = s.clauses.length ∧
  (∀ i, (s2.clauses.getD i []).Perm (s.clauses.getD i [])) ∧
  (s.que ≠ [] → lastLevel s2 = lastLevel s)

theorem PropFrame.toStep {s s2 : Solver} (h : PropFrame s s2) : StepFrame s s2 := by
  obtain ⟨w, n, _, q, l, a, c, p, ll⟩ := h
  exact ⟨w, n, q, l, a, c, p, ll⟩

theorem StepFrame.chain {s s1 s2 : Solver} (h1 : StepFrame s s1) (h2 : StepFrame s1 s2) :
    StepFrame s s2 := by
  obtain ⟨w1, n1, ⟨e1, q1⟩, l1, a1, c1, p1, ll1⟩ := h1
  obtain ⟨w2, n2, ⟨e2, q2⟩, l2, a2, c2, p2, ll2⟩ := h2
  refine ⟨by rw [w2, w1], by rw [n2, n1],
    ⟨e1 ++ e2, by rw [q2, q1, List.append_assoc]⟩, ?_, ?_, by rw [c2, c1],
    fun i => (p2 i).trans (p1 i), ?_⟩
  · intro w hw
    rw [l2 w (by rw [q1]; exact List.mem_append.2 (Or.inl hw)), l1 w hw]
  · intro w hw
    rw [a2 w (by rw [q1]; exact List.mem_append.2 (Or.inl hw)), a1 w hw]
  · intro hne
    rw [ll2 (by rw [q1]; intro hc; exact hne (List.append_eq_nil.1 hc).1), ll1 hne]

/-- Advancing the head within the trail preserves the invariant. -/
theorem bump_head_inv {s : Solver} (hInv : Inv s) (hh : s.head < s.que.length) :
    Inv { s with head := s.head + 1 } := by
  refine ⟨hInv.len_a, hInv.len_r, hInv.len_l, hInv.que_lt, hInv.que_nd, hInv.que_pos,
    hInv.mem_que, hInv.sorted, ?_, ?_, hInv.watch_sound, hInv.watch_complete,
    hInv.clause_vars, hInv.reason_sound, hInv.block_reason, hInv.cap0, hInv.capsucc⟩
  · show s.head + 1 ≤ s.que.length
    omega
  · intro i hi hilen
    replace hi : s.head + 1 ≤ i := hi
    replace hilen : i < s.que.length := hilen
    exact hInv.suffix_level i (by omega) hilen

/-- Advancing the head keeps a clause good or hands it to the watch list of the
literal just falsified. -/
theorem bump_head_ok {s : Solver} (hInv : Inv s) (hh : s.head < s.que.length)
    {cr : Nat} (hok : ClauseOk s cr) :
    ClauseOk { s with head := s.head + 1 } cr ∨
      cr ∈ watchGet s.watchers
        (s.que.getD s.head 0, !s.assigns.getD (s.que.getD s.head 0) false) := by
  rcases hok with hsat | huna | ⟨i, hhi, hile, hmem⟩ | hemp
  · exact Or.inl (Or.inl hsat)
  · exact Or.inl (Or.inr (Or.inl huna))
  · rcases Nat.lt_or_ge i (s.head + 1) with hlt | hge
    · have he : i = s.head := by omega
      subst he
      have hcr : cr < s.clauses.length := by
        by_contra hc
        rw [List.getD_eq_getElem?_getD, List.getElem?_eq_none (by omega)] at hmem
        cases hmem
      exact Or.inr (hInv.watch_complete cr hcr _ hmem)
    · exact Or.inl (Or.inr (Or.inr (Or.inl ⟨i, hge, hile, hmem⟩)))
  · exact Or.inl (Or.inr (Or.inr (Or.inr hemp)))

/-- A full propagation run preserves the invariant.  On `done` every clause is
good and the trail is drained; on `conflict` the conflict clause is fully
falsified and contains a literal at the current decision level, and every
stored clause is either good or touches the current level. -/
theorem propagateGo_inv : ∀ (fuel : Nat) (s : Solver), Inv s → AllOk s →
    (∀ s2, propagateGo fuel s = some (.done s2) →
        Inv s2 ∧ StepFrame s s2 ∧ AllOk s2 ∧ s2.head = s2.que.length) ∧
    (∀ cr s2, propagateGo fuel s = some (.conflict cr s2) →
        Inv s2 ∧ StepFrame s s2 ∧ s2.que ≠ [] ∧ cr < s2.clauses.length ∧
        (∀ l ∈ s2.clauses.getD cr [], s2.level.getD l.1 0 ≠ 0 ∧
          s2.assigns.getD l.1 false ≠ l.2) ∧
        (∃ l ∈ s2.clauses.getD cr [], s2.level.getD l.1 0 = lastLevel s2) ∧
        (∀ cr2, cr2 < s2.clauses.length → ClauseOk s2 cr2 ∨
          ∃ l ∈ s2.clauses.getD cr2 [], s2.level.getD l.1 0 = lastLevel s2)) := by
  intro fuel
  induction fuel with
  | zero =>
    intro s _ _
    refine ⟨?_, ?_⟩
    · intro s2 h
      cases h
    · intro cr s2 h
      cases h
  | succ fuel ih =>
    intro s hInv hAll
    by_cases hh : s.head < s.que.length
    · -- one pending trail entry is consumed
      have hqne : s.que ≠ [] := by
        intro hc
        rw [hc] at hh
        have h0 : ([] : List Var).length = 0 := rfl
        omega
      have hgo : propagateGo (fuel + 1) s =
          match propClauses { s with head := s.head + 1 }
              (watchGet s.watchers
                (s.que.getD s.head 0, !s.assigns.getD (s.que.getD s.head 0) false)) with
          | .conflict cr s2 => some (.conflict cr s2)
          | .next s2 => propagateGo fuel s2 := by
        show propagateGo (fuel + 1) s = _
        rw [propagateGo_succ]
        rw [if_pos hh]
      have hInv1 : Inv { s with head := s.head + 1 } := bump_head_inv hInv hh
      have hqne1 : ({ s with head := s.head + 1 } : Solver).que ≠ [] := hqne
      set p : Lit := (s.que.getD s.head 0, !s.assigns.getD (s.que.getD s.head 0) false) with hp
      have hbound : ∀ cr ∈ watchGet s.watchers p,
          cr < ({ s with head := s.head + 1 } : Solver).clauses.length := by
        intro cr hcr
        exact (hInv1.watch_sound p cr hcr).1
      obtain ⟨hnextc, hconflc⟩ :=
        propClauses_inv (watchGet s.watchers p) { s with head := s.head + 1 }
          hInv1 hqne1 hbound
      have hframe01 : StepFrame s { s with head := s.head + 1 } :=
        ⟨rfl, rfl, ⟨[], by simp⟩, fun _ _ => rfl, fun _ _ => rfl, rfl,
          fun _ => List.Perm.refl _, fun _ => rfl⟩
      have hlevp : s.level.getD p.1 0 = lastLevel s :=
        hInv.suffix_level s.head (Nat.le_refl _) hh
      have hout : ∀ cr2, cr2 < s.clauses.length →
          ClauseOk { s with head := s.head + 1 } cr2 ∨ cr2 ∈ watchGet s.watchers p := by
        intro cr2 hcr2
        exact bump_head_ok hInv hh (hAll cr2 hcr2)
      constructor
      · intro s2 h
        rw [hgo] at h
        cases hpc : propClauses { s with head := s.head + 1 } (watchGet s.watchers p) with
        | conflict c1 s1 =>
          rw [hpc] at h
          cases h
        | next s1 =>
          rw [hpc] at h
          obtain ⟨hInv', hframe', hpres'⟩ := hnextc s1 hpc
          have hqne' : s1.que ≠ [] := by
            obtain ⟨_, _, _, ⟨ext, hq⟩, _⟩ := hframe'
            rw [hq]
            intro hc
            exact hqne (List.append_eq_nil.1 hc).1
          have hAll' : AllOk s1 := by
            intro cr2 hcr2
            obtain ⟨_, _, _, _, _, _, hlen, _⟩ := hframe'
            exact hpres' cr2 (hout cr2 (by rw [hlen] at hcr2; exact hcr2))
          obtain ⟨hdone, _⟩ := ih s1 hInv' hAll'
          obtain ⟨hInv2, hframe2, hAll2, hhead2⟩ := hdone s2 h
          exact ⟨hInv2, (hframe01.chain hframe'.toStep).chain hframe2, hAll2, hhead2⟩
      · intro cr s2 h
        rw [hgo] at h
        cases hpc : propClauses { s with head := s.head + 1 } (watchGet s.watchers p) with
        | next s1 =>
          rw [hpc] at h
          obtain ⟨hInv', hframe', hpres'⟩ := hnextc s1 hpc
          have hqne' : s1.que ≠ [] := by
            obtain ⟨_, _, _, ⟨ext, hq⟩, _⟩ := hframe'
            rw [hq]
            intro hc
            exact hqne (List.append_eq_nil.1 hc).1
          have hAll' : AllOk s1 := by
            intro cr2 hcr2
            obtain ⟨_, _, _, _, _, _, hlen, _⟩ := hframe'
            exact hpres' cr2 (hout cr2 (by rw [hlen] at hcr2; exact hcr2))
          obtain ⟨_, hcf⟩ := ih s1 hInv' hAll'
          obtain ⟨hInv2, hframe2, hqne2, hcr2, hfalse2, hlev2, hexc2⟩ := hcf cr s2 h
          exact ⟨hInv2, (hframe01.chain hframe'.toStep).chain hframe2, hqne2, hcr2,
            hfalse2, hlev2, hexc2⟩
        | conflict c1 s1 =>
          rw [hpc] at h
          cases h
          obtain ⟨hInv2, hframe2, hmem2, hfalse2, hpres2⟩ := hconflc cr s2 hpc
          have hframe : StepFrame s s2 := hframe01.chain hframe2.toStep
          have hfc := hframe
          obtain ⟨hw2, _, ⟨ext2, hq2⟩, hl2, ha2, hlen2, hperm2, hll2⟩ := hfc
          have hqne2 : s2.que ≠ [] := by
            rw [hq2]
            intro hc
            exact hqne (List.append_eq_nil.1 hc).1
          have hvmem : s.que.getD s.head 0 ∈ s.que := getD_mem_que hh
          have hpin : ∀ cr3 ∈ watchGet s.watchers p,
              ∃ l ∈ s2.clauses.getD cr3 [], s2.level.getD l.1 0 = lastLevel s2 := by
            intro cr3 hcr3
            obtain ⟨hcl3, hpm⟩ := hInv1.watch_sound p cr3 hcr3
            refine ⟨p, ?_, ?_⟩
            · exact ((hperm2 cr3).mem_iff).2 hpm
            · rw [hl2 p.1 hvmem, hlevp, hll2 hqne]
          have hcrlt : cr < s2.clauses.length := by
            rw [hlen2]
            exact (hInv1.watch_sound p cr hmem2).1
          refine ⟨hInv2, hframe, hqne2, hcrlt, hfalse2, hpin cr hmem2, ?_⟩
          intro cr3 hcr3
          rcases hout cr3 (by rw [hlen2] at hcr3; exact hcr3) with hok | hwm
          · exact Or.inl (hpres2 cr3 hok)
          · exact Or.inr (hpin cr3 hwm)
    · -- trail drained: propagation reports no conflict
      have hgo : propagateGo (fuel + 1) s = some (.done s) := by
        rw [propagateGo_succ, if_neg hh]
      constructor
      · intro s2 h
        rw [hgo] at h
        cases h
        refine ⟨hInv, ⟨rfl, rfl, ⟨[], by simp⟩, fun _ _ => rfl, fun _ _ => rfl, rfl,
          fun _ => List.Perm.refl _, fun _ => rfl⟩, hAll, ?_⟩
        have := hInv.head_le
        omega
      · intro cr s2 h
        rw [hgo] at h
        cases h

/-! ### Conflict analysis: loop invariants -/

theorem countP_ge_two_distinct {α : Type _} {p : α → Bool} :
    ∀ {l : List α}, l.Nodup → 2 ≤ l.countP p →
      ∃ a b, a ∈ l ∧ b ∈ l ∧ a ≠ b ∧ p a = true ∧ p b = true := by
  intro l
  induction l with
  | nil =>
    intro _ h
    simp at h
  | cons x t ih =>
    intro hnd h
    by_cases hx : p x = true
    · have hc : (x :: t).countP p = t.countP p + 1 := by
        rw [List.countP_cons, hx]
        simp
      rw [hc] at h
      obtain ⟨b, hb, hpb⟩ := List.countP_pos_iff.1 (show 0 < t.countP p by omega)
      refine ⟨x, b, List.mem_cons_self _ _, List.mem_cons.2 (Or.inr hb), ?_, hx, hpb⟩
      intro he
      exact (List.nodup_cons.1 hnd).1 (he ▸ hb)
    · rw [Bool.not_eq_true] at hx
      have hc : (x :: t).countP p = t.countP p := by
        rw [List.countP_cons, hx]
        simp
      rw [hc] at h
      obtain ⟨a, b, ha, hb, hab, hpa, hpb⟩ := ih (List.nodup_cons.1 hnd).2 h
      exact ⟨a, b, List.mem_cons.2 (Or.inr ha), List.mem_cons.2 (Or.inr hb), hab, hpa, hpb⟩

theorem level_le_lastLevel {s : Solver} (hInv : Inv s) (hqne : s.que ≠ []) {i : Nat}
    (hi : i < s.que.length) : s.level.getD (s.que.getD i 0) 0 ≤ lastLevel s := by
  rw [lastLevel_eq_getD hqne]
  have hlen : 0 < s.que.length := List.length_pos.2 hqne
  exact sorted_getD_mono hInv.sorted (by omega) (by omega)

theorem mem_level_le_lastLevel {s : Solver} (hInv : Inv s) (hqne : s.que ≠ [])
    {v : Var} (hv : v ∈ s.que) : s.level.getD v 0 ≤ lastLevel s := by
  obtain ⟨i, hi, he⟩ := mem_que_getD hv
  rw [← he]
  exact level_le_lastLevel hInv hqne hi

/-- Full behaviour of one `checkLits` pass over a clause whose variables are
all assigned at levels at most the conflict level. -/
theorem checkLits_spec (level : List Nat) (cl : Nat) :
    ∀ (cls : List Lit) (st : AState),
    (∀ l ∈ cls, level.getD l.1 0 ≠ 0 ∧ level.getD l.1 0 ≤ cl) →
    st.checked.Nodup →
    (checkLits level cl cls st).checked.Nodup ∧
    (∀ v ∈ st.checked, v ∈ (checkLits level cl cls st).checked) ∧
    (∀ l ∈ cls, l.1 ∈ (checkLits level cl cls st).checked) ∧
    (∀ v ∈ (checkLits level cl cls st).checked, v ∈ st.checked ∨ ∃ l ∈ cls, l.1 = v) ∧
    st.bt ≤ (checkLits level cl cls st).bt ∧
    ((checkLits level cl cls st).bt ≤ st.bt ∨ (checkLits level cl cls st).bt < cl) ∧
    (∃ tl, (checkLits level cl cls st).learnt = st.learnt ++ tl ∧
      ∀ l ∈ tl, l ∈ cls ∧ level.getD l.1 0 < cl ∧
        level.getD l.1 0 ≤ (checkLits level cl cls st).bt) ∧
    (checkLits level cl cls st).slc
        + (st.checked.countP (fun v => level.getD v 0 == cl) : Int)
      = st.slc
        + ((checkLits level cl cls st).checked.countP
            (fun v => level.getD v 0 == cl) : Int) := by
  intro cls
  induction cls with
  | nil =>
    intro st _ hnd
    refine ⟨hnd, fun v hv => hv, ?_, ?_, Nat.le_refl _, Or.inl (Nat.le_refl _),
      ⟨[], by show st.learnt = st.learnt ++ []; rw [List.append_nil], ?_⟩, rfl⟩
    · intro l hl
      cases hl
    · intro v hv
      exact Or.inl hv
    · intro l hl
      cases hl
  | cons p rest ih =>
    intro st hlev hnd
    have hred : checkLits level cl (p :: rest) st =
        if p.1 ∈ st.checked then checkLits level cl rest st
        else
          if level.getD p.1 0 < cl then
            checkLits level cl rest
              { checked := p.1 :: st.checked, learnt := st.learnt ++ [p],
                bt := max st.bt (level.getD p.1 0), slc := st.slc }
          else
            checkLits level cl rest
              { checked := p.1 :: st.checked, learnt := st.learnt,
                bt := st.bt, slc := st.slc + 1 } := rfl
    have hlrest : ∀ l ∈ rest, level.getD l.1 0 ≠ 0 ∧ level.getD l.1 0 ≤ cl :=
      fun l hl => hlev l (List.mem_cons.2 (Or.inr hl))
    by_cases hchk : p.1 ∈ st.checked
    · rw [hred, if_pos hchk]
      obtain ⟨c1, c2, c3, c4, c5, c6, ⟨tl, c7, c7f⟩, c8⟩ := ih st hlrest hnd
      refine ⟨c1, c2, ?_, ?_, c5, c6, ⟨tl, c7, ?_⟩, c8⟩
      · intro l hl
        rcases List.mem_cons.1 hl with he | hr
        · rw [he]
          exact c2 p.1 hchk
        · exact c3 l hr
      · intro v hv
        rcases c4 v hv with hin | ⟨l, hl, he⟩
        · exact Or.inl hin
        · exact Or.inr ⟨l, List.mem_cons.2 (Or.inr hl), he⟩
      · intro l hl
        obtain ⟨m1, m2, m3⟩ := c7f l hl
        exact ⟨List.mem_cons.2 (Or.inr m1), m2, m3⟩
    · rw [hred, if_neg hchk]
      by_cases hlow : level.getD p.1 0 < cl
      · rw [if_pos hlow]
        set st1 : AState := { checked := p.1 :: st.checked, learnt := st.learnt ++ [p], bt := max st.bt (level.getD p.1 0), slc := st.slc } with hst1
        have hnd1 : st1.checked.Nodup := List.nodup_cons.2 ⟨hchk, hnd⟩
        obtain ⟨c1, c2, c3, c4, c5, c6, ⟨tl, c7, c7f⟩, c8⟩ := ih st1 hlrest hnd1
        refine ⟨c1, ?_, ?_, ?_, ?_, ?_, ⟨p :: tl, ?_, ?_⟩, ?_⟩
        · intro v hv
          exact c2 v (List.mem_cons.2 (Or.inr hv))
        · intro l hl
          rcases List.mem_cons.1 hl with he | hr
          · rw [he]
            exact c2 p.1 (List.mem_cons_self _ _)
          · exact c3 l hr
        · intro v hv
          rcases c4 v hv with hin | ⟨l, hl, he⟩
          · rcases List.mem_cons.1 hin with he | hs
            · exact Or.inr ⟨p, List.mem_cons_self _ _, he.symm⟩
            · exact Or.inl hs
          · exact Or.inr ⟨l, List.mem_cons.2 (Or.inr hl), he⟩
        · have : st.bt ≤ st1.bt := Nat.le_max_left _ _
          omega
        · have hb1 : st1.bt = max st.bt (level.getD p.1 0) := rfl
          rcases c6 with hle | hlt
          · rw [hb1] at hle
            omega
          · exact Or.inr hlt
        · rw [c7]
          show st.learnt ++ [p] ++ tl = st.learnt ++ (p :: tl)
          rw [List.append_assoc]
          rfl
        · intro l hl
          rcases List.mem_cons.1 hl with he | hr
          · subst he
            refine ⟨List.mem_cons_self _ _, hlow, ?_⟩
            have h1 : level.getD l.1 0 ≤ st1.bt := Nat.le_max_right _ _
            omega
          · obtain ⟨m1, m2, m3⟩ := c7f l hr
            exact ⟨List.mem_cons.2 (Or.inr m1), m2, m3⟩
        · have hcnt : st1.checked.countP (fun v => level.getD v 0 == cl)
              = st.checked.countP (fun v => level.getD v 0 == cl) := by
            show (p.1 :: st.checked).countP _ = _
            rw [List.countP_cons]
            have : (level.getD p.1 0 == cl) = false := by
              rw [beq_eq_false_iff_ne]
              omega
            rw [this]
            simp
          rw [hcnt] at c8
          have hslc : st1.slc = st.slc := rfl
          rw [hslc] at c8
          exact c8
      · rw [if_neg hlow]
        have heq : level.getD p.1 0 = cl := by
          have := (hlev p (List.mem_cons_self _ _)).2
          omega
        set st1 : AState := { checked := p.1 :: st.checked, learnt := st.learnt, bt := st.bt, slc := st.slc + 1 } with hst1
        have hnd1 : st1.checked.Nodup := List.nodup_cons.2 ⟨hchk, hnd⟩
        obtain ⟨c1, c2, c3, c4, c5, c6, ⟨tl, c7, c7f⟩, c8⟩ := ih st1 hlrest hnd1
        refine ⟨c1, ?_, ?_, ?_, c5, c6, ⟨tl, c7, ?_⟩, ?_⟩
        · intro v hv
          exact c2 v (List.mem_cons.2 (Or.inr hv))
        · intro l hl
          rcases List.mem_cons.1 hl with he | hr
          · rw [he]
            exact c2 p.1 (List.mem_cons_self _ _)
          · exact c3 l hr
        · intro v hv
          rcases c4 v hv with hin | ⟨l, hl, he⟩
          · rcases List.mem_cons.1 hin with he | hs
            · exact Or.inr ⟨p, List.mem_cons_self _ _, he.symm⟩
            · exact Or.inl hs
          · exact Or.inr ⟨l, List.mem_cons.2 (Or.inr hl), he⟩
        · intro l hl
          obtain ⟨m1, m2, m3⟩ := c7f l hl
          exact ⟨List.mem_cons.2 (Or.inr m1), m2, m3⟩
        · have hcnt : st1.checked.countP (fun v => level.getD v 0 == cl)
              = st.checked.countP (fun v => level.getD v 0 == cl) + 1 := by
            show (p.1 :: st.checked).countP _ = _
            rw [List.countP_cons]
            have : (level.getD p.1 0 == cl) = true := beq_iff_eq.2 heq
            rw [this]
            simp
          rw [hcnt] at c8
          have hslc : st1.slc = st.slc + 1 := rfl
          rw [hslc] at c8
          omega

/-- The backward tail-pointer search succeeds as soon as some checked variable
sits at or below the start position, returns the highest such position, and
rules out checked variables above it. -/
theorem findTail_spec (checked : List Var) (que : List Var) :
    ∀ k, (∃ j, j ≤ k ∧ que.getD j 0 ∈ checked) →
      ∃ qt, findTail checked que k = some qt ∧ qt ≤ k ∧ que.getD qt 0 ∈ checked ∧
        ∀ j, qt < j → j ≤ k → que.getD j 0 ∉ checked := by
  intro k
  induction k with
  | zero =>
    rintro ⟨j, hj, hmem⟩
    have hj0 : j = 0 := by omega
    subst hj0
    refine ⟨0, ?_, Nat.le_refl _, hmem, ?_⟩
    · show (if que.getD 0 0 ∈ checked then some 0 else none) = some 0
      rw [if_pos hmem]
    · intro j h1 h2
      omega
  | succ k ih =>
    rintro ⟨j, hj, hmem⟩
    by_cases htop : que.getD (k + 1) 0 ∈ checked
    · refine ⟨k + 1, ?_, Nat.le_refl _, htop, ?_⟩
      · show (if que.getD (k + 1) 0 ∈ checked then some (k + 1)
            else findTail checked que k) = some (k + 1)
        rw [if_pos htop]
      · intro j h1 h2
        omega
    · have hjk : j ≤ k := by
        rcases Nat.lt_or_ge j (k + 1) with h | h
        · omega
        · have : j = k + 1 := by omega
          rw [this] at hmem
          exact absurd hmem htop
      obtain ⟨qt, h1, h2, h3, h4⟩ := ih ⟨j, hjk, hmem⟩
      refine ⟨qt, ?_, by omega, h3, ?_⟩
      · show (if que.getD (k + 1) 0 ∈ checked then some (k + 1)
            else findTail checked que k) = some qt
        rw [if_neg htop]
        exact h1
      · intro i hi1 hi2
        rcases Nat.lt_or_ge i (k + 1) with h | h
        · exact h4 i hi1 (by omega)
        · have : i = k + 1 := by omega
          rw [this]
          exact htop

/-- Invariant of the resolution loop of `analyze`: all checked variables sit on
the trail at positions at most the tail pointer, the running conflict clause is
stored and its variables sit at positions at most the tail pointer, the
same-level counter is covered by the checked variables at the conflict level,
the backtrack level stays strictly below the conflict level, and learnt
literals are checked, assigned, and at most the backtrack level. -/
structure APre (s : Solver) (cl : Nat) (confl : Nat) (st : AState) (qt : Nat) : Prop where
  nd : st.checked.Nodup
  chk_pos : ∀ v ∈ st.checked, ∃ j, j ≤ qt ∧ j < s.que.length ∧ s.que.getD j 0 = v
  qt_lt : qt < s.que.length
  slc_le : st.slc ≤ (st.checked.countP (fun v => s.level.getD v 0 == cl) : Int)
  slc_nonneg : 0 ≤ st.slc
  confl_lt : confl < s.clauses.length
  confl_pos : ∀ l ∈ s.clauses.getD confl [],
    ∃ j, j ≤ qt ∧ j < s.que.length ∧ s.que.getD j 0 = l.1
  seed : (∃ l ∈ s.clauses.getD confl [], s.level.getD l.1 0 = cl) ∨
    (s.que.getD qt 0 ∈ st.checked ∧ s.level.getD (s.que.getD qt 0) 0 = cl)
  bt_lo : 1 ≤ st.bt
  bt_hi : st.bt < cl
  learnt_chk : ∀ l ∈ st.learnt, l.1 ∈ st.checked
  learnt_lev : ∀ l ∈ st.learnt, s.level.getD l.1 0 ≤ st.bt ∧ s.level.getD l.1 0 ≠ 0

/-- The resolution loop never hits the `unwrap` panic or the tail-pointer
underflow: it either runs out of fuel or returns, and on return the tail
pointer sits at a conflict-level trail position, the backtrack level is in
`[1, current_level)`, and the learnt literals are assigned at levels at most
the backtrack level. -/
theorem nodup_length_le {l : List Nat} {n : Nat} (hnd : l.Nodup) (hlt : ∀ v ∈ l, v < n) :
    l.length ≤ n := by
  have hsub : l ⊆ List.range n := fun v hv => List.mem_range.2 (hlt v hv)
  have h1 := (hnd.subperm hsub).length_le
  rw [List.length_range] at h1
  exact h1

theorem analyzeGo_inv {s : Solver} {cl : Nat} (hInv : Inv s) (hqne : s.que ≠ [])
    (hcl : cl = lastLevel s) (hcl2 : 2 ≤ cl) :
    ∀ (fuel confl : Nat) (st : AState) (qt : Nat), APre s cl confl st qt →
      (analyzeGo s cl fuel confl st qt = .error .fuel ∧
        (fuel : Int) + (st.checked.countP (fun v => s.level.getD v 0 == cl) : Int)
          - st.slc ≤ s.n) ∨
      ∃ qt2 st2, analyzeGo s cl fuel confl st qt = .ok (qt2, st2) ∧
        qt2 < s.que.length ∧
        s.level.getD (s.que.getD qt2 0) 0 = cl ∧
        1 ≤ st2.bt ∧ st2.bt < cl ∧
        (∀ l ∈ st2.learnt, s.level.getD l.1 0 ≤ st2.bt ∧ s.level.getD l.1 0 ≠ 0) ∧
        (∀ l ∈ st2.learnt, l.1 ∈ st2.checked) ∧
        (∀ v ∈ st2.checked, v ∈ s.que) := by
  intro fuel
  induction fuel with
  | zero =>
    intro confl st qt pre
    refine Or.inl ⟨rfl, ?_⟩
    have h1 : st.checked.countP (fun v => s.level.getD v 0 == cl) ≤ st.checked.length :=
      List.countP_le_length _
    have h2 : st.checked.length ≤ s.n := by
      apply nodup_length_le pre.nd
      intro v hv
      obtain ⟨j, _, hjlen, hje⟩ := pre.chk_pos v hv
      rw [← hje]
      exact hInv.que_lt _ (getD_mem_que hjlen)
    have h3 := pre.slc_nonneg
    omega
  | succ fuel ih =>
    intro confl st qt pre
    have hlevc : ∀ l ∈ s.clauses.getD confl [],
        s.level.getD l.1 0 ≠ 0 ∧ s.level.getD l.1 0 ≤ cl := by
      intro l hl
      obtain ⟨j, hj, hjlen, hje⟩ := pre.confl_pos l hl
      have hmem : l.1 ∈ s.que := by
        rw [← hje]
        exact getD_mem_que hjlen
      exact ⟨hInv.que_pos _ hmem, by rw [hcl]; exact mem_level_le_lastLevel hInv hqne hmem⟩
    obtain ⟨c1, c2, c3, c4, c5, c6, ⟨tl, c7, c7f⟩, c8⟩ :=
      checkLits_spec s.level cl (s.clauses.getD confl []) st hlevc pre.nd
    set st1 := checkLits s.level cl (s.clauses.getD confl []) st with hst1
    have hseed : ∃ j, j ≤ qt ∧ s.que.getD j 0 ∈ st1.checked := by
      rcases pre.seed with ⟨l, hl, _⟩ | ⟨hmem, _⟩
      · obtain ⟨j, hj, hjlen, hje⟩ := pre.confl_pos l hl
        exact ⟨j, hj, by rw [hje]; exact c3 l hl⟩
      · exact ⟨qt, Nat.le_refl _, c2 _ hmem⟩
    obtain ⟨qt2, hft, hqle, hmem2, habove⟩ := findTail_spec st1.checked s.que qt hseed
    have hpos1 : ∀ v ∈ st1.checked,
        ∃ j, j ≤ qt2 ∧ j < s.que.length ∧ s.que.getD j 0 = v := by
      intro v hv
      have hjex : ∃ j, j ≤ qt ∧ j < s.que.length ∧ s.que.getD j 0 = v := by
        rcases c4 v hv with hin | ⟨l, hl, he⟩
        · exact pre.chk_pos v hin
        · obtain ⟨j, hj, hjlen, hje⟩ := pre.confl_pos l hl
          exact ⟨j, hj, hjlen, by rw [hje, he]⟩
      obtain ⟨j, hj, hjlen, hje⟩ := hjex
      refine ⟨j, ?_, hjlen, hje⟩
      by_contra hgt
      exact habove j (by omega) hj (by rw [hje]; exact hv)
    have hq2len : qt2 < s.que.length := Nat.lt_of_le_of_lt hqle pre.qt_lt
    have hlq2 : s.level.getD (s.que.getD qt2 0) 0 = cl := by
      have hseedcl : ∃ j, j ≤ qt2 ∧ j < s.que.length ∧
          s.level.getD (s.que.getD j 0) 0 = cl := by
        rcases pre.seed with ⟨l, hl, hlev⟩ | ⟨hmem, hlev⟩
        · obtain ⟨j, hj2, hjlen, hje⟩ := hpos1 l.1 (c3 l hl)
          exact ⟨j, hj2, hjlen, by rw [hje]; exact hlev⟩
        · obtain ⟨j, hj2, hjlen, hje⟩ := hpos1 _ (c2 _ hmem)
          exact ⟨j, hj2, hjlen, by rw [hje]; exact hlev⟩
      obtain ⟨j, hj2, hjlen, hjcl⟩ := hseedcl
      have h1 : s.level.getD (s.que.getD j 0) 0 ≤ s.level.getD (s.que.getD qt2 0) 0 :=
        sorted_getD_mono hInv.sorted hj2 hq2len
      have h2 : s.level.getD (s.que.getD qt2 0) 0 ≤ cl := by
        rw [hcl]
        exact level_le_lastLevel hInv hqne hq2len
      omega
    have hbt1lo : 1 ≤ st1.bt := Nat.le_trans pre.bt_lo c5
    have hbt1hi : st1.bt < cl := by
      rcases c6 with h | h
      · exact Nat.lt_of_le_of_lt h pre.bt_hi
      · exact h
    have hlearn1 : ∀ l ∈ st1.learnt,
        s.level.getD l.1 0 ≤ st1.bt ∧ s.level.getD l.1 0 ≠ 0 := by
      intro l hl
      rw [c7] at hl
      rcases List.mem_append.1 hl with hold | htl
      · obtain ⟨h1, h2⟩ := pre.learnt_lev l hold
        exact ⟨Nat.le_trans h1 c5, h2⟩
      · obtain ⟨m1, _, m3⟩ := c7f l htl
        exact ⟨m3, (hlevc l m1).1⟩
    have hlchk1 : ∀ l ∈ st1.learnt, l.1 ∈ st1.checked := by
      intro l hl
      rw [c7] at hl
      rcases List.mem_append.1 hl with hold | htl
      · exact c2 _ (pre.learnt_chk l hold)
      · exact c3 l (c7f l htl).1
    have hsubq : ∀ v ∈ st1.checked, v ∈ s.que := by
      intro v hv
      obtain ⟨j, _, hjlen, hje⟩ := hpos1 v hv
      rw [← hje]
      exact getD_mem_que hjlen
    have hslc1 : st1.slc ≤ (st1.checked.countP (fun v => s.level.getD v 0 == cl) : Int) := by
      have h1 := pre.slc_le
      omega
    have hred1 : analyzeGo s cl (fuel + 1) confl st qt =
        (match findTail st1.checked s.que qt with
         | none => Except.error AnalyzeErr.tailMiss
         | some j =>
           if st1.slc - 1 ≤ 1 then Except.ok (j, { st1 with slc := st1.slc - 1 })
           else
             match s.reason.getD (s.que.getD j 0) none with
             | none => Except.error AnalyzeErr.noReason
             | some confl2 =>
               analyzeGo s cl fuel confl2 { st1 with slc := st1.slc - 1 } j) := by
      rw [hst1]
      rfl
    have hval2 : analyzeGo s cl (fuel + 1) confl st qt =
        (if st1.slc - 1 ≤ 1 then Except.ok (qt2, { st1 with slc := st1.slc - 1 })
         else
           match s.reason.getD (s.que.getD qt2 0) none with
           | none => Except.error AnalyzeErr.noReason
           | some confl2 =>
             analyzeGo s cl fuel confl2 { st1 with slc := st1.slc - 1 } qt2) := by
      rw [hred1, hft]
    by_cases hstop : st1.slc - 1 ≤ (1 : Int)
    · rw [if_pos hstop] at hval2
      exact Or.inr ⟨qt2, { st1 with slc := st1.slc - 1 }, hval2, hq2len, hlq2,
        hbt1lo, hbt1hi, hlearn1, hlchk1, hsubq⟩
    · rw [if_neg hstop] at hval2
      have hcnt2 : 2 ≤ st1.checked.countP (fun v => s.level.getD v 0 == cl) := by
        omega
      obtain ⟨a, b, hain, hbin, hab, hpa, hpb⟩ := countP_ge_two_distinct c1 hcnt2
      obtain ⟨ja, hja2, hjalen, hjae⟩ := hpos1 a hain
      obtain ⟨jb, hjb2, hjblen, hjbe⟩ := hpos1 b hbin
      have hladiff : ja ≠ jb := by
        intro he
        rw [he] at hjae
        exact hab (hjae.symm.trans hjbe)
      have hLa : s.level.getD a 0 = cl := beq_iff_eq.1 hpa
      have hLb : s.level.getD b 0 = cl := beq_iff_eq.1 hpb
      have hrne : s.reason.getD (s.que.getD qt2 0) none ≠ none := by
        rcases Nat.lt_trichotomy ja jb with hlt | heqj | hgt
        · exact hInv.block_reason ja qt2 (by omega) hq2len (by rw [hjae, hLa, hlq2])
        · exact absurd heqj hladiff
        · exact hInv.block_reason jb qt2 (by omega) hq2len (by rw [hjbe, hLb, hlq2])
      obtain ⟨cr, hr⟩ : ∃ cr, s.reason.getD (s.que.getD qt2 0) none = some cr := by
        cases hrr : s.reason.getD (s.que.getD qt2 0) none with
        | none => exact absurd hrr hrne
        | some cr => exact ⟨cr, rfl⟩
      rw [hr] at hval2
      obtain ⟨hcrlen, hcrpos⟩ := hInv.reason_sound qt2 hq2len cr hr
      have pre2 : APre s cl cr { st1 with slc := st1.slc - 1 } qt2 :=
        { nd := c1, chk_pos := hpos1, qt_lt := hq2len,
          slc_le := by
            show st1.slc - 1 ≤ (st1.checked.countP (fun v => s.level.getD v 0 == cl) : Int)
            omega,
          slc_nonneg := by
            show (0 : Int) ≤ st1.slc - 1
            omega,
          confl_lt := hcrlen, confl_pos := hcrpos,
          seed := Or.inr ⟨hmem2, hlq2⟩,
          bt_lo := hbt1lo, bt_hi := hbt1hi,
          learnt_chk := hlchk1, learnt_lev := hlearn1 }
      rcases ih cr { st1 with slc := st1.slc - 1 } qt2 pre2 with ⟨herr, hbud⟩ |
        ⟨qt3, st3, heq3, hpost⟩
      · refine Or.inl ⟨hval2.trans herr, ?_⟩
        replace hbud : (fuel : Int)
            + (st1.checked.countP (fun v => s.level.getD v 0 == cl) : Int)
            - (st1.slc - 1) ≤ s.n := hbud
        omega
      · exact Or.inr ⟨qt3, st3, hval2.trans heq3, hpost⟩

theorem cancelGo_level_length (bt : Nat) : ∀ (rq : List Var) (level : List Nat),
    ((cancelGo bt rq level).2).length = level.length := by
  intro rq
  induction rq with
  | nil =>
    intro level
    rfl
  | cons v rest ih =>
    intro level
    show ((if bt < level.getD v 0 then cancelGo bt rest (level.set v 0)
           else (v :: rest, level)).2).length = level.length
    by_cases h : bt < level.getD v 0
    · rw [if_pos h, ih (level.set v 0), List.length_set]
    · rw [if_neg h]

theorem tailLevel_eq_getD {s : Solver} (h : s.que ≠ []) :
    tailLevel s = s.level.getD (s.que.getD (s.que.length - 1) 0) 0 := by
  rw [tailLevel_of_ne_nil h, lastLevel_eq_getD h]

theorem lastLevel_concat {s : Solver} {kq : List Var} {p : Var}
    (h : s.que = kq ++ [p]) : lastLevel s = s.level.getD p 0 := by
  unfold lastLevel
  rw [h, List.getLast?_concat]


/-! ### Termination: fuel bounds and the trail measure -/

theorem que_len_le {s : Solver} (hInv : Inv s) : s.que.length ≤ s.n :=
  nodup_length_le hInv.que_nd hInv.que_lt

theorem level_le_idx {s : Solver} (hInv : Inv s) :
    ∀ j, j < s.que.length → s.level.getD (s.que.getD j 0) 0 ≤ j + 2 := by
  intro j
  induction j with
  | zero =>
    intro h
    exact hInv.cap0 (fun hc => by rw [hc] at h; cases h)
  | succ j ih =>
    intro h
    have h1 := hInv.capsucc j h
    have h2 := ih (by omega)
    omega

theorem lastLevel_le {s : Solver} (hInv : Inv s) : lastLevel s ≤ s.n + 1 := by
  by_cases hq : s.que = []
  · unfold lastLevel
    rw [List.getLast?_eq_none_iff.2 hq]
    show 0 ≤ s.n + 1
    omega
  · have hlen : 0 < s.que.length := List.length_pos.2 hq
    rw [lastLevel_eq_getD hq]
    have h1 := level_le_idx hInv (s.que.length - 1) (by omega)
    have h2 := que_len_le hInv
    omega

theorem mem_level_le {s : Solver} (hInv : Inv s) {v : Var} (hv : v ∈ s.que) :
    s.level.getD v 0 ≤ s.n + 1 :=
  le_trans (mem_level_le_lastLevel hInv (List.ne_nil_of_mem hv) hv) (lastLevel_le hInv)

theorem sum_map_le {α : Type _} (f : α → Nat) (m : Nat) :
    ∀ (l : List α), (∀ x ∈ l, f x ≤ m) → (l.map f).sum ≤ l.length * m := by
  intro l
  induction l with
  | nil =>
    intro _
    exact Nat.zero_le _
  | cons x t ih =>
    intro h
    rw [List.map_cons, List.sum_cons, List.length_cons]
    have h1 := h x (List.mem_cons_self _ _)
    have h2 := ih (fun y hy => h y (List.mem_cons.2 (Or.inr hy)))
    have h3 : (t.length + 1) * m = t.length * m + m := by ring
    omega

/-- The termination measure: older and lower-level trail entries weigh
exponentially more, so backjumping to a lower level and asserting there is a
strict gain. -/
def mes (s : Solver) : Nat :=
  (s.que.map (fun v => (s.n + 1) ^ (s.n + 2 - s.level.getD v 0))).sum

theorem mes_bound {s : Solver} (hInv : Inv s) :
    mes s ≤ s.n * (s.n + 1) ^ (s.n + 1) := by
  unfold mes
  have h1 : ∀ v ∈ s.que, (s.n + 1) ^ (s.n + 2 - s.level.getD v 0) ≤
      (s.n + 1) ^ (s.n + 1) := by
    intro v hv
    apply Nat.pow_le_pow_right (by omega)
    have := hInv.que_pos v hv
    omega
  have h2 := sum_map_le _ _ s.que h1
  have h3 := que_len_le hInv
  have h4 : s.que.length * (s.n + 1) ^ (s.n + 1) ≤ s.n * (s.n + 1) ^ (s.n + 1) :=
    Nat.mul_le_mul_right _ h3
  exact le_trans h2 h4

theorem stepFrame_mes {s s2 : Solver} (h : StepFrame s s2) : mes s ≤ mes s2 := by
  obtain ⟨_, hn, ⟨ext, hq⟩, hlev, _, _, _, _⟩ := h
  unfold mes
  rw [hq, hn, List.map_append, List.sum_append]
  have hcong : s.que.map (fun v => (s.n + 1) ^ (s.n + 2 - s2.level.getD v 0)) =
      s.que.map (fun v => (s.n + 1) ^ (s.n + 2 - s.level.getD v 0)) :=
    List.map_congr_left (fun v hv => by rw [hlev v hv])
  rw [hcong]
  omega


/-- Conflict analysis preserves the search state: from a reachable conflict
above level 1, a successful `analyze` returns an invariant state whose clause
store is the old one plus one learnt clause, every clause is good again, and
the current decision level strictly drops. -/
theorem analyze_inv {s : Solver} {confl : Nat} (hInv : Inv s) (hqne : s.que ≠ [])
    (hcl2 : 2 ≤ lastLevel s) (hconfl : confl < s.clauses.length)
    (hfalse : ∀ l ∈ s.clauses.getD confl [], s.level.getD l.1 0 ≠ 0 ∧
      s.assigns.getD l.1 false ≠ l.2)
    (hclev : ∃ l ∈ s.clauses.getD confl [], s.level.getD l.1 0 = lastLevel s)
    (hexc : ∀ cr2, cr2 < s.clauses.length → ClauseOk s cr2 ∨
      ∃ l ∈ s.clauses.getD cr2 [], s.level.getD l.1 0 = lastLevel s) :
    ∀ af s4, s.analyze af confl = .ok s4 →
      Inv s4 ∧ AllOk s4 ∧ s4.que ≠ [] ∧ s4.n = s.n ∧
      (∃ lc, s4.clauses = s.clauses ++ [lc]) ∧ lastLevel s4 < lastLevel s ∧
      mes s < mes s4 := by
  intro af s4 h
  have hlen0 : 0 < s.que.length := List.length_pos.2 hqne
  set cl := s.level.getD (s.que.getD (s.que.length - 1) 0) 0 with hclset
  have hcl : cl = lastLevel s := (lastLevel_eq_getD hqne).symm
  have hclge : 2 ≤ cl := by rw [hcl]; exact hcl2
  have pre0 : APre s cl confl ⟨[], [], 1, 0⟩ (s.que.length - 1) :=
    { nd := List.nodup_nil,
      chk_pos := fun v hv => absurd hv (List.not_mem_nil v),
      qt_lt := by omega,
      slc_le := by simp,
      slc_nonneg := le_refl 0,
      confl_lt := hconfl,
      confl_pos := by
        intro l hl
        have h0 := (hfalse l hl).1
        obtain ⟨j, hj, he⟩ := mem_que_getD (hInv.mem_que _ h0)
        exact ⟨j, by omega, hj, he⟩,
      seed := by
        obtain ⟨l, hl, hlev⟩ := hclev
        exact Or.inl ⟨l, hl, by rw [hcl]; exact hlev⟩,
      bt_lo := Nat.le_refl 1,
      bt_hi := by show 1 < cl; omega,
      learnt_chk := fun l hl => absurd hl (List.not_mem_nil l),
      learnt_lev := fun l hl => absurd hl (List.not_mem_nil l) }
  have hredA : s.analyze af confl =
      (match analyzeGo s cl af confl ⟨[], [], 1, 0⟩ (s.que.length - 1) with
       | .error e => .error e
       | .ok (qt, st) =>
         .ok (({ (s.cancelUntil st.bt).enqueue (s.que.getD qt 0)
               (!(s.cancelUntil st.bt).assigns.getD (s.que.getD qt 0) false)
               (some (s.cancelUntil st.bt).clauses.length) with
             head := ((s.cancelUntil st.bt).enqueue (s.que.getD qt 0)
               (!(s.cancelUntil st.bt).assigns.getD (s.que.getD qt 0) false)
               (some (s.cancelUntil st.bt).clauses.length)).que.length - 1 }).add_clause
           (st.learnt ++ [(s.que.getD qt 0, !s.assigns.getD (s.que.getD qt 0) false)]))) := by
    rw [hclset]
    rfl
  rcases analyzeGo_inv hInv hqne hcl hclge af confl ⟨[], [], 1, 0⟩ (s.que.length - 1) pre0 with
    ⟨herr, _⟩ | ⟨qt2, st2, hgo, hqt2, hpcl, hbtlo, hbthi, hll, hlck, hcq⟩
  · rw [herr] at hredA
    exact absurd (h.symm.trans hredA) (fun hc => Except.noConfusion hc)
  rw [hgo] at hredA
  have hs4 : s4 = _ := Except.ok.inj (h.symm.trans hredA)
  subst hs4
  set p := s.que.getD qt2 0 with hpdef
  set bt := st2.bt with hbtdef
  set learnt := st2.learnt ++ [(p, !s.assigns.getD p false)] with hlearntdef
  obtain ⟨ca, crn, ccl, cw, ch, cn, cdec, ckept, cpop, cfr⟩ :=
    cancelUntil_spec s bt hInv.sorted hInv.que_nd
  set s1 := s.cancelUntil bt with hs1def
  set K := s1.que.length with hK
  have hpq : p ∈ s.que := getD_mem_que hqt2
  have hpn : p < s.n := hInv.que_lt p hpq
  have hLp : s.level.getD p 0 = cl := hpcl
  have hbt1 : 1 ≤ bt := hbtlo
  have hbtcl : bt < cl := hbthi
  have hKle : K ≤ s.que.length := by
    conv_rhs => rw [cdec]
    rw [List.length_append]
    omega
  have hkq_getD : ∀ i, i < K → s.que.getD i 0 = s1.que.getD i 0 := by
    intro i hi
    conv_lhs => rw [cdec]
    exact getD_append_left (by omega)
  have hkmem : ∀ v ∈ s1.que, v ∈ s.que := by
    intro v hv
    rw [cdec]
    exact List.mem_append.2 (Or.inl hv)
  have hknodup : s1.que.Nodup ∧ s1.que.Disjoint (s.que.drop K) := by
    have hnd := hInv.que_nd
    rw [cdec] at hnd
    obtain ⟨h1, h2, h3⟩ := List.nodup_append.1 hnd
    exact ⟨h1, h3⟩
  have hnotk : p ∉ s1.que := by
    intro hk
    have h1 := ckept p hk
    rw [hLp] at h1
    omega
  have hpdrop : p ∈ s.que.drop K := by
    have h1 : p ∈ s1.que ++ s.que.drop K := by
      rw [← cdec]
      exact hpq
    rcases List.mem_append.1 h1 with h2 | h2
    · exact absurd h2 hnotk
    · exact h2
  have hkl : ∀ v ∈ s1.que, s1.level.getD v 0 = s.level.getD v 0 := by
    intro v hv
    apply cfr
    rintro ⟨hmem, hgt⟩
    have := ckept v hv
    omega
  have hlev1len : s1.level.length = s.level.length := by
    show ((cancelGo bt s.que.reverse s.level).2).length = s.level.length
    exact cancelGo_level_length bt s.que.reverse s.level
  have hplev1 : p < s1.level.length := by
    rw [hlev1len, hInv.len_l]
    exact hpn
  have hpassigns : p < s.assigns.length := by
    rw [hInv.len_a]
    exact hpn
  have hpreason : p < s.reason.length := by
    rw [hInv.len_r]
    exact hpn
  have htlfacts : 1 ≤ tailLevel s1 ∧ tailLevel s1 ≤ bt := by
    cases hq1 : s1.que.getLast? with
    | none =>
      have he : tailLevel s1 = 1 := by
        unfold tailLevel
        rw [hq1]
      rw [he]
      exact ⟨Nat.le_refl 1, hbt1⟩
    | some v =>
      have hv : v ∈ s1.que := getLast?_mem hq1
      have he : tailLevel s1 = s1.level.getD v 0 := by
        unfold tailLevel
        rw [hq1]
      rw [he, hkl v hv]
      refine ⟨?_, ckept v hv⟩
      have := hInv.que_pos v (hkmem v hv)
      omega
  obtain ⟨htl1, htl2⟩ := htlfacts
  have hdropLev : ∀ i, K ≤ i → i < s.que.length → bt < s.level.getD (s.que.getD i 0) 0 := by
    intro i h1 h2
    have hlen2 : i - K < (s.que.drop K).length := by
      rw [List.length_drop]
      omega
    have heq : (s.que.drop K).getD (i - K) 0 = s.que.getD i 0 := by
      rw [List.getD_eq_getElem?_getD, List.getElem?_drop, List.getD_eq_getElem?_getD]
      have hik : K + (i - K) = i := by omega
      rw [hik]
    have hmem : s.que.getD i 0 ∈ s.que.drop K := by
      rw [← heq]
      exact getD_mem_que hlen2
    exact (cpop _ hmem).1
  have hheadeq : (s1.que ++ [p]).length - 1 = K := by
    rw [List.length_append, List.length_singleton]
    omega
  have hs4eq : ({ s1.enqueue p (!s1.assigns.getD p false) (some s1.clauses.length) with
        head := (s1.enqueue p (!s1.assigns.getD p false)
          (some s1.clauses.length)).que.length - 1 }).add_clause learnt =
      { n := s.n, assigns := s.assigns.set p (!s.assigns.getD p false),
        clauses := s.clauses ++ [learnt],
        watchers := learnt.foldl (fun w c => watchAdd w c s.clauses.length) s.watchers,
        reason := s.reason.set p (some s.clauses.length),
        level := s1.level.set p (tailLevel s1),
        que := s1.que ++ [p], head := K } := by
    show ({ n := s.n, assigns := s.assigns.set p (!s.assigns.getD p false),
            clauses := s.clauses ++ [learnt],
            watchers := learnt.foldl (fun w c => watchAdd w c s.clauses.length) s.watchers,
            reason := s.reason.set p (some s.clauses.length),
            level := s1.level.set p (tailLevel s1),
            que := s1.que ++ [p], head := (s1.que ++ [p]).length - 1 } : Solver) =
      { n := s.n, assigns := s.assigns.set p (!s.assigns.getD p false),
        clauses := s.clauses ++ [learnt],
        watchers := learnt.foldl (fun w c => watchAdd w c s.clauses.length) s.watchers,
        reason := s.reason.set p (some s.clauses.length),
        level := s1.level.set p (tailLevel s1),
        que := s1.que ++ [p], head := K }
    rw [hheadeq]
  rw [hs4eq]
  have hlev4p : (s1.level.set p (tailLevel s1)).getD p 0 = tailLevel s1 :=
    getD_set_self hplev1
  have hlev4ne : ∀ v, v ≠ p → (s1.level.set p (tailLevel s1)).getD v 0 =
      s1.level.getD v 0 := fun v hv => getD_set_ne (Ne.symm hv)
  have hlev4kept : ∀ v ∈ s1.que, (s1.level.set p (tailLevel s1)).getD v 0 =
      s.level.getD v 0 := by
    intro v hv
    rw [hlev4ne v (fun he => hnotk (he ▸ hv)), hkl v hv]
  have hlev4zero : ∀ v, s.level.getD v 0 = 0 →
      (s1.level.set p (tailLevel s1)).getD v 0 = 0 := by
    intro v hv0
    have hvp : v ≠ p := by
      intro he
      rw [he, hLp] at hv0
      omega
    rw [hlev4ne v hvp, cfr v]
    · exact hv0
    · rintro ⟨_, hgt⟩
      omega
  have hlev4drop : ∀ v ∈ s.que, v ≠ p → bt < s.level.getD v 0 →
      (s1.level.set p (tailLevel s1)).getD v 0 = 0 := by
    intro v hv hvp hgt
    have hvd : v ∈ s.que.drop K := by
      have h1 : v ∈ s1.que ++ s.que.drop K := by
        rw [← cdec]
        exact hv
      rcases List.mem_append.1 h1 with h2 | h2
      · have := ckept v h2
        omega
      · exact h2
    rw [hlev4ne v hvp]
    exact (cpop v hvd).2
  have hass4p : (s.assigns.set p (!s.assigns.getD p false)).getD p false =
      !s.assigns.getD p false := getD_set_self hpassigns
  have hass4ne : ∀ v, v ≠ p → (s.assigns.set p (!s.assigns.getD p false)).getD v false =
      s.assigns.getD v false := fun v hv => getD_set_ne (Ne.symm hv)
  have hrsn4p : (s.reason.set p (some s.clauses.length)).getD p none =
      some s.clauses.length := getD_set_self hpreason
  have hrsn4ne : ∀ v, v ≠ p → (s.reason.set p (some s.clauses.length)).getD v none =
      s.reason.getD v none := fun v hv => getD_set_ne (Ne.symm hv)
  have hcl4old : ∀ cr, cr < s.clauses.length →
      (s.clauses ++ [learnt]).getD cr [] = s.clauses.getD cr [] :=
    fun cr hcr => getD_append_left hcr
  have hcl4new : (s.clauses ++ [learnt]).getD s.clauses.length [] = learnt :=
    getD_concat_length _ _ _
  have hcl4len : (s.clauses ++ [learnt]).length = s.clauses.length + 1 := by
    rw [List.length_append, List.length_singleton]
  have hq4K : (s1.que ++ [p]).getD K 0 = p := by
    rw [hK]
    exact getD_concat_length _ _ _
  have hq4lt : ∀ i, i < K → (s1.que ++ [p]).getD i 0 = s.que.getD i 0 := by
    intro i hi
    rw [getD_append_left (by omega)]
    exact (hkq_getD i hi).symm
  have hq4mem : ∀ v ∈ s1.que ++ [p], v = p ∨ v ∈ s1.que := by
    intro v hv
    rcases List.mem_append.1 hv with h1 | h1
    · exact Or.inr h1
    · exact Or.inl (List.mem_singleton.1 h1)
  have hkeptAt : ∀ i, i < K → s.que.getD i 0 ∈ s1.que ∧ s.que.getD i 0 ≠ p := by
    intro i hi
    have h1 : s.que.getD i 0 ∈ s1.que := by
      rw [hkq_getD i hi]
      exact getD_mem_que (by omega)
    exact ⟨h1, fun he => hnotk (he ▸ h1)⟩
  have hlearnpos : ∀ l ∈ st2.learnt, ∃ i, i < K ∧ s.que.getD i 0 = l.1 := by
    intro l hl
    obtain ⟨hle, hne⟩ := hll l hl
    obtain ⟨i, hi, he⟩ := mem_que_getD (hInv.mem_que _ hne)
    refine ⟨i, ?_, he⟩
    by_contra hge
    have h1 := hdropLev i (by omega) hi
    rw [he] at h1
    omega
  refine ⟨⟨?_, ?_, ?_, ?_, ?_, ?_, ?_, ?_, ?_, ?_, ?_, ?_, ?_, ?_, ?_, ?_, ?_⟩,
    ?_, ?_, ?_, ?_, ?_, ?_⟩
  · show (s.assigns.set p (!s.assigns.getD p false)).length = s.n
    rw [List.length_set]
    exact hInv.len_a
  · show (s.reason.set p (some s.clauses.length)).length = s.n
    rw [List.length_set]
    exact hInv.len_r
  · show (s1.level.set p (tailLevel s1)).length = s.n
    rw [List.length_set, hlev1len]
    exact hInv.len_l
  · intro v hv
    rcases hq4mem v hv with he | h1
    · rw [he]
      exact hpn
    · exact hInv.que_lt v (hkmem v h1)
  · show (s1.que ++ [p]).Nodup
    rw [List.nodup_append]
    refine ⟨hknodup.1, List.nodup_singleton p, ?_⟩
    intro a ha hb
    rw [List.mem_singleton.1 hb] at ha
    exact hnotk ha
  · intro v hv
    rcases hq4mem v hv with he | h1
    · show (s1.level.set p (tailLevel s1)).getD v 0 ≠ 0
      rw [he, hlev4p]
      omega
    · show (s1.level.set p (tailLevel s1)).getD v 0 ≠ 0
      rw [hlev4kept v h1]
      exact hInv.que_pos v (hkmem v h1)
  · intro v hv
    by_cases hvp : v = p
    · rw [hvp]
      exact List.mem_append.2 (Or.inr (List.mem_singleton.2 rfl))
    · replace hv : (s1.level.set p (tailLevel s1)).getD v 0 ≠ 0 := hv
      rw [hlev4ne v hvp] at hv
      have hvq : v ∈ s.que := by
        by_contra hnq
        rw [cfr v (fun hc => hnq hc.1)] at hv
        exact hnq (hInv.mem_que v hv)
      have h1 : v ∈ s1.que ++ s.que.drop K := by
        rw [← cdec]
        exact hvq
      rcases List.mem_append.1 h1 with h2 | h2
      · exact List.mem_append.2 (Or.inl h2)
      · rw [(cpop v h2).2] at hv
        exact absurd rfl hv
  · show ((s1.que ++ [p]).map
        (fun v => (s1.level.set p (tailLevel s1)).getD v 0)).Chain' (· ≤ ·)
    rw [List.map_append]
    have hmapeq : s1.que.map (fun v => (s1.level.set p (tailLevel s1)).getD v 0) =
        s1.que.map (fun v => s.level.getD v 0) :=
      List.map_congr_left (fun v hv => hlev4kept v hv)
    rw [hmapeq, List.chain'_append]
    refine ⟨?_, List.chain'_singleton _, ?_⟩
    · have hs : (s.que.map (fun v => s.level.getD v 0)).Chain' (· ≤ ·) := hInv.sorted
      rw [cdec, List.map_append] at hs
      exact (List.chain'_append.1 hs).1
    · intro x hx y hy
      replace hy : some ((s1.level.set p (tailLevel s1)).getD p 0) = some y := hy
      have hy2 : y = tailLevel s1 := by
        rw [← Option.some.inj hy, hlev4p]
      cases hq1 : s1.que.getLast? with
      | none =>
        rw [Option.mem_def, List.getLast?_map, hq1] at hx
        exact absurd hx (by simp)
      | some v =>
        rw [Option.mem_def, List.getLast?_map, hq1] at hx
        have hxv : s.level.getD v 0 = x := Option.some.inj hx
        have hv : v ∈ s1.que := getLast?_mem hq1
        have htv : tailLevel s1 = s1.level.getD v 0 := by
          unfold tailLevel
          rw [hq1]
        rw [hy2, htv, hkl v hv, ← hxv]
  · show K ≤ (s1.que ++ [p]).length
    rw [List.length_append, List.length_singleton]
    omega
  · intro i h1 h2
    replace h2 : i < (s1.que ++ [p]).length := h2
    rw [List.length_append, List.length_singleton] at h2
    replace h1 : K ≤ i := h1
    have hieq : i = K := by omega
    rw [hieq]
    show (s1.level.set p (tailLevel s1)).getD ((s1.que ++ [p]).getD K 0) 0 = _
    have hxll : lastLevel
        { n := s.n,
          assigns := s.assigns.set p (!s.assigns.getD p false),
          clauses := s.clauses ++ [learnt],
          watchers := learnt.foldl (fun w c => watchAdd w c s.clauses.length) s.watchers,
          reason := s.reason.set p (some s.clauses.length),
          level := s1.level.set p (tailLevel s1),
          que := s1.que ++ [p], head := K } =
        (s1.level.set p (tailLevel s1)).getD p 0 := lastLevel_concat rfl
    rw [hq4K, hlev4p, hxll, hlev4p]
  · intro l cr hm
    have hwos : WatchOk s := fun l2 cr2 =>
      ⟨fun hm2 => hInv.watch_sound l2 cr2 hm2,
       fun hc => hInv.watch_complete cr2 hc.1 l2 hc.2⟩
    have hwo4 : WatchOk (s.add_clause learnt) := add_clause_WatchOk hwos learnt
    exact (hwo4 l cr).1 hm
  · intro cr h1 l h2
    have hwos : WatchOk s := fun l2 cr2 =>
      ⟨fun hm2 => hInv.watch_sound l2 cr2 hm2,
       fun hc => hInv.watch_complete cr2 hc.1 l2 hc.2⟩
    have hwo4 : WatchOk (s.add_clause learnt) := add_clause_WatchOk hwos learnt
    exact (hwo4 l cr).2 ⟨h1, h2⟩
  · intro c hc l hl
    show l.1 < s.n
    rcases List.mem_append.1 hc with h1 | h1
    · exact hInv.clause_vars c h1 l hl
    · rw [List.mem_singleton.1 h1] at hl
      rcases List.mem_append.1 hl with h2 | h2
      · exact hInv.que_lt l.1 (hcq l.1 (hlck l h2))
      · rw [List.mem_singleton.1 h2]
        exact hpn
  · intro j hj cr hcr
    replace hj : j < (s1.que ++ [p]).length := hj
    rw [List.length_append, List.length_singleton] at hj
    by_cases hjK : j = K
    · replace hcr : (s.reason.set p (some s.clauses.length)).getD
          ((s1.que ++ [p]).getD j 0) none = some cr := hcr
      rw [hjK, hq4K, hrsn4p] at hcr
      have hcreq : s.clauses.length = cr := Option.some.inj hcr
      subst hcreq
      constructor
      · show s.clauses.length < (s.clauses ++ [learnt]).length
        rw [hcl4len]
        omega
      · intro l hl
        replace hl : l ∈ (s.clauses ++ [learnt]).getD s.clauses.length [] := hl
        rw [hcl4new] at hl
        rcases List.mem_append.1 hl with h2 | h2
        · obtain ⟨i, hiK, hie⟩ := hlearnpos l h2
          refine ⟨i, by omega, ?_, ?_⟩
          · show i < (s1.que ++ [p]).length
            rw [List.length_append, List.length_singleton]
            omega
          · show (s1.que ++ [p]).getD i 0 = l.1
            rw [hq4lt i hiK]
            exact hie
        · rw [List.mem_singleton.1 h2]
          refine ⟨K, by omega, ?_, ?_⟩
          · show K < (s1.que ++ [p]).length
            rw [List.length_append, List.length_singleton]
            omega
          · show (s1.que ++ [p]).getD K 0 = p
            exact hq4K
    · have hjlt : j < K := by omega
      obtain ⟨hvk, hvp⟩ := hkeptAt j hjlt
      replace hcr : (s.reason.set p (some s.clauses.length)).getD
          ((s1.que ++ [p]).getD j 0) none = some cr := hcr
      rw [hq4lt j hjlt, hrsn4ne _ hvp] at hcr
      obtain ⟨hcrl, hlits⟩ := hInv.reason_sound j (by omega) cr hcr
      constructor
      · show cr < (s.clauses ++ [learnt]).length
        rw [hcl4len]
        omega
      · intro l hl
        replace hl : l ∈ (s.clauses ++ [learnt]).getD cr [] := hl
        rw [hcl4old cr hcrl] at hl
        obtain ⟨i, hij, hilen, hie⟩ := hlits l hl
        refine ⟨i, hij, ?_, ?_⟩
        · show i < (s1.que ++ [p]).length
          rw [List.length_append, List.length_singleton]
          omega
        · show (s1.que ++ [p]).getD i 0 = l.1
          rw [hq4lt i (by omega)]
          exact hie
  · intro i j hij hj hlev
    replace hj : j < (s1.que ++ [p]).length := hj
    rw [List.length_append, List.length_singleton] at hj
    by_cases hjK : j = K
    · show (s.reason.set p (some s.clauses.length)).getD
          ((s1.que ++ [p]).getD j 0) none ≠ none
      rw [hjK, hq4K, hrsn4p]
      intro hc
      cases hc
    · have hjlt : j < K := by omega
      have hik : i < K := by omega
      obtain ⟨hvkj, hvpj⟩ := hkeptAt j hjlt
      obtain ⟨hvki, hvpi⟩ := hkeptAt i hik
      replace hlev : (s1.level.set p (tailLevel s1)).getD ((s1.que ++ [p]).getD i 0) 0 =
          (s1.level.set p (tailLevel s1)).getD ((s1.que ++ [p]).getD j 0) 0 := hlev
      rw [hq4lt i hik, hq4lt j hjlt, hlev4kept _ hvki, hlev4kept _ hvkj] at hlev
      have hold := hInv.block_reason i j hij (by omega) hlev
      show (s.reason.set p (some s.clauses.length)).getD
          ((s1.que ++ [p]).getD j 0) none ≠ none
      rw [hq4lt j hjlt, hrsn4ne _ hvpj]
      exact hold
  · intro hne
    show (s1.level.set p (tailLevel s1)).getD ((s1.que ++ [p]).getD 0 0) 0 ≤ 2
    by_cases hK0 : K = 0
    · have hq1nil : s1.que = [] := List.length_eq_zero.1 (by omega)
      have hTL : tailLevel s1 = 1 := by
        unfold tailLevel
        rw [hq1nil]
        rfl
      have hq40 : (s1.que ++ [p]).getD 0 0 = p := by
        rw [hq1nil]
        rfl
      rw [hq40, hlev4p, hTL]
      omega
    · have h0K : 0 < K := by omega
      rw [hq4lt 0 h0K, hlev4kept _ (hkeptAt 0 h0K).1]
      exact hInv.cap0 hqne
  · intro j hj
    replace hj : j + 1 < (s1.que ++ [p]).length := hj
    rw [List.length_append, List.length_singleton] at hj
    by_cases hjK : j + 1 = K
    · show (s1.level.set p (tailLevel s1)).getD ((s1.que ++ [p]).getD (j + 1) 0) 0 ≤
        (s1.level.set p (tailLevel s1)).getD ((s1.que ++ [p]).getD j 0) 0 + 1
      rw [hjK, hq4K, hlev4p]
      have hq1ne : s1.que ≠ [] := by
        intro hc
        have h0 : s1.que.length = 0 := by
          rw [hc]
          rfl
        omega
      have hTL : tailLevel s1 =
          s1.level.getD (s1.que.getD (s1.que.length - 1) 0) 0 := tailLevel_eq_getD hq1ne
      have hjlt : j < K := by omega
      rw [hq4lt j hjlt, hlev4kept _ (hkeptAt j hjlt).1, hTL]
      have hidx : s1.que.length - 1 = j := by omega
      rw [hidx, hkq_getD j hjlt, hkl _ (getD_mem_que (by omega))]
      omega
    · have hjlt : j + 1 < K := by omega
      show (s1.level.set p (tailLevel s1)).getD ((s1.que ++ [p]).getD (j + 1) 0) 0 ≤
        (s1.level.set p (tailLevel s1)).getD ((s1.que ++ [p]).getD j 0) 0 + 1
      rw [hq4lt (j + 1) hjlt, hq4lt j (by omega),
        hlev4kept _ (hkeptAt (j + 1) hjlt).1, hlev4kept _ (hkeptAt j (by omega)).1]
      exact hInv.capsucc j (by omega)
  · intro cr hcr
    replace hcr : cr < (s.clauses ++ [learnt]).length := hcr
    rw [hcl4len] at hcr
    by_cases hcrL : cr = s.clauses.length
    · subst hcrL
      refine Or.inl ⟨(p, !s.assigns.getD p false), ?_, ?_, ?_⟩
      · show (p, !s.assigns.getD p false) ∈ (s.clauses ++ [learnt]).getD s.clauses.length []
        rw [hcl4new]
        exact List.mem_append.2 (Or.inr (List.mem_singleton.2 rfl))
      · show (s1.level.set p (tailLevel s1)).getD p 0 ≠ 0
        rw [hlev4p]
        omega
      · show (s.assigns.set p (!s.assigns.getD p false)).getD p false =
          !s.assigns.getD p false
        exact hass4p
    · have hcrlt : cr < s.clauses.length := by omega
      rcases hexc cr hcrlt with hok | ⟨l, hl, hlev⟩
      · rcases hok with ⟨l, hl, hlne, hlsat⟩ | ⟨l, hl, hl0⟩ | ⟨i, h1, h2, h3⟩ | hemp
        · by_cases hlp : l.1 = p
          · have hl2 : l.2 = s.assigns.getD p false := by
              rw [← hlp]
              exact hlsat.symm
            refine Or.inr (Or.inr (Or.inl ⟨K, ?_, ?_, ?_⟩))
            · exact Nat.le_refl K
            · show K < (s1.que ++ [p]).length
              rw [List.length_append, List.length_singleton]
              omega
            · show ((s1.que ++ [p]).getD K 0,
                !(s.assigns.set p (!s.assigns.getD p false)).getD
                  ((s1.que ++ [p]).getD K 0) false) ∈ (s.clauses ++ [learnt]).getD cr []
              rw [hq4K, hass4p, Bool.not_not, hcl4old cr hcrlt, ← hl2, ← hlp]
              exact hl
          · by_cases hkept : l.1 ∈ s1.que
            · refine Or.inl ⟨l, ?_, ?_, ?_⟩
              · show l ∈ (s.clauses ++ [learnt]).getD cr []
                rw [hcl4old cr hcrlt]
                exact hl
              · show (s1.level.set p (tailLevel s1)).getD l.1 0 ≠ 0
                rw [hlev4kept _ hkept]
                exact hlne
              · show (s.assigns.set p (!s.assigns.getD p false)).getD l.1 false = l.2
                rw [hass4ne _ hlp]
                exact hlsat
            · have hlq : l.1 ∈ s.que := hInv.mem_que _ hlne
              have hld : l.1 ∈ s.que.drop K := by
                have h1 : l.1 ∈ s1.que ++ s.que.drop K := by
                  rw [← cdec]
                  exact hlq
                rcases List.mem_append.1 h1 with h2 | h2
                · exact absurd h2 hkept
                · exact h2
              refine Or.inr (Or.inl ⟨l, ?_, ?_⟩)
              · show l ∈ (s.clauses ++ [learnt]).getD cr []
                rw [hcl4old cr hcrlt]
                exact hl
              · show (s1.level.set p (tailLevel s1)).getD l.1 0 = 0
                rw [hlev4ne _ hlp]
                exact (cpop _ hld).2
        · refine Or.inr (Or.inl ⟨l, ?_, ?_⟩)
          · show l ∈ (s.clauses ++ [learnt]).getD cr []
            rw [hcl4old cr hcrlt]
            exact hl
          · show (s1.level.set p (tailLevel s1)).getD l.1 0 = 0
            exact hlev4zero _ hl0
        · have hvcl : s.level.getD (s.que.getD i 0) 0 = lastLevel s :=
            hInv.suffix_level i h1 h2
          by_cases hvp : s.que.getD i 0 = p
          · refine Or.inl ⟨(p, !s.assigns.getD p false), ?_, ?_, ?_⟩
            · show (p, !s.assigns.getD p false) ∈ (s.clauses ++ [learnt]).getD cr []
              rw [hcl4old cr hcrlt]
              rw [hvp] at h3
              exact h3
            · show (s1.level.set p (tailLevel s1)).getD p 0 ≠ 0
              rw [hlev4p]
              omega
            · show (s.assigns.set p (!s.assigns.getD p false)).getD p false =
                !s.assigns.getD p false
              exact hass4p
          · have hvq : s.que.getD i 0 ∈ s.que := getD_mem_que h2
            have hgt : bt < s.level.getD (s.que.getD i 0) 0 := by
              rw [hvcl, ← hcl]
              omega
            refine Or.inr (Or.inl ⟨(s.que.getD i 0,
              !s.assigns.getD (s.que.getD i 0) false), ?_, ?_⟩)
            · show (s.que.getD i 0, !s.assigns.getD (s.que.getD i 0) false) ∈
                (s.clauses ++ [learnt]).getD cr []
              rw [hcl4old cr hcrlt]
              exact h3
            · show (s1.level.set p (tailLevel s1)).getD (s.que.getD i 0) 0 = 0
              exact hlev4drop _ hvq hvp hgt
        · refine Or.inr (Or.inr (Or.inr ?_))
          show (s.clauses ++ [learnt]).getD cr [] = []
          rw [hcl4old cr hcrlt]
          exact hemp
      · by_cases hlp : l.1 = p
        · by_cases hsgn : l.2 = !s.assigns.getD p false
          · refine Or.inl ⟨l, ?_, ?_, ?_⟩
            · show l ∈ (s.clauses ++ [learnt]).getD cr []
              rw [hcl4old cr hcrlt]
              exact hl
            · show (s1.level.set p (tailLevel s1)).getD l.1 0 ≠ 0
              rw [hlp, hlev4p]
              omega
            · show (s.assigns.set p (!s.assigns.getD p false)).getD l.1 false = l.2
              rw [hlp, hass4p, hsgn]
          · have hsgn2 : l.2 = s.assigns.getD p false := by
              have hbool : ∀ (a b : Bool), a ≠ !b → a = b := by decide
              exact hbool l.2 _ hsgn
            refine Or.inr (Or.inr (Or.inl ⟨K, ?_, ?_, ?_⟩))
            · exact Nat.le_refl K
            · show K < (s1.que ++ [p]).length
              rw [List.length_append, List.length_singleton]
              omega
            · show ((s1.que ++ [p]).getD K 0,
                !(s.assigns.set p (!s.assigns.getD p false)).getD
                  ((s1.que ++ [p]).getD K 0) false) ∈ (s.clauses ++ [learnt]).getD cr []
              rw [hq4K, hass4p, Bool.not_not, hcl4old cr hcrlt, ← hsgn2, ← hlp]
              exact hl
        · have hlq : l.1 ∈ s.que := hInv.mem_que _ (by rw [hlev]; omega)
          have hgt : bt < s.level.getD l.1 0 := by
            rw [hlev, ← hcl]
            omega
          refine Or.inr (Or.inl ⟨l, ?_, ?_⟩)
          · show l ∈ (s.clauses ++ [learnt]).getD cr []
            rw [hcl4old cr hcrlt]
            exact hl
          · show (s1.level.set p (tailLevel s1)).getD l.1 0 = 0
            exact hlev4drop _ hlq hlp hgt
  · show s1.que ++ [p] ≠ []
    intro hc
    exact List.cons_ne_nil p [] (List.append_eq_nil.1 hc).2
  · show s.n = s.n
    rfl
  · exact ⟨learnt, rfl⟩
  · have hxll : lastLevel
        { n := s.n,
          assigns := s.assigns.set p (!s.assigns.getD p false),
          clauses := s.clauses ++ [learnt],
          watchers := learnt.foldl (fun w c => watchAdd w c s.clauses.length) s.watchers,
          reason := s.reason.set p (some s.clauses.length),
          level := s1.level.set p (tailLevel s1),
          que := s1.que ++ [p], head := K } =
        (s1.level.set p (tailLevel s1)).getD p 0 := lastLevel_concat rfl
    rw [hxll, hlev4p, ← hcl]
    omega
  · show mes s < mes
      { n := s.n, assigns := s.assigns.set p (!s.assigns.getD p false),
        clauses := s.clauses ++ [learnt],
        watchers := learnt.foldl (fun w c => watchAdd w c s.clauses.length) s.watchers,
        reason := s.reason.set p (some s.clauses.length),
        level := s1.level.set p (tailLevel s1),
        que := s1.que ++ [p], head := K }
    have hbtn : bt ≤ s.n := by
      have h1 := lastLevel_le hInv
      rw [← hcl] at h1
      omega
    have hmes4 : mes
        { n := s.n, assigns := s.assigns.set p (!s.assigns.getD p false),
          clauses := s.clauses ++ [learnt],
          watchers := learnt.foldl (fun w c => watchAdd w c s.clauses.length) s.watchers,
          reason := s.reason.set p (some s.clauses.length),
          level := s1.level.set p (tailLevel s1),
          que := s1.que ++ [p], head := K } =
        (s1.que.map (fun v => (s.n + 1) ^ (s.n + 2 - s.level.getD v 0))).sum
          + (s.n + 1) ^ (s.n + 2 - tailLevel s1) := by
      show ((s1.que ++ [p]).map (fun v =>
          (s.n + 1) ^ (s.n + 2 - (s1.level.set p (tailLevel s1)).getD v 0))).sum = _
      rw [List.map_append, List.sum_append]
      have hc1 : s1.que.map (fun v =>
            (s.n + 1) ^ (s.n + 2 - (s1.level.set p (tailLevel s1)).getD v 0)) =
          s1.que.map (fun v => (s.n + 1) ^ (s.n + 2 - s.level.getD v 0)) :=
        List.map_congr_left (fun v hv => by rw [hlev4kept v hv])
      rw [hc1]
      have hc2 : ([p].map (fun v =>
            (s.n + 1) ^ (s.n + 2 - (s1.level.set p (tailLevel s1)).getD v 0))).sum =
          (s.n + 1) ^ (s.n + 2 - tailLevel s1) := by
        rw [List.map_singleton, List.sum_singleton, hlev4p]
      rw [hc2]
    have hmes_s : mes s =
        (s1.que.map (fun v => (s.n + 1) ^ (s.n + 2 - s.level.getD v 0))).sum
          + ((s.que.drop K).map
              (fun v => (s.n + 1) ^ (s.n + 2 - s.level.getD v 0))).sum := by
      unfold mes
      conv_lhs => rw [cdec]
      rw [List.map_append, List.sum_append]
    have hdropbound : ∀ v ∈ s.que.drop K,
        (fun v => (s.n + 1) ^ (s.n + 2 - s.level.getD v 0)) v ≤
          (s.n + 1) ^ (s.n + 1 - bt) := by
      intro v hv
      have hgt : bt < s.level.getD v 0 := (cpop v hv).1
      exact Nat.pow_le_pow_right (by omega) (by omega)
    have hsum1 := sum_map_le _ _ (s.que.drop K) hdropbound
    have hdlen : (s.que.drop K).length ≤ s.n := by
      have h1 := que_len_le hInv
      rw [List.length_drop]
      omega
    have hsum2 : (s.que.drop K).length * (s.n + 1) ^ (s.n + 1 - bt) ≤
        s.n * (s.n + 1) ^ (s.n + 1 - bt) := Nat.mul_le_mul_right _ hdlen
    have hpos : 0 < (s.n + 1) ^ (s.n + 1 - bt) := Nat.pos_pow_of_pos _ (by omega)
    have hpow : (s.n + 1) ^ (s.n + 2 - bt) =
        (s.n + 1) * (s.n + 1) ^ (s.n + 1 - bt) := by
      have he : s.n + 2 - bt = (s.n + 1 - bt) + 1 := by omega
      rw [he, pow_succ']
    have hlt : s.n * (s.n + 1) ^ (s.n + 1 - bt) < (s.n + 1) ^ (s.n + 2 - bt) := by
      rw [hpow]
      have h1 : (s.n + 1) * (s.n + 1) ^ (s.n + 1 - bt) =
          s.n * (s.n + 1) ^ (s.n + 1 - bt) + (s.n + 1) ^ (s.n + 1 - bt) := by ring
      rw [h1]
      exact Nat.lt_add_of_pos_right hpos
    have hexp : (s.n + 1) ^ (s.n + 2 - bt) ≤ (s.n + 1) ^ (s.n + 2 - tailLevel s1) :=
      Nat.pow_le_pow_right (by omega) (by omega)
    have hfinal : ((s.que.drop K).map
        (fun v => (s.n + 1) ^ (s.n + 2 - s.level.getD v 0))).sum <
        (s.n + 1) ^ (s.n + 2 - tailLevel s1) :=
      lt_of_le_of_lt (le_trans hsum1 hsum2) (lt_of_lt_of_le hlt hexp)
    rw [hmes_s, hmes4]
    exact Nat.add_lt_add_left hfinal _


theorem getLast_getD_level {s : Solver} (h : s.que ≠ []) :
    s.level.getD (s.que.getLast?.getD 0) 0 = lastLevel s := by
  unfold lastLevel
  cases hq : s.que.getLast? with
  | none => exact absurd (List.getLast?_eq_none_iff.1 hq) h
  | some v => rfl

/-- The one-iteration unfolding of `Solver::solve`'s loop body. -/
theorem solveStep_red (s : Solver) (pf af : Nat) :
    s.solveStep pf af =
      (match propagateGo pf s with
       | none => .error .fuel
       | some (.conflict confl s1) =>
         if s1.level.getD (s1.que.getLast?.getD 0) 0 = 1 then .ok (.unsat s1)
         else
           match Solver.analyze af s1 confl with
           | .error e => .error (.analyzePanic e)
           | .ok s2 => .ok (.next s2)
       | some (.done s1) =>
         match s1.findUnassigned with
         | some p => .ok (.next { s1.enqueue p (s1.assigns.getD p false) none with
             level := (s1.enqueue p (s1.assigns.getD p false) none).level.set p
               ((s1.enqueue p (s1.assigns.getD p false) none).level.getD p 0 + 1) })
         | none => .ok (.sat s1)) := rfl

/-- The decision step written with its level update collapsed. -/
theorem decide_state_eq {s1 : Solver} {p : Var} (hplev : p < s1.level.length)
    (hpass : p < s1.assigns.length) :
    ({ s1.enqueue p (s1.assigns.getD p false) none with
        level := (s1.enqueue p (s1.assigns.getD p false) none).level.set p
          ((s1.enqueue p (s1.assigns.getD p false) none).level.getD p 0 + 1) } : Solver) =
      { n := s1.n, assigns := s1.assigns, clauses := s1.clauses,
        watchers := s1.watchers, reason := s1.reason.set p none,
        level := s1.level.set p (tailLevel s1 + 1), que := s1.que ++ [p],
        head := s1.head } := by
  show ({ n := s1.n,
          assigns := s1.assigns.set p (s1.assigns.getD p false),
          clauses := s1.clauses, watchers := s1.watchers,
          reason := s1.reason.set p none,
          level := (s1.level.set p (tailLevel s1)).set p
            ((s1.level.set p (tailLevel s1)).getD p 0 + 1),
          que := s1.que ++ [p], head := s1.head } : Solver) =
      { n := s1.n, assigns := s1.assigns, clauses := s1.clauses,
        watchers := s1.watchers, reason := s1.reason.set p none,
        level := s1.level.set p (tailLevel s1 + 1), que := s1.que ++ [p],
        head := s1.head }
  rw [set_getD_self hpass, getD_set_self hplev, List.set_set]

/-- The decision step preserves the structural invariant. -/
theorem decide_inv {s1 : Solver} (hInv : Inv s1)
    (hhead : s1.head = s1.que.length) {p : Var} (hfind : s1.findUnassigned = some p) :
    Inv
      { n := s1.n, assigns := s1.assigns, clauses := s1.clauses,
        watchers := s1.watchers, reason := s1.reason.set p none,
        level := s1.level.set p (tailLevel s1 + 1), que := s1.que ++ [p],
        head := s1.head } := by
  obtain ⟨hpn, hp0, hmin⟩ := findUnassigned_spec hfind
  have hplev : p < s1.level.length := by
    rw [hInv.len_l]
    exact hpn
  have hprsn : p < s1.reason.length := by
    rw [hInv.len_r]
    exact hpn
  have hpnotq : p ∉ s1.que := fun hm => hInv.que_pos p hm hp0
  have hLp : (s1.level.set p (tailLevel s1 + 1)).getD p 0 = tailLevel s1 + 1 :=
    getD_set_self hplev
  have hLne : ∀ v, v ≠ p → (s1.level.set p (tailLevel s1 + 1)).getD v 0 =
      s1.level.getD v 0 := fun v hv => getD_set_ne (Ne.symm hv)
  have hLq : ∀ v ∈ s1.que, (s1.level.set p (tailLevel s1 + 1)).getD v 0 =
      s1.level.getD v 0 := fun v hv => hLne v (fun he => hpnotq (he ▸ hv))
  have htlub : ∀ v ∈ s1.que, s1.level.getD v 0 ≤ tailLevel s1 := by
    intro v hv
    have hq : s1.que ≠ [] := fun hc => by rw [hc] at hv; cases hv
    rw [tailLevel_of_ne_nil hq]
    exact mem_level_le_lastLevel hInv hq hv
  have hqK : (s1.que ++ [p]).getD s1.que.length 0 = p := getD_concat_length _ _ _
  have hqlt : ∀ i, i < s1.que.length → (s1.que ++ [p]).getD i 0 = s1.que.getD i 0 :=
    fun i hi => getD_append_left hi
  have hqmem : ∀ v ∈ s1.que ++ [p], v = p ∨ v ∈ s1.que := by
    intro v hv
    rcases List.mem_append.1 hv with h1 | h1
    · exact Or.inr h1
    · exact Or.inl (List.mem_singleton.1 h1)
  refine ⟨hInv.len_a, ?_, ?_, ?_, ?_, ?_, ?_, ?_, ?_, ?_, ?_, ?_, ?_, ?_, ?_, ?_, ?_⟩
  · show (s1.reason.set p none).length = s1.n
    rw [List.length_set]
    exact hInv.len_r
  · show (s1.level.set p (tailLevel s1 + 1)).length = s1.n
    rw [List.length_set]
    exact hInv.len_l
  · intro v hv
    rcases hqmem v hv with he | h1
    · rw [he]
      exact hpn
    · exact hInv.que_lt v h1
  · show (s1.que ++ [p]).Nodup
    rw [List.nodup_append]
    refine ⟨hInv.que_nd, List.nodup_singleton p, ?_⟩
    intro a ha hb
    rw [List.mem_singleton.1 hb] at ha
    exact hpnotq ha
  · intro v hv
    rcases hqmem v hv with he | h1
    · show (s1.level.set p (tailLevel s1 + 1)).getD v 0 ≠ 0
      rw [he, hLp]
      omega
    · show (s1.level.set p (tailLevel s1 + 1)).getD v 0 ≠ 0
      rw [hLq v h1]
      exact hInv.que_pos v h1
  · intro v hv
    by_cases hvp : v = p
    · rw [hvp]
      exact List.mem_append.2 (Or.inr (List.mem_singleton.2 rfl))
    · replace hv : (s1.level.set p (tailLevel s1 + 1)).getD v 0 ≠ 0 := hv
      rw [hLne v hvp] at hv
      exact List.mem_append.2 (Or.inl (hInv.mem_que v hv))
  · show ((s1.que ++ [p]).map
        (fun v => (s1.level.set p (tailLevel s1 + 1)).getD v 0)).Chain' (· ≤ ·)
    rw [List.map_append]
    have hmap : s1.que.map (fun v => (s1.level.set p (tailLevel s1 + 1)).getD v 0) =
        s1.que.map (fun v => s1.level.getD v 0) := List.map_congr_left hLq
    rw [hmap, List.chain'_append]
    refine ⟨hInv.sorted, List.chain'_singleton _, ?_⟩
    intro x hx y hy
    replace hy : some ((s1.level.set p (tailLevel s1 + 1)).getD p 0) = some y := hy
    have hy2 : y = tailLevel s1 + 1 := by
      rw [← Option.some.inj hy, hLp]
    cases hq1 : s1.que.getLast? with
    | none =>
      rw [Option.mem_def, List.getLast?_map, hq1] at hx
      exact absurd hx (by simp)
    | some v =>
      rw [Option.mem_def, List.getLast?_map, hq1] at hx
      have hxv : s1.level.getD v 0 = x := Option.some.inj hx
      have hv : v ∈ s1.que := getLast?_mem hq1
      have hle := htlub v hv
      rw [hy2, ← hxv]
      omega
  · show s1.head ≤ (s1.que ++ [p]).length
    rw [List.length_append, List.length_singleton]
    omega
  · intro i h1 h2
    replace h1 : s1.head ≤ i := h1
    replace h2 : i < (s1.que ++ [p]).length := h2
    rw [List.length_append, List.length_singleton] at h2
    have hieq : i = s1.que.length := by omega
    rw [hieq]
    show (s1.level.set p (tailLevel s1 + 1)).getD ((s1.que ++ [p]).getD s1.que.length 0) 0 = _
    have hxll : lastLevel
        { n := s1.n, assigns := s1.assigns, clauses := s1.clauses,
          watchers := s1.watchers, reason := s1.reason.set p none,
          level := s1.level.set p (tailLevel s1 + 1), que := s1.que ++ [p],
          head := s1.head } =
        (s1.level.set p (tailLevel s1 + 1)).getD p 0 := lastLevel_concat rfl
    rw [hqK, hLp, hxll, hLp]
  · intro l cr hm
    exact hInv.watch_sound l cr hm
  · intro cr h1 l h2
    exact hInv.watch_complete cr h1 l h2
  · intro c hc l hl
    exact hInv.clause_vars c hc l hl
  · intro j hj cr hcr
    replace hj : j < (s1.que ++ [p]).length := hj
    rw [List.length_append, List.length_singleton] at hj
    by_cases hjK : j = s1.que.length
    · replace hcr : (s1.reason.set p none).getD ((s1.que ++ [p]).getD j 0) none =
        some cr := hcr
      rw [hjK, hqK, getD_set_self hprsn] at hcr
      cases hcr
    · have hjlt : j < s1.que.length := by omega
      have hvq : s1.que.getD j 0 ∈ s1.que := getD_mem_que hjlt
      have hvp : s1.que.getD j 0 ≠ p := fun he => hpnotq (he ▸ hvq)
      replace hcr : (s1.reason.set p none).getD ((s1.que ++ [p]).getD j 0) none =
        some cr := hcr
      rw [hqlt j hjlt, getD_set_ne (Ne.symm hvp)] at hcr
      obtain ⟨hcrl, hlits⟩ := hInv.reason_sound j hjlt cr hcr
      refine ⟨hcrl, ?_⟩
      intro l hl
      obtain ⟨i, hij, hilen, hie⟩ := hlits l hl
      refine ⟨i, hij, ?_, ?_⟩
      · show i < (s1.que ++ [p]).length
        rw [List.length_append, List.length_singleton]
        omega
      · show (s1.que ++ [p]).getD i 0 = l.1
        rw [hqlt i (by omega)]
        exact hie
  · intro i j hij hj hlev
    replace hj : j < (s1.que ++ [p]).length := hj
    rw [List.length_append, List.length_singleton] at hj
    by_cases hjK : j = s1.que.length
    · have hik : i < s1.que.length := by omega
      have hvq : s1.que.getD i 0 ∈ s1.que := getD_mem_que hik
      replace hlev : (s1.level.set p (tailLevel s1 + 1)).getD ((s1.que ++ [p]).getD i 0) 0 =
          (s1.level.set p (tailLevel s1 + 1)).getD ((s1.que ++ [p]).getD j 0) 0 := hlev
      rw [hjK, hqK, hLp, hqlt i hik, hLq _ hvq] at hlev
      have := htlub _ hvq
      omega
    · have hjlt : j < s1.que.length := by omega
      have hik : i < s1.que.length := by omega
      have hvqj : s1.que.getD j 0 ∈ s1.que := getD_mem_que hjlt
      have hvqi : s1.que.getD i 0 ∈ s1.que := getD_mem_que hik
      replace hlev : (s1.level.set p (tailLevel s1 + 1)).getD ((s1.que ++ [p]).getD i 0) 0 =
          (s1.level.set p (tailLevel s1 + 1)).getD ((s1.que ++ [p]).getD j 0) 0 := hlev
      rw [hqlt i hik, hqlt j hjlt, hLq _ hvqi, hLq _ hvqj] at hlev
      have hold := hInv.block_reason i j hij hjlt hlev
      show (s1.reason.set p none).getD ((s1.que ++ [p]).getD j 0) none ≠ none
      have hvpj : s1.que.getD j 0 ≠ p := by
        intro he
        apply hpnotq
        rw [← he]
        exact hvqj
      rw [hqlt j hjlt, getD_set_ne (Ne.symm hvpj)]
      exact hold
  · intro hne
    show (s1.level.set p (tailLevel s1 + 1)).getD ((s1.que ++ [p]).getD 0 0) 0 ≤ 2
    by_cases hq0 : s1.que = []
    · have hTL : tailLevel s1 = 1 := by
        unfold tailLevel
        rw [hq0]
        rfl
      have hq40 : (s1.que ++ [p]).getD 0 0 = p := by
        rw [hq0]
        rfl
      rw [hq40, hLp, hTL]
    · have h0K : 0 < s1.que.length := List.length_pos.2 hq0
      rw [hqlt 0 h0K, hLq _ (getD_mem_que h0K)]
      exact hInv.cap0 hq0
  · intro j hj
    replace hj : j + 1 < (s1.que ++ [p]).length := hj
    rw [List.length_append, List.length_singleton] at hj
    by_cases hjK : j + 1 = s1.que.length
    · show (s1.level.set p (tailLevel s1 + 1)).getD ((s1.que ++ [p]).getD (j + 1) 0) 0 ≤
        (s1.level.set p (tailLevel s1 + 1)).getD ((s1.que ++ [p]).getD j 0) 0 + 1
      rw [hjK, hqK, hLp]
      have hq1ne : s1.que ≠ [] := by
        intro hc
        have h0 : s1.que.length = 0 := by
          rw [hc]
          rfl
        omega
      have hTL : tailLevel s1 =
          s1.level.getD (s1.que.getD (s1.que.length - 1) 0) 0 := tailLevel_eq_getD hq1ne
      have hjlt : j < s1.que.length := by omega
      rw [hqlt j hjlt, hLq _ (getD_mem_que hjlt), hTL]
      have hidx : s1.que.length - 1 = j := by omega
      rw [hidx]
    · have hjlt : j + 1 < s1.que.length := by omega
      show (s1.level.set p (tailLevel s1 + 1)).getD ((s1.que ++ [p]).getD (j + 1) 0) 0 ≤
        (s1.level.set p (tailLevel s1 + 1)).getD ((s1.que ++ [p]).getD j 0) 0 + 1
      rw [hqlt (j + 1) hjlt, hqlt j (by omega),
        hLq _ (getD_mem_que hjlt), hLq _ (getD_mem_que (by omega))]
      exact hInv.capsucc j hjlt

/-- The decision step keeps every clause good: the branched variable turns its
unassigned occurrences into satisfied or pending ones. -/
theorem decide_allok {s1 : Solver} (hInv : Inv s1) (hAll : AllOk s1)
    (hhead : s1.head = s1.que.length) {p : Var} (hfind : s1.findUnassigned = some p) :
    AllOk
      { n := s1.n, assigns := s1.assigns, clauses := s1.clauses,
        watchers := s1.watchers, reason := s1.reason.set p none,
        level := s1.level.set p (tailLevel s1 + 1), que := s1.que ++ [p],
        head := s1.head } := by
  obtain ⟨hpn, hp0, hmin⟩ := findUnassigned_spec hfind
  have hplev : p < s1.level.length := by
    rw [hInv.len_l]
    exact hpn
  have hpnotq : p ∉ s1.que := fun hm => hInv.que_pos p hm hp0
  have hLp : (s1.level.set p (tailLevel s1 + 1)).getD p 0 = tailLevel s1 + 1 :=
    getD_set_self hplev
  have hLne : ∀ v, v ≠ p → (s1.level.set p (tailLevel s1 + 1)).getD v 0 =
      s1.level.getD v 0 := fun v hv => getD_set_ne (Ne.symm hv)
  have hqK : (s1.que ++ [p]).getD s1.que.length 0 = p := getD_concat_length _ _ _
  intro cr hcr
  replace hcr : cr < s1.clauses.length := hcr
  rcases hAll cr hcr with ⟨l, hl, hlne, hlsat⟩ | ⟨l, hl, hl0⟩ | ⟨i, h1, h2, h3⟩ | hemp
  · have hlp : l.1 ≠ p := by
      intro he
      rw [he, hp0] at hlne
      exact hlne rfl
    refine Or.inl ⟨l, hl, ?_, hlsat⟩
    show (s1.level.set p (tailLevel s1 + 1)).getD l.1 0 ≠ 0
    rw [hLne _ hlp]
    exact hlne
  · by_cases hlp : l.1 = p
    · by_cases hsgn : l.2 = s1.assigns.getD p false
      · refine Or.inl ⟨l, hl, ?_, ?_⟩
        · show (s1.level.set p (tailLevel s1 + 1)).getD l.1 0 ≠ 0
          rw [hlp, hLp]
          omega
        · show s1.assigns.getD l.1 false = l.2
          rw [hlp, hsgn]
      · refine Or.inr (Or.inr (Or.inl ⟨s1.que.length, ?_, ?_, ?_⟩))
        · show s1.head ≤ s1.que.length
          omega
        · show s1.que.length < (s1.que ++ [p]).length
          rw [List.length_append, List.length_singleton]
          omega
        · show ((s1.que ++ [p]).getD s1.que.length 0,
            !s1.assigns.getD ((s1.que ++ [p]).getD s1.que.length 0) false) ∈
              s1.clauses.getD cr []
          rw [hqK]
          have hbool : ∀ (a b : Bool), a ≠ b → (!b) = a := by decide
          rw [← hlp] at hsgn ⊢
          rw [hbool l.2 _ hsgn]
          exact hl
    · refine Or.inr (Or.inl ⟨l, hl, ?_⟩)
      show (s1.level.set p (tailLevel s1 + 1)).getD l.1 0 = 0
      rw [hLne _ hlp]
      exact hl0
  · rw [hhead] at h1
    omega
  · exact Or.inr (Or.inr (Or.inr hemp))


/-- From a reachable conflict above level 1, `analyze` can only fail for lack
of fuel: the `unwrap` panic (`noReason`) and the tail-pointer underflow
(`tailMiss`) are unreachable. -/
theorem analyze_err {s : Solver} {confl : Nat} (hInv : Inv s) (hqne : s.que ≠ [])
    (hcl2 : 2 ≤ lastLevel s) (hconfl : confl < s.clauses.length)
    (hfalse : ∀ l ∈ s.clauses.getD confl [], s.level.getD l.1 0 ≠ 0 ∧
      s.assigns.getD l.1 false ≠ l.2)
    (hclev : ∃ l ∈ s.clauses.getD confl [], s.level.getD l.1 0 = lastLevel s) :
    ∀ af e, s.analyze af confl = .error e → e = .fuel := by
  intro af e h
  have hlen0 : 0 < s.que.length := List.length_pos.2 hqne
  set cl := s.level.getD (s.que.getD (s.que.length - 1) 0) 0 with hclset
  have hcl : cl = lastLevel s := (lastLevel_eq_getD hqne).symm
  have hclge : 2 ≤ cl := by rw [hcl]; exact hcl2
  have pre0 : APre s cl confl ⟨[], [], 1, 0⟩ (s.que.length - 1) :=
    { nd := List.nodup_nil,
      chk_pos := fun v hv => absurd hv (List.not_mem_nil v),
      qt_lt := by omega,
      slc_le := by simp,
      slc_nonneg := le_refl 0,
      confl_lt := hconfl,
      confl_pos := by
        intro l hl
        have h0 := (hfalse l hl).1
        obtain ⟨j, hj, he⟩ := mem_que_getD (hInv.mem_que _ h0)
        exact ⟨j, by omega, hj, he⟩,
      seed := by
        obtain ⟨l, hl, hlev⟩ := hclev
        exact Or.inl ⟨l, hl, by rw [hcl]; exact hlev⟩,
      bt_lo := Nat.le_refl 1,
      bt_hi := by show 1 < cl; omega,
      learnt_chk := fun l hl => absurd hl (List.not_mem_nil l),
      learnt_lev := fun l hl => absurd hl (List.not_mem_nil l) }
  have hredA : s.analyze af confl =
      (match analyzeGo s cl af confl ⟨[], [], 1, 0⟩ (s.que.length - 1) with
       | .error e2 => .error e2
       | .ok (qt, st) =>
         .ok (({ (s.cancelUntil st.bt).enqueue (s.que.getD qt 0)
               (!(s.cancelUntil st.bt).assigns.getD (s.que.getD qt 0) false)
               (some (s.cancelUntil st.bt).clauses.length) with
             head := ((s.cancelUntil st.bt).enqueue (s.que.getD qt 0)
               (!(s.cancelUntil st.bt).assigns.getD (s.que.getD qt 0) false)
               (some (s.cancelUntil st.bt).clauses.length)).que.length - 1 }).add_clause
           (st.learnt ++ [(s.que.getD qt 0, !s.assigns.getD (s.que.getD qt 0) false)]))) := by
    rw [hclset]
    rfl
  rcases analyzeGo_inv hInv hqne hcl hclge af confl ⟨[], [], 1, 0⟩ (s.que.length - 1) pre0 with
    ⟨herr, _⟩ | ⟨qt2, st2, hgo, _⟩
  · rw [herr] at hredA
    have h2 : Except.error (ε := AnalyzeErr) (α := Solver) e = Except.error .fuel :=
      h.symm.trans hredA
    exact Except.error.inj h2
  · rw [hgo] at hredA
    exact absurd (h.symm.trans hredA) (fun hc => Except.noConfusion hc)

theorem analyze_total {s : Solver} {confl : Nat} (hInv : Inv s) (hqne : s.que ≠ [])
    (hcl2 : 2 ≤ lastLevel s) (hconfl : confl < s.clauses.length)
    (hfalse : ∀ l ∈ s.clauses.getD confl [], s.level.getD l.1 0 ≠ 0 ∧
      s.assigns.getD l.1 false ≠ l.2)
    (hclev : ∃ l ∈ s.clauses.getD confl [], s.level.getD l.1 0 = lastLevel s)
    {af : Nat} (haf : s.n + 1 ≤ af) :
    ∃ s4, s.analyze af confl = .ok s4 := by
  have hlen0 : 0 < s.que.length := List.length_pos.2 hqne
  set cl := s.level.getD (s.que.getD (s.que.length - 1) 0) 0 with hclset
  have hcl : cl = lastLevel s := (lastLevel_eq_getD hqne).symm
  have hclge : 2 ≤ cl := by rw [hcl]; exact hcl2
  have pre0 : APre s cl confl ⟨[], [], 1, 0⟩ (s.que.length - 1) :=
    { nd := List.nodup_nil,
      chk_pos := fun v hv => absurd hv (List.not_mem_nil v),
      qt_lt := by omega,
      slc_le := by simp,
      slc_nonneg := le_refl 0,
      confl_lt := hconfl,
      confl_pos := by
        intro l hl
        have h0 := (hfalse l hl).1
        obtain ⟨j, hj, he⟩ := mem_que_getD (hInv.mem_que _ h0)
        exact ⟨j, by omega, hj, he⟩,
      seed := by
        obtain ⟨l, hl, hlev⟩ := hclev
        exact Or.inl ⟨l, hl, by rw [hcl]; exact hlev⟩,
      bt_lo := Nat.le_refl 1,
      bt_hi := by show 1 < cl; omega,
      learnt_chk := fun l hl => absurd hl (List.not_mem_nil l),
      learnt_lev := fun l hl => absurd hl (List.not_mem_nil l) }
  have hredA : s.analyze af confl =
      (match analyzeGo s cl af confl ⟨[], [], 1, 0⟩ (s.que.length - 1) with
       | .error e2 => .error e2
       | .ok (qt, st) =>
         .ok (({ (s.cancelUntil st.bt).enqueue (s.que.getD qt 0)
               (!(s.cancelUntil st.bt).assigns.getD (s.que.getD qt 0) false)
               (some (s.cancelUntil st.bt).clauses.length) with
             head := ((s.cancelUntil st.bt).enqueue (s.que.getD qt 0)
               (!(s.cancelUntil st.bt).assigns.getD (s.que.getD qt 0) false)
               (some (s.cancelUntil st.bt).clauses.length)).que.length - 1 }).add_clause
           (st.learnt ++ [(s.que.getD qt 0, !s.assigns.getD (s.que.getD qt 0) false)]))) := by
    rw [hclset]
    rfl
  rcases analyzeGo_inv hInv hqne hcl hclge af confl ⟨[], [], 1, 0⟩ (s.que.length - 1) pre0 with
    ⟨herr, hbud⟩ | ⟨qt2, st2, hgo, _⟩
  · exfalso
    replace hbud : (af : Int)
        + ((List.countP (fun v => s.level.getD v 0 == cl) []) : Int) - 0 ≤ s.n := hbud
    rw [List.countP_nil] at hbud
    omega
  · rw [hgo] at hredA
    exact ⟨_, hredA⟩

/-- One iteration of the solve loop from an invariant state: panics other than
fuel exhaustion are impossible, a `next` outcome preserves the invariant and
the clause store contents, and a `sat` outcome satisfies every stored clause. -/
theorem solveStep_inv {s : Solver} (hInv : Inv s) (hAll : AllOk s)
    (pf af : Nat) :
    (∀ e, s.solveStep pf af = .error e → e = .fuel ∨ e = .analyzePanic .fuel) ∧
    (∀ s2, s.solveStep pf af = .ok (.next s2) → Inv s2 ∧ AllOk s2 ∧ s2.que ≠ [] ∧
        s2.n = s.n ∧ s.clauses.length ≤ s2.clauses.length ∧
        (∀ i, i < s.clauses.length → (s2.clauses.getD i []).Perm (s.clauses.getD i [])) ∧
        mes s < mes s2) ∧
    (∀ s2, s.solveStep pf af = .ok (.sat s2) →
        s2.n = s.n ∧ s.clauses.length ≤ s2.clauses.length ∧
        (∀ i, i < s.clauses.length → (s2.clauses.getD i []).Perm (s.clauses.getD i [])) ∧
        (∀ cr, cr < s2.clauses.length → s2.clauses.getD cr [] ≠ [] →
          clauseSat s2.assigns (s2.clauses.getD cr []) = true)) := by
  have hred := solveStep_red s pf af
  cases hprop : propagateGo pf s with
  | none =>
    rw [hprop] at hred
    replace hred : s.solveStep pf af = .error .fuel := hred
    refine ⟨?_, ?_, ?_⟩
    · intro e he
      rw [hred] at he
      exact Or.inl (Except.error.inj he).symm
    · intro s2 he
      rw [hred] at he
      exact absurd he (fun hc => Except.noConfusion hc)
    · intro s2 he
      rw [hred] at he
      exact absurd he (fun hc => Except.noConfusion hc)
  | some r =>
    cases r with
    | done s1 =>
      rw [hprop] at hred
      replace hred : s.solveStep pf af =
          (match s1.findUnassigned with
           | some p => .ok (.next { s1.enqueue p (s1.assigns.getD p false) none with
               level := (s1.enqueue p (s1.assigns.getD p false) none).level.set p
                 ((s1.enqueue p (s1.assigns.getD p false) none).level.getD p 0 + 1) })
           | none => .ok (.sat s1)) := hred
      obtain ⟨hdone, _⟩ := propagateGo_inv pf s hInv hAll
      obtain ⟨hInv1, hframe1, hAll1, hhead1⟩ := hdone s1 hprop
      have hfr1c := hframe1
      obtain ⟨_, hn1, ⟨ext1, hq1⟩, _, _, hclen1, hcperm1, _⟩ := hframe1
      cases hfind : s1.findUnassigned with
      | some p =>
        rw [hfind] at hred
        obtain ⟨hpn, hp0, _⟩ := findUnassigned_spec hfind
        have hplev : p < s1.level.length := by
          rw [hInv1.len_l]
          exact hpn
        have hpass : p < s1.assigns.length := by
          rw [hInv1.len_a]
          exact hpn
        refine ⟨?_, ?_, ?_⟩
        · intro e he
          rw [hred] at he
          exact absurd he (fun hc => Except.noConfusion hc)
        · intro s2 he
          have h2 : s2 = _ := Step.next.inj (Except.ok.inj (he.symm.trans hred))
          have hs2 : s2 = _ := h2.trans (decide_state_eq hplev hpass)
          rw [hs2]
          refine ⟨decide_inv hInv1 hhead1 hfind, decide_allok hInv1 hAll1 hhead1 hfind,
            ?_, ?_, ?_, ?_, ?_⟩
          · show s1.que ++ [p] ≠ []
            intro hc
            exact List.cons_ne_nil p [] (List.append_eq_nil.1 hc).2
          · show s1.n = s.n
            exact hn1
          · show s.clauses.length ≤ s1.clauses.length
            omega
          · intro i hi
            show (s1.clauses.getD i []).Perm (s.clauses.getD i [])
            exact hcperm1 i
          · show mes s < mes
              { n := s1.n, assigns := s1.assigns, clauses := s1.clauses,
                watchers := s1.watchers, reason := s1.reason.set p none,
                level := s1.level.set p (tailLevel s1 + 1), que := s1.que ++ [p],
                head := s1.head }
            have hpnotq : p ∉ s1.que := fun hm => hInv1.que_pos p hm hp0
            have hmesd : mes
                { n := s1.n, assigns := s1.assigns, clauses := s1.clauses,
                  watchers := s1.watchers, reason := s1.reason.set p none,
                  level := s1.level.set p (tailLevel s1 + 1), que := s1.que ++ [p],
                  head := s1.head } =
                mes s1 + (s1.n + 1) ^ (s1.n + 2 - (tailLevel s1 + 1)) := by
              show ((s1.que ++ [p]).map (fun v =>
                  (s1.n + 1) ^ (s1.n + 2 -
                    (s1.level.set p (tailLevel s1 + 1)).getD v 0))).sum = _
              rw [List.map_append, List.sum_append]
              have hc1 : s1.que.map (fun v =>
                    (s1.n + 1) ^ (s1.n + 2 -
                      (s1.level.set p (tailLevel s1 + 1)).getD v 0)) =
                  s1.que.map (fun v => (s1.n + 1) ^ (s1.n + 2 - s1.level.getD v 0)) :=
                List.map_congr_left (fun v hv => by
                  rw [getD_set_ne (fun he => hpnotq (by rw [he]; exact hv))])
              have hc2 : ([p].map (fun v =>
                    (s1.n + 1) ^ (s1.n + 2 -
                      (s1.level.set p (tailLevel s1 + 1)).getD v 0))).sum =
                  (s1.n + 1) ^ (s1.n + 2 - (tailLevel s1 + 1)) := by
                rw [List.map_singleton, List.sum_singleton, getD_set_self hplev]
              rw [hc1, hc2]
              rfl
            have hpos : 0 < (s1.n + 1) ^ (s1.n + 2 - (tailLevel s1 + 1)) :=
              Nat.pos_pow_of_pos _ (by omega)
            have h1 := stepFrame_mes hfr1c
            omega
        · intro s2 he
          rw [hred] at he
          exact absurd (Except.ok.inj he) (fun hc => Step.noConfusion hc)
      | none =>
        rw [hfind] at hred
        have hassigned : ∀ v, v < s1.n → s1.level.getD v 0 ≠ 0 := by
          intro v hv
          have h2 : ∀ x ∈ List.range s1.n, ¬((fun v => s1.level.getD v 0 == 0) x = true) :=
            List.find?_eq_none.1 hfind
          have h3 := h2 v (List.mem_range.2 hv)
          intro hc
          apply h3
          show (s1.level.getD v 0 == 0) = true
          rw [hc]
          rfl
        refine ⟨?_, ?_, ?_⟩
        · intro e he
          rw [hred] at he
          exact absurd he (fun hc => Except.noConfusion hc)
        · intro s2 he
          rw [hred] at he
          exact absurd (Except.ok.inj he) (fun hc => Step.noConfusion hc)
        · intro s2 he
          rw [hred] at he
          have h2 := Step.sat.inj (Except.ok.inj he)
          rw [← h2]
          refine ⟨hn1, by omega, fun i hi => hcperm1 i, ?_⟩
          intro cr hcr hnemp
          rcases hAll1 cr hcr with ⟨l, hl, _, hlsat⟩ | ⟨l, hl, hl0⟩ | ⟨i, h1, h2, h3⟩ | hemp
          · unfold clauseSat
            rw [List.any_eq_true]
            refine ⟨l, hl, ?_⟩
            unfold litSat
            rw [hlsat]
            exact beq_self_eq_true _
          · have hln : l.1 < s1.n := hInv1.clause_vars _ (by
              rw [List.getD_eq_getElem _ _ hcr]
              exact List.getElem_mem hcr) l hl
            exact absurd hl0 (hassigned l.1 hln)
          · rw [hhead1] at h1
            omega
          · exact absurd hemp hnemp
    | conflict confl s1 =>
      rw [hprop] at hred
      replace hred : s.solveStep pf af =
          (if s1.level.getD (s1.que.getLast?.getD 0) 0 = 1 then .ok (.unsat s1)
           else
             match Solver.analyze af s1 confl with
             | .error e => .error (.analyzePanic e)
             | .ok s2 => .ok (.next s2)) := hred
      obtain ⟨_, hconf⟩ := propagateGo_inv pf s hInv hAll
      obtain ⟨hInv1, hframe1, hqne1, hcr1, hfalse1, hclev1, hexc1⟩ := hconf confl s1 hprop
      have hfr1c := hframe1
      obtain ⟨_, hn1, _, _, _, hclen1, hcperm1, _⟩ := hframe1
      have hcurr : s1.level.getD (s1.que.getLast?.getD 0) 0 = lastLevel s1 :=
        getLast_getD_level hqne1
      by_cases hone : s1.level.getD (s1.que.getLast?.getD 0) 0 = 1
      · rw [if_pos hone] at hred
        refine ⟨?_, ?_, ?_⟩
        · intro e he
          rw [hred] at he
          exact absurd he (fun hc => Except.noConfusion hc)
        · intro s2 he
          rw [hred] at he
          exact absurd (Except.ok.inj he) (fun hc => Step.noConfusion hc)
        · intro s2 he
          rw [hred] at he
          exact absurd (Except.ok.inj he) (fun hc => Step.noConfusion hc)
      · rw [if_neg hone] at hred
        have hll1 : 2 ≤ lastLevel s1 := by
          have h2 := lastLevel_pos hInv1 hqne1
          rw [hcurr] at hone
          omega
        cases hana : Solver.analyze af s1 confl with
        | error e2 =>
          rw [hana] at hred
          refine ⟨?_, ?_, ?_⟩
          · intro e he
            rw [hred] at he
            have h2 : RunErr.analyzePanic e2 = e := Except.error.inj he
            have h3 : e2 = .fuel :=
              analyze_err hInv1 hqne1 hll1 hcr1 hfalse1 hclev1 af e2 hana
            rw [← h2, h3]
            exact Or.inr rfl
          · intro s2 he
            rw [hred] at he
            exact absurd he (fun hc => Except.noConfusion hc)
          · intro s2 he
            rw [hred] at he
            exact absurd he (fun hc => Except.noConfusion hc)
        | ok s3 =>
          rw [hana] at hred
          obtain ⟨hInv3, hAll3, hqne3, hn3, ⟨lc, hcls3⟩, _, hmes3⟩ :=
            analyze_inv hInv1 hqne1 hll1 hcr1 hfalse1 hclev1 hexc1 af s3 hana
          refine ⟨?_, ?_, ?_⟩
          · intro e he
            rw [hred] at he
            exact absurd he (fun hc => Except.noConfusion hc)
          · intro s2 he
            rw [hred] at he
            have h2 := Step.next.inj (Except.ok.inj he)
            rw [← h2]
            refine ⟨hInv3, hAll3, hqne3, by rw [hn3, hn1], ?_, ?_, ?_⟩
            · rw [hcls3, List.length_append, List.length_singleton]
              omega
            · intro i hi
              rw [hcls3, List.getD_eq_getElem?_getD,
                List.getElem?_append_left (by omega), ← List.getD_eq_getElem?_getD]
              exact hcperm1 i
            · exact lt_of_le_of_lt (stepFrame_mes hfr1c) hmes3
          · intro s2 he
            rw [hred] at he
            exact absurd (Except.ok.inj he) (fun hc => Step.noConfusion hc)


theorem perm_any {l1 l2 : List Lit} (p : Lit → Bool) (h : l1.Perm l2) :
    l1.any p = l2.any p := by
  rcases hb : l2.any p with _ | _
  · rw [List.any_eq_false] at hb ⊢
    intro x hx
    exact hb x (h.mem_iff.1 hx)
  · rw [List.any_eq_true] at hb ⊢
    obtain ⟨x, hx, hpx⟩ := hb
    exact ⟨x, h.mem_iff.2 hx, hpx⟩

/-- Full runs of the solve loop from an invariant state: a `true` verdict
satisfies every tracked original clause that is nonempty, and the only failure
modes are fuel exhaustion (of the model, not of the program). -/
theorem solveLoop_run (cs : List (List Lit)) :
    ∀ (fuel pf af : Nat) (s : Solver), Inv s → AllOk s →
    cs.length ≤ s.clauses.length →
    (∀ i, i < cs.length → (s.clauses.getD i []).Perm (cs.getD i [])) →
    (∀ s2, solveLoop fuel pf af s = .ok (true, s2) →
        ∀ c ∈ cs, c ≠ [] → clauseSat s2.assigns c = true) ∧
    (∀ e, solveLoop fuel pf af s = .error e → e = .fuel ∨ e = .analyzePanic .fuel) := by
  intro fuel
  induction fuel with
  | zero =>
    intro pf af s _ _ _ _
    refine ⟨?_, ?_⟩
    · intro s2 h
      exact absurd h (fun hc => Except.noConfusion hc)
    · intro e h
      exact Or.inl (Except.error.inj h).symm
  | succ fuel ih =>
    intro pf af s hInv hAll hlen hperm
    obtain ⟨herr, hnext, hsat⟩ := solveStep_inv hInv hAll pf af
    have hred : solveLoop (fuel + 1) pf af s =
        (match s.solveStep pf af with
         | .error e => .error e
         | .ok (.sat s1) => .ok (true, s1)
         | .ok (.unsat s1) => .ok (false, s1)
         | .ok (.next s1) => solveLoop fuel pf af s1) := rfl
    cases hstep : s.solveStep pf af with
    | error e =>
      rw [hstep] at hred
      refine ⟨?_, ?_⟩
      · intro s2 h
        exact absurd (h.symm.trans hred) (fun hc => Except.noConfusion hc)
      · intro e2 h
        have he2 : e2 = e := Except.error.inj (h.symm.trans hred)
        rw [he2]
        exact herr e hstep
    | ok st =>
      cases st with
      | sat s1 =>
        rw [hstep] at hred
        obtain ⟨hn1, hlen1, hperm1, hsat1⟩ := hsat s1 hstep
        refine ⟨?_, ?_⟩
        · intro s2 h
          have hpair : (true, s1) = (true, s2) := Except.ok.inj (hred.symm.trans h)
          have hs12 : s1 = s2 := (Prod.mk.injEq _ _ _ _ ▸ hpair).2
          intro c hc hcne
          obtain ⟨i, hi, hie⟩ := List.mem_iff_getElem.1 hc
          have hig : cs.getD i [] = c := by
            rw [List.getD_eq_getElem _ _ hi]
            exact hie
          have hilen : i < s.clauses.length := by omega
          have hp1 : (s1.clauses.getD i []).Perm c := by
            rw [← hig]
            exact (hperm1 i hilen).trans (hperm i hi)
          have hi1 : i < s1.clauses.length := by omega
          have hne1 : s1.clauses.getD i [] ≠ [] := by
            intro hc2
            rw [hc2] at hp1
            exact hcne hp1.nil_eq.symm
          have hsatc := hsat1 i hi1 hne1
          unfold clauseSat at hsatc ⊢
          rw [← hs12, ← perm_any (litSat s1.assigns) hp1]
          exact hsatc
        · intro e h
          exact absurd (hred.symm.trans h) (fun hc => Except.noConfusion hc)
      | unsat s1 =>
        rw [hstep] at hred
        refine ⟨?_, ?_⟩
        · intro s2 h
          have hpair : (false, s1) = (true, s2) := Except.ok.inj (hred.symm.trans h)
          have hb : false = true := (Prod.mk.injEq _ _ _ _ ▸ hpair).1
          exact Bool.noConfusion hb
        · intro e h
          exact absurd (hred.symm.trans h) (fun hc => Except.noConfusion hc)
      | next s1 =>
        rw [hstep] at hred
        obtain ⟨hInv1, hAll1, _, hn1, hlen1, hperm1, _⟩ := hnext s1 hstep
        obtain ⟨ihok, iherr⟩ := ih pf af s1 hInv1 hAll1 (by omega)
          (fun i hi => (hperm1 i (by omega)).trans (hperm i hi))
        refine ⟨?_, ?_⟩
        · intro s2 h
          exact ihok s2 (hred.symm.trans h)
        · intro e h
          exact iherr e (hred.symm.trans h)

/-- States reachable in a run of `solve(None)` on the formula `cs` over `n`
variables: the freshly constructed solver, and anything obtained from a
reachable state by one loop iteration that continues. -/
inductive Reachable (n : Nat) (cs : List (List Lit)) : Solver → Prop where
  | init : Reachable n cs (Solver.new n cs)
  | step {s s2 : Solver} {pf af : Nat} : Reachable n cs s →
      s.solveStep pf af = .ok (.next s2) → Reachable n cs s2

theorem reachable_inv {n : Nat} {cs : List (List Lit)}
    (hvars : ∀ c ∈ cs, ∀ l ∈ c, l.1 < n) {s : Solver} (hr : Reachable n cs s) :
    Inv s ∧ AllOk s := by
  induction hr with
  | init => exact ⟨new_Inv n cs hvars, new_AllOk n cs⟩
  | step hr hstep ih =>
    obtain ⟨hInv, hAll⟩ := ih
    obtain ⟨_, hnext, _⟩ := solveStep_inv hInv hAll _ _
    obtain ⟨hInv2, hAll2, _⟩ := hnext _ hstep
    exact ⟨hInv2, hAll2⟩


/-! ### C1: soundness of a `true` answer -/

/-- C1 (amended: the original clauses must be nonempty, as the
`empty_clause_breaks_soundness` counterexample forces): for every formula with
variable indices in `[0, n)` and no empty clause, if `solve(None)` returns
`true` then the solver's assignment satisfies every original clause. -/
theorem solve_sound (n : Nat) (cs : List (List Lit))
    (hvars : ∀ c ∈ cs, ∀ l ∈ c, l.1 < n) (hne : ∀ c ∈ cs, c ≠ []) :
    ∀ fuel s2, solveTop fuel n cs = .ok (true, s2) →
      formulaSat s2.assigns cs = true := by
  intro fuel s2 h
  obtain ⟨hn, ha, hl, hr, hq, hh, hc⟩ := new_fields n cs
  obtain ⟨hok, _⟩ := solveLoop_run cs fuel fuel fuel (Solver.new n cs)
    (new_Inv n cs hvars) (new_AllOk n cs)
    (le_of_eq (congrArg List.length hc.symm))
    (fun i hi => by rw [hc])
  have hall := hok s2 h
  unfold formulaSat
  rw [List.all_eq_true]
  intro c hcmem
  exact hall c hcmem (hne c hcmem)

theorem solve_sound_witness :
    (∀ c ∈ [[((0 : Var), true), ((1 : Var), true)], [(0, false), (1, false)]],
      ∀ l ∈ c, l.1 < 2) ∧
    (∀ c ∈ [[((0 : Var), true), ((1 : Var), true)], [(0, false), (1, false)]], c ≠ []) ∧
    solveTop 20 2 [[(0, true), (1, true)], [(0, false), (1, false)]] =
      .ok (true,
        { n := 2, assigns := [false, true],
          clauses := [[(1, true), (0, true)], [(0, false), (1, false)]],
          watchers := [((0, true), [0]), ((1, true), [0]), ((0, false), [1]),
            ((1, false), [1])],
          reason := [none, some 0], level := [2, 2], que := [0, 1], head := 2 }) ∧
    formulaSat [false, true] [[(0, true), (1, true)], [(0, false), (1, false)]] = true :=
  ⟨by decide, by decide, by decide,
    solve_sound 2 [[(0, true), (1, true)], [(0, false), (1, false)]] (by decide) (by decide)
      20
      { n := 2, assigns := [false, true],
        clauses := [[(1, true), (0, true)], [(0, false), (1, false)]],
        watchers := [((0, true), [0]), ((1, true), [0]), ((0, false), [1]),
          ((1, false), [1])],
        reason := [none, some 0], level := [2, 2], que := [0, 1], head := 2 }
      (by decide)⟩

/-! ### C6: the reason lookup in analyze never panics -/

/-- C6: in every run of `solve(None)` on a formula with variable indices in
`[0, n)`, conflict analysis never hits the `reason[que[que_tail]].unwrap()`
panic and the backward tail-pointer search never runs past the front of the
trail: the modelled run never reports these two panics, for any fuel. -/
theorem analyze_lookup_safe (n : Nat) (cs : List (List Lit))
    (hvars : ∀ c ∈ cs, ∀ l ∈ c, l.1 < n) (fuel : Nat) :
    solveTop fuel n cs ≠ .error (.analyzePanic .noReason) ∧
    solveTop fuel n cs ≠ .error (.analyzePanic .tailMiss) := by
  obtain ⟨hn, ha, hl, hr, hq, hh, hc⟩ := new_fields n cs
  obtain ⟨_, herr⟩ := solveLoop_run cs fuel fuel fuel (Solver.new n cs)
    (new_Inv n cs hvars) (new_AllOk n cs)
    (le_of_eq (congrArg List.length hc.symm))
    (fun i hi => by rw [hc])
  constructor
  · intro hcon
    rcases herr _ hcon with h1 | h1
    · exact RunErr.noConfusion h1
    · exact AnalyzeErr.noConfusion (RunErr.analyzePanic.inj h1)
  · intro hcon
    rcases herr _ hcon with h1 | h1
    · exact RunErr.noConfusion h1
    · exact AnalyzeErr.noConfusion (RunErr.analyzePanic.inj h1)

theorem analyze_lookup_safe_witness :
    (∀ c ∈ [[((0 : Var), true), ((1 : Var), true)], [(0, false), (1, false)],
        [(0, true), (1, false)]], ∀ l ∈ c, l.1 < 2) ∧
    (solveTop 20 2 [[(0, true), (1, true)], [(0, false), (1, false)],
        [(0, true), (1, false)]] ≠ .error (.analyzePanic .noReason) ∧
     solveTop 20 2 [[(0, true), (1, true)], [(0, false), (1, false)],
        [(0, true), (1, false)]] ≠ .error (.analyzePanic .tailMiss)) :=
  ⟨by decide,
    analyze_lookup_safe 2 [[(0, true), (1, true)], [(0, false), (1, false)],
      [(0, true), (1, false)]] (by decide) 20⟩

/-! ### C7: trail decision levels are monotone -/

/-- The decision levels recorded for the trail entries are non-decreasing from
the oldest entry to the newest. -/
def TrailSorted (s : Solver) : Prop :=
  (s.que.map (fun v => s.level.getD v 0)).Chain' (· ≤ ·)

/-- A directly computing decision procedure for chains of `≤` on `Nat`. -/
def decChainLe : ∀ (l : List Nat), Decidable (l.Chain' (· ≤ ·))
  | [] => isTrue List.chain'_nil
  | [a] => isTrue (List.chain'_singleton a)
  | a :: b :: t =>
    match Nat.decLe a b, decChainLe (b :: t) with
    | isTrue h1, isTrue h2 => isTrue (List.chain'_cons.2 ⟨h1, h2⟩)
    | isFalse h1, _ => isFalse (fun hc => h1 (List.chain'_cons.1 hc).1)
    | _, isFalse h2 => isFalse (fun hc => h2 (List.chain'_cons.1 hc).2)

instance decTrailSorted (s : Solver) : Decidable (TrailSorted s) :=
  decChainLe (s.que.map (fun v => s.level.getD v 0))

/-- `enqueue` preserves trail monotonicity: the appended entry records the
level of the previous back of the trail. -/
theorem trailSorted_enqueue {s : Solver} (v : Var) (a : Bool) (r : Option Nat)
    (hs : TrailSorted s) (hv : v ∉ s.que) (hlen : v < s.level.length) :
    TrailSorted (s.enqueue v a r) := by
  show ((s.que ++ [v]).map
    (fun w => (s.level.set v (tailLevel s)).getD w 0)).Chain' (· ≤ ·)
  rw [List.map_append]
  have hmap : s.que.map (fun w => (s.level.set v (tailLevel s)).getD w 0) =
      s.que.map (fun w => s.level.getD w 0) :=
    List.map_congr_left (fun w hw => getD_set_ne (fun he => hv (by rw [he]; exact hw)))
  rw [hmap, List.chain'_append]
  refine ⟨hs, List.chain'_singleton _, ?_⟩
  intro x hx y hy
  replace hy : some ((s.level.set v (tailLevel s)).getD v 0) = some y := hy
  have hy2 : y = tailLevel s := by
    rw [← Option.some.inj hy, getD_set_self hlen]
  cases hq1 : s.que.getLast? with
  | none =>
    rw [Option.mem_def, List.getLast?_map, hq1] at hx
    exact absurd hx (by simp)
  | some w =>
    rw [Option.mem_def, List.getLast?_map, hq1] at hx
    have hxw : s.level.getD w 0 = x := Option.some.inj hx
    have he : tailLevel s = s.level.getD w 0 := by
      unfold tailLevel
      rw [hq1]
    rw [hy2, he]
    omega

/-- Handling one watched clause preserves trail monotonicity: it either only
reorders the clause or enqueues the unit literal's unassigned variable. -/
theorem trailSorted_propClause {s : Solver} {cr : Nat}
    (hs : TrailSorted s) (hpos : ∀ v ∈ s.que, s.level.getD v 0 ≠ 0)
    (hcl : ∀ l ∈ s.clauses.getD cr [], l.1 < s.level.length) :
    (∀ s2, propClause s cr = .next s2 → TrailSorted s2) ∧
    (∀ c2 s2, propClause s cr = .conflict c2 s2 → TrailSorted s2) := by
  constructor
  · intro s2 h
    rcases propClause_next_inv h with ⟨cl2, _, hs2, _⟩ |
      ⟨cl2, u, _, hu0, humem, _, _, hs2⟩
    · rw [hs2]
      exact hs
    · rw [hs2]
      have hnotq : u.1 ∉ s.que := fun hm => hpos u.1 hm hu0
      have hlenu : u.1 < s.level.length := hcl u humem
      exact trailSorted_enqueue u.1 u.2 (some cr)
        (show TrailSorted { s with clauses := s.clauses.set cr cl2 } from hs) hnotq hlenu
  · intro c2 s2 h
    obtain ⟨_, ⟨cl2, _, hs2⟩, _⟩ := propClause_conflict_inv h
    rw [hs2]
    exact hs

/-- The decision step (enqueue with the stale value, then bump the level)
preserves trail monotonicity. -/
theorem trailSorted_decide {s : Solver} (p : Var)
    (hs : TrailSorted s) (hp : p ∉ s.que) (hlev : p < s.level.length)
    (hass : p < s.assigns.length) :
    TrailSorted { s.enqueue p (s.assigns.getD p false) none with
      level := (s.enqueue p (s.assigns.getD p false) none).level.set p
        ((s.enqueue p (s.assigns.getD p false) none).level.getD p 0 + 1) } := by
  rw [decide_state_eq hlev hass]
  show ((s.que ++ [p]).map
    (fun w => (s.level.set p (tailLevel s + 1)).getD w 0)).Chain' (· ≤ ·)
  rw [List.map_append]
  have hmap : s.que.map (fun w => (s.level.set p (tailLevel s + 1)).getD w 0) =
      s.que.map (fun w => s.level.getD w 0) :=
    List.map_congr_left (fun w hw => getD_set_ne (fun he => hp (by rw [he]; exact hw)))
  rw [hmap, List.chain'_append]
  refine ⟨hs, List.chain'_singleton _, ?_⟩
  intro x hx y hy
  replace hy : some ((s.level.set p (tailLevel s + 1)).getD p 0) = some y := hy
  have hy2 : y = tailLevel s + 1 := by
    rw [← Option.some.inj hy, getD_set_self hlev]
  cases hq1 : s.que.getLast? with
  | none =>
    rw [Option.mem_def, List.getLast?_map, hq1] at hx
    exact absurd hx (by simp)
  | some w =>
    rw [Option.mem_def, List.getLast?_map, hq1] at hx
    have hxw : s.level.getD w 0 = x := Option.some.inj hx
    have he : tailLevel s = s.level.getD w 0 := by
      unfold tailLevel
      rw [hq1]
    rw [hy2, he]
    omega

/-- The backtracking (undo) step preserves trail monotonicity: it removes a
suffix of the trail and leaves the kept entries' levels unchanged. -/
theorem trailSorted_cancelUntil {s : Solver} (bt : Nat)
    (hs : TrailSorted s) (hnd : s.que.Nodup) :
    TrailSorted (s.cancelUntil bt) := by
  obtain ⟨_, _, _, _, _, _, cdec, ckept, _, cfr⟩ := cancelUntil_spec s bt hs hnd
  have hkl : ∀ v ∈ (s.cancelUntil bt).que,
      (s.cancelUntil bt).level.getD v 0 = s.level.getD v 0 := by
    intro v hv
    apply cfr
    rintro ⟨hmem, hgt⟩
    have := ckept v hv
    omega
  show ((s.cancelUntil bt).que.map
    (fun v => (s.cancelUntil bt).level.getD v 0)).Chain' (· ≤ ·)
  have hmap : (s.cancelUntil bt).que.map (fun v => (s.cancelUntil bt).level.getD v 0) =
      (s.cancelUntil bt).que.map (fun v => s.level.getD v 0) :=
    List.map_congr_left hkl
  rw [hmap]
  have hsplit : (((s.cancelUntil bt).que ++
      s.que.drop (s.cancelUntil bt).que.length).map
      (fun v => s.level.getD v 0)).Chain' (· ≤ ·) := by
    rw [← cdec]
    exact hs
  rw [List.map_append, List.chain'_append] at hsplit
  exact hsplit.1

/-- C7: the trail's recorded decision levels are non-decreasing at every point
of a run, and the invariant is preserved by each individual operation: it
holds in every state reachable through whole loop iterations; `enqueue`
preserves it for any unassigned variable; handling any single watched clause
during propagation (including its inline unit enqueue) preserves it and it
holds in the conflict state handed to `analyze` as well as in the state a
completed propagation pass returns; the decision step preserves it; the
backtracking (undo) step of conflict analysis preserves it; and the full
backtrack-and-assert step of a successful conflict analysis re-establishes
it. -/
theorem trail_levels_monotone (n : Nat) (cs : List (List Lit))
    (hvars : ∀ c ∈ cs, ∀ l ∈ c, l.1 < n) :
    (∀ s, Reachable n cs s → TrailSorted s) ∧
    (∀ (s : Solver) (v : Var) (a : Bool) (r : Option Nat), TrailSorted s →
      v ∉ s.que → v < s.level.length → TrailSorted (s.enqueue v a r)) ∧
    (∀ (s : Solver) (cr : Nat), TrailSorted s →
      (∀ v ∈ s.que, s.level.getD v 0 ≠ 0) →
      (∀ l ∈ s.clauses.getD cr [], l.1 < s.level.length) →
      (∀ s2, propClause s cr = .next s2 → TrailSorted s2) ∧
      (∀ c2 s2, propClause s cr = .conflict c2 s2 → TrailSorted s2)) ∧
    (∀ s, Reachable n cs s → ∀ pf s1, propagateGo pf s = some (.done s1) →
      TrailSorted s1) ∧
    (∀ s, Reachable n cs s → ∀ pf confl s1,
      propagateGo pf s = some (.conflict confl s1) → TrailSorted s1) ∧
    (∀ (s : Solver) (p : Var), TrailSorted s → p ∉ s.que → p < s.level.length →
      p < s.assigns.length →
      TrailSorted { s.enqueue p (s.assigns.getD p false) none with
        level := (s.enqueue p (s.assigns.getD p false) none).level.set p
          ((s.enqueue p (s.assigns.getD p false) none).level.getD p 0 + 1) }) ∧
    (∀ (s : Solver) (bt : Nat), TrailSorted s → s.que.Nodup →
      TrailSorted (s.cancelUntil bt)) ∧
    (∀ s, Reachable n cs s → ∀ pf confl s1,
      propagateGo pf s = some (.conflict confl s1) →
      s1.level.getD (s1.que.getLast?.getD 0) 0 ≠ 1 →
      ∀ af s4, s1.analyze af confl = .ok s4 → TrailSorted s4) := by
  refine ⟨?_, ?_, ?_, ?_, ?_, ?_, ?_, ?_⟩
  · intro s hr
    exact (reachable_inv hvars hr).1.sorted
  · intro s v a r hs hv hlen
    exact trailSorted_enqueue v a r hs hv hlen
  · intro s cr hs hpos hcl
    exact trailSorted_propClause hs hpos hcl
  · intro s hr pf s1 hprop
    obtain ⟨hInv, hAll⟩ := reachable_inv hvars hr
    obtain ⟨hdone, _⟩ := propagateGo_inv pf s hInv hAll
    exact (hdone s1 hprop).1.sorted
  · intro s hr pf confl s1 hprop
    obtain ⟨hInv, hAll⟩ := reachable_inv hvars hr
    obtain ⟨_, hconf⟩ := propagateGo_inv pf s hInv hAll
    exact (hconf confl s1 hprop).1.sorted
  · intro s p hs hp hlev hass
    exact trailSorted_decide p hs hp hlev hass
  · intro s bt hs hnd
    exact trailSorted_cancelUntil bt hs hnd
  · intro s hr pf confl s1 hprop hne1
    obtain ⟨hInv, hAll⟩ := reachable_inv hvars hr
    obtain ⟨_, hconf⟩ := propagateGo_inv pf s hInv hAll
    obtain ⟨hInv1, _, hqne1, hcr1, hfalse1, hclev1, hexc1⟩ := hconf confl s1 hprop
    have hcurr : s1.level.getD (s1.que.getLast?.getD 0) 0 = lastLevel s1 :=
      getLast_getD_level hqne1
    have hll1 : 2 ≤ lastLevel s1 := by
      have h2 := lastLevel_pos hInv1 hqne1
      rw [hcurr] at hne1
      omega
    intro af s4 hana
    exact (analyze_inv hInv1 hqne1 hll1 hcr1 hfalse1 hclev1 hexc1 af s4 hana).1.sorted

/-- Concrete state after the first decision on x0 ∨ x1, ¬x0 ∨ ¬x1. -/
def w7S1 : Solver :=
  { n := 2, assigns := [false, false],
    clauses := [[(0, true), (1, true)], [(0, false), (1, false)]],
    watchers := [((0, true), [0]), ((1, true), [0]), ((0, false), [1]),
      ((1, false), [1])],
    reason := [none, none], level := [2, 0], que := [0], head := 0 }

/-- The state the propagation pass from `w7S1` completes in. -/
def w7SD : Solver :=
  { n := 2, assigns := [false, true],
    clauses := [[(1, true), (0, true)], [(0, false), (1, false)]],
    watchers := [((0, true), [0]), ((1, true), [0]), ((0, false), [1]),
      ((1, false), [1])],
    reason := [none, some 0], level := [2, 2], que := [0, 1], head := 2 }

/-- The state after handling the single watched clause 0 in `w7S1`. -/
def w7S2C : Solver := { w7SD with head := 0 }

/-- Concrete state after the first decision on x0, ¬x0. -/
def w7T1 : Solver :=
  { n := 1, assigns := [false],
    clauses := [[(0, true)], [(0, false)]],
    watchers := [((0, true), [0]), ((0, false), [1])],
    reason := [none], level := [2], que := [0], head := 0 }

/-- The conflict state propagation from `w7T1` hands to `analyze`. -/
def w7T2 : Solver := { w7T1 with head := 1 }

/-- The state conflict analysis from `w7T2` returns. -/
def w7T4 : Solver :=
  { n := 1, assigns := [true],
    clauses := [[(0, true)], [(0, false)], [(0, true)]],
    watchers := [((0, true), [0, 2]), ((0, false), [1])],
    reason := [some 2], level := [1], que := [0], head := 0 }

/-- The freshly constructed solver for x0 ∨ x1, ¬x0 ∨ ¬x1. -/
def w7N2 : Solver :=
  Solver.new 2 [[(0, true), (1, true)], [(0, false), (1, false)]]

theorem trail_levels_monotone_witness :
    (∀ c ∈ [[((0 : Var), true), ((1 : Var), true)], [(0, false), (1, false)]],
      ∀ l ∈ c, l.1 < 2) ∧
    (Reachable 2 [[(0, true), (1, true)], [(0, false), (1, false)]] w7S1 ∧
      w7S1.que = [0] ∧ TrailSorted w7S1) ∧
    (TrailSorted w7S1 ∧ 1 ∉ w7S1.que ∧ 1 < w7S1.level.length ∧
      TrailSorted (w7S1.enqueue 1 true (some 0))) ∧
    (propClause w7S1 0 = .next w7S2C ∧ TrailSorted w7S2C) ∧
    (propagateGo 20 w7S1 = some (.done w7SD) ∧ TrailSorted w7SD) ∧
    (propagateGo 20 w7T1 = some (.conflict 0 w7T2) ∧ TrailSorted w7T2) ∧
    ((0 : Var) ∉ w7N2.que ∧ 0 < w7N2.level.length ∧
      TrailSorted { w7N2.enqueue 0 (w7N2.assigns.getD 0 false) none with
        level := (w7N2.enqueue 0 (w7N2.assigns.getD 0 false) none).level.set 0
          ((w7N2.enqueue 0 (w7N2.assigns.getD 0 false) none).level.getD 0 0 + 1) }) ∧
    (w7T2.que.Nodup ∧ TrailSorted (w7T2.cancelUntil 1)) ∧
    (Solver.analyze 20 w7T2 0 = .ok w7T4 ∧ TrailSorted w7T4) := by
  have hthm0 := trail_levels_monotone 2
    [[(0, true), (1, true)], [(0, false), (1, false)]] (by decide)
  have hthm1 := trail_levels_monotone 1 [[(0, true)], [(0, false)]] (by decide)
  have hreach0 : Reachable 2 [[(0, true), (1, true)], [(0, false), (1, false)]] w7S1 :=
    @Reachable.step 2 [[(0, true), (1, true)], [(0, false), (1, false)]]
      (Solver.new 2 [[(0, true), (1, true)], [(0, false), (1, false)]]) w7S1 20 20
      Reachable.init (by decide)
  have hreach1 : Reachable 1 [[(0, true)], [(0, false)]] w7T1 :=
    @Reachable.step 1 [[(0, true)], [(0, false)]]
      (Solver.new 1 [[(0, true)], [(0, false)]]) w7T1 20 20
      Reachable.init (by decide)
  refine ⟨by decide, ⟨hreach0, by decide, hthm0.1 w7S1 hreach0⟩,
    ⟨by decide, by decide, by decide,
      hthm0.2.1 w7S1 1 true (some 0) (by decide) (by decide) (by decide)⟩,
    ⟨by decide,
      (hthm0.2.2.1 w7S1 0 (by decide) (by decide) (by decide)).1 w7S2C (by decide)⟩,
    ⟨by decide, hthm0.2.2.2.1 w7S1 hreach0 20 w7SD (by decide)⟩,
    ⟨by decide, hthm1.2.2.2.2.1 w7T1 hreach1 20 0 w7T2 (by decide)⟩,
    ⟨by decide, by decide,
      hthm0.2.2.2.2.2.1 w7N2 0 (by decide) (by decide) (by decide) (by decide)⟩,
    ⟨by decide, hthm1.2.2.2.2.2.2.1 w7T2 1 (by decide) (by decide)⟩,
    ⟨by decide, hthm1.2.2.2.2.2.2.2 w7T1 hreach1 20 0 w7T2 (by decide) (by decide)
      20 w7T4 (by decide)⟩⟩


/-- A whole propagation pass cannot run out of fuel once the fuel covers the
number of variables: each iteration advances the head by one and the trail
never exceeds `n`. -/
theorem propagateGo_total : ∀ (fuel : Nat) (s : Solver), Inv s →
    s.n + 1 - s.head ≤ fuel → propagateGo fuel s ≠ none := by
  intro fuel
  induction fuel with
  | zero =>
    intro s hInv hbud
    have h1 := hInv.head_le
    have h2 := que_len_le hInv
    omega
  | succ fuel ih =>
    intro s hInv hbud
    by_cases hh : s.head < s.que.length
    · have hqne : s.que ≠ [] := by
        intro hc
        rw [hc] at hh
        have h0 : ([] : List Var).length = 0 := rfl
        omega
      have hgo : propagateGo (fuel + 1) s =
          match propClauses { s with head := s.head + 1 }
              (watchGet s.watchers
                (s.que.getD s.head 0, !s.assigns.getD (s.que.getD s.head 0) false)) with
          | .conflict cr s2 => some (.conflict cr s2)
          | .next s2 => propagateGo fuel s2 := by
        rw [propagateGo_succ, if_pos hh]
      have hInv1 : Inv { s with head := s.head + 1 } := bump_head_inv hInv hh
      have hbound : ∀ cr ∈ watchGet s.watchers
          (s.que.getD s.head 0, !s.assigns.getD (s.que.getD s.head 0) false),
          cr < ({ s with head := s.head + 1 } : Solver).clauses.length := by
        intro cr hcr
        exact (hInv1.watch_sound _ cr hcr).1
      rw [hgo]
      cases hpc : propClauses { s with head := s.head + 1 }
          (watchGet s.watchers
            (s.que.getD s.head 0, !s.assigns.getD (s.que.getD s.head 0) false)) with
      | conflict cr s2 =>
        intro hc
        cases hc
      | next s2 =>
        obtain ⟨hnext, _⟩ := propClauses_inv _ { s with head := s.head + 1 } hInv1 hqne hbound
        obtain ⟨hInv2, hframe2, _⟩ := hnext s2 hpc
        obtain ⟨_, hn2, hh2, _⟩ := hframe2
        apply ih s2 hInv2
        rw [hn2, hh2]
        show s.n + 1 - (s.head + 1) ≤ fuel
        omega
    · rw [propagateGo_succ, if_neg hh]
      intro hc
      cases hc

/-- One loop iteration always yields a verdict once both fuels cover `n + 1`:
propagation cannot exhaust its fuel and neither can conflict analysis. -/
theorem solveStep_total {s : Solver} (hInv : Inv s) (hAll : AllOk s)
    {pf af : Nat} (hpf : s.n + 1 ≤ pf) (haf : s.n + 1 ≤ af) :
    ∃ st, s.solveStep pf af = .ok st := by
  have hred := solveStep_red s pf af
  cases hprop : propagateGo pf s with
  | none =>
    have h1 : s.n + 1 - s.head ≤ pf := by omega
    exact absurd hprop (propagateGo_total pf s hInv h1)
  | some r =>
    cases r with
    | done s1 =>
      rw [hprop] at hred
      replace hred : s.solveStep pf af =
          (match s1.findUnassigned with
           | some p => .ok (.next { s1.enqueue p (s1.assigns.getD p false) none with
               level := (s1.enqueue p (s1.assigns.getD p false) none).level.set p
                 ((s1.enqueue p (s1.assigns.getD p false) none).level.getD p 0 + 1) })
           | none => .ok (.sat s1)) := hred
      cases hfind : s1.findUnassigned with
      | some p =>
        rw [hfind] at hred
        exact ⟨_, hred⟩
      | none =>
        rw [hfind] at hred
        exact ⟨_, hred⟩
    | conflict confl s1 =>
      rw [hprop] at hred
      replace hred : s.solveStep pf af =
          (if s1.level.getD (s1.que.getLast?.getD 0) 0 = 1 then .ok (.unsat s1)
           else
             match Solver.analyze af s1 confl with
             | .error e => .error (.analyzePanic e)
             | .ok s2 => .ok (.next s2)) := hred
      obtain ⟨_, hconf⟩ := propagateGo_inv pf s hInv hAll
      obtain ⟨hInv1, hframe1, hqne1, hcr1, hfalse1, hclev1, hexc1⟩ := hconf confl s1 hprop
      obtain ⟨_, hn1, _, _, _, _, _, _⟩ := hframe1
      by_cases hone : s1.level.getD (s1.que.getLast?.getD 0) 0 = 1
      · rw [if_pos hone] at hred
        exact ⟨_, hred⟩
      · rw [if_neg hone] at hred
        have hcurr : s1.level.getD (s1.que.getLast?.getD 0) 0 = lastLevel s1 :=
          getLast_getD_level hqne1
        have hll1 : 2 ≤ lastLevel s1 := by
          have h2 := lastLevel_pos hInv1 hqne1
          rw [hcurr] at hone
          omega
        have haf1 : s1.n + 1 ≤ af := by rw [hn1]; omega
        obtain ⟨s4, hana⟩ := analyze_total hInv1 hqne1 hll1 hcr1 hfalse1 hclev1 haf1
        rw [hana] at hred
        exact ⟨_, hred⟩

/-- A `sat` verdict carries a full assignment vector (`n` entries). -/
theorem solveStep_sat_len {s : Solver} (hInv : Inv s) (hAll : AllOk s) (pf af : Nat) :
    ∀ s1, s.solveStep pf af = .ok (.sat s1) → s1.assigns.length = s1.n := by
  intro s1 h
  have hred := solveStep_red s pf af
  cases hprop : propagateGo pf s with
  | none =>
    rw [hprop] at hred
    replace hred : s.solveStep pf af = .error .fuel := hred
    rw [hred] at h
    exact absurd h (fun hc => Except.noConfusion hc)
  | some r =>
    cases r with
    | done s0 =>
      rw [hprop] at hred
      replace hred : s.solveStep pf af =
          (match s0.findUnassigned with
           | some p => .ok (.next { s0.enqueue p (s0.assigns.getD p false) none with
               level := (s0.enqueue p (s0.assigns.getD p false) none).level.set p
                 ((s0.enqueue p (s0.assigns.getD p false) none).level.getD p 0 + 1) })
           | none => .ok (.sat s0)) := hred
      obtain ⟨hdone, _⟩ := propagateGo_inv pf s hInv hAll
      obtain ⟨hInv0, _, _, _⟩ := hdone s0 hprop
      cases hfind : s0.findUnassigned with
      | some p =>
        rw [hfind] at hred
        rw [hred] at h
        exact absurd (Except.ok.inj h) (fun hc => Step.noConfusion hc)
      | none =>
        rw [hfind] at hred
        rw [hred] at h
        have h2 := Step.sat.inj (Except.ok.inj h)
        rw [← h2]
        exact hInv0.len_a
    | conflict confl s0 =>
      rw [hprop] at hred
      replace hred : s.solveStep pf af =
          (if s0.level.getD (s0.que.getLast?.getD 0) 0 = 1 then .ok (.unsat s0)
           else
             match Solver.analyze af s0 confl with
             | .error e => .error (.analyzePanic e)
             | .ok s2 => .ok (.next s2)) := hred
      by_cases hone : s0.level.getD (s0.que.getLast?.getD 0) 0 = 1
      · rw [if_pos hone] at hred
        rw [hred] at h
        exact absurd (Except.ok.inj h) (fun hc => Step.noConfusion hc)
      · rw [if_neg hone] at hred
        cases hana : Solver.analyze af s0 confl with
        | error e =>
          rw [hana] at hred
          rw [hred] at h
          exact absurd h (fun hc => Except.noConfusion hc)
        | ok s3 =>
          rw [hana] at hred
          rw [hred] at h
          exact absurd (Except.ok.inj h) (fun hc => Step.noConfusion hc)

/-- Total correctness of the loop: with per-phase fuels covering `n + 1` and
loop fuel exceeding the measure's headroom, the run returns a verdict, and a
`true` verdict carries a full assignment over the original variables. -/
theorem solveLoop_total : ∀ (fuel pf af : Nat) (s : Solver), Inv s → AllOk s →
    s.n + 1 ≤ pf → s.n + 1 ≤ af →
    s.n * (s.n + 1) ^ (s.n + 1) + 1 ≤ mes s + fuel →
    ∃ b s2, solveLoop fuel pf af s = .ok (b, s2) ∧
      (b = true → s2.assigns.length = s2.n ∧ s2.n = s.n) := by
  intro fuel
  induction fuel with
  | zero =>
    intro pf af s hInv hAll hpf haf hbud
    exfalso
    have h1 := mes_bound hInv
    set B := s.n * (s.n + 1) ^ (s.n + 1) with hB
    omega
  | succ fuel ih =>
    intro pf af s hInv hAll hpf haf hbud
    obtain ⟨st, hstep⟩ := solveStep_total hInv hAll hpf haf
    have hred : solveLoop (fuel + 1) pf af s =
        (match s.solveStep pf af with
         | .error e => .error e
         | .ok (.sat s1) => .ok (true, s1)
         | .ok (.unsat s1) => .ok (false, s1)
         | .ok (.next s1) => solveLoop fuel pf af s1) := rfl
    rw [hstep] at hred
    cases st with
    | sat s1 =>
      replace hred : solveLoop (fuel + 1) pf af s = .ok (true, s1) := hred
      refine ⟨true, s1, hred, fun _ =>
        ⟨solveStep_sat_len hInv hAll pf af s1 hstep, ?_⟩⟩
      obtain ⟨_, _, hsatc⟩ := solveStep_inv hInv hAll pf af
      exact (hsatc s1 hstep).1
    | unsat s1 =>
      replace hred : solveLoop (fuel + 1) pf af s = .ok (false, s1) := hred
      exact ⟨false, s1, hred, fun hc => Bool.noConfusion hc⟩
    | next s1 =>
      replace hred : solveLoop (fuel + 1) pf af s = solveLoop fuel pf af s1 := hred
      obtain ⟨_, hnext, _⟩ := solveStep_inv hInv hAll pf af
      obtain ⟨hInv1, hAll1, _, hn1, _, _, hmes1⟩ := hnext s1 hstep
      have hbud1 : s1.n * (s1.n + 1) ^ (s1.n + 1) + 1 ≤ mes s1 + fuel := by
        rw [hn1]
        set B := s.n * (s.n + 1) ^ (s.n + 1) with hB
        omega
      obtain ⟨b, s2, hloop, hlen⟩ := ih pf af s1 hInv1 hAll1
        (by rw [hn1]; exact hpf) (by rw [hn1]; exact haf) hbud1
      exact ⟨b, s2, hred.trans hloop, fun hb =>
        ⟨(hlen hb).1, ((hlen hb).2).trans hn1⟩⟩

/-- Every boolean vector of the right length is enumerated. -/
theorem mem_allAssignments : ∀ (n : Nat) (a : List Bool), a.length = n →
    a ∈ allAssignments n := by
  intro n
  induction n with
  | zero =>
    intro a ha
    rw [List.length_eq_zero.1 ha]
    show ([] : List Bool) ∈ [[]]
    exact List.mem_singleton.2 rfl
  | succ n ih =>
    intro a ha
    cases a with
    | nil => simp at ha
    | cons b t =>
      have ht : t.length = n := by
        rw [List.length_cons] at ha
        omega
      have hmem := ih t ht
      show b :: t ∈ (allAssignments n).map (fun a => false :: a) ++
        (allAssignments n).map (fun a => true :: a)
      cases b with
      | false =>
        exact List.mem_append.2 (Or.inl (List.mem_map.2 ⟨t, hmem, rfl⟩))
      | true =>
        exact List.mem_append.2 (Or.inr (List.mem_map.2 ⟨t, hmem, rfl⟩))

/-- C2 (amended: the original clauses must be nonempty, as the
`empty_clause_breaks_completeness` counterexample forces): for every
unsatisfiable formula with variable indices in `[0, n)` and no empty clause,
the modelled `solve(None)` run terminates — within `n * (n+1)^(n+1) + n + 2`
loop iterations — and returns `false`. -/
theorem solve_complete (n : Nat) (cs : List (List Lit))
    (hvars : ∀ c ∈ cs, ∀ l ∈ c, l.1 < n) (hne : ∀ c ∈ cs, c ≠ [])
    (hunsat : unsatB n cs = true) :
    ∃ s2, solveTop (n * (n + 1) ^ (n + 1) + n + 2) n cs = .ok (false, s2) := by
  obtain ⟨hn, ha, hl, hr, hq, hh, hc⟩ := new_fields n cs
  have hInv0 := new_Inv n cs hvars
  have hAll0 := new_AllOk n cs
  set F := n * (n + 1) ^ (n + 1) + n + 2 with hF
  have hF1 : n + 1 ≤ F := by
    rw [hF]
    set B := n * (n + 1) ^ (n + 1) with hB
    omega
  have hbud : (Solver.new n cs).n * ((Solver.new n cs).n + 1) ^
      ((Solver.new n cs).n + 1) + 1 ≤ mes (Solver.new n cs) + F := by
    rw [hn, hF]
    set B := n * (n + 1) ^ (n + 1) with hB
    omega
  obtain ⟨b, s2, hloop, hblen⟩ := solveLoop_total F F F (Solver.new n cs) hInv0 hAll0
    (by rw [hn]; exact hF1) (by rw [hn]; exact hF1) hbud
  cases b with
  | false => exact ⟨s2, hloop⟩
  | true =>
    exfalso
    have htop : solveTop F n cs = .ok (true, s2) := hloop
    have hsat := solve_sound n cs hvars hne F s2 htop
    obtain ⟨hlen2, hn2⟩ := hblen rfl
    have hlenn : s2.assigns.length = n := by
      rw [hlen2, hn2, hn]
    have hmem := mem_allAssignments n s2.assigns hlenn
    replace hunsat : (allAssignments n).all (fun a => !formulaSat a cs) = true := hunsat
    have hall := List.all_eq_true.1 hunsat s2.assigns hmem
    replace hall : (!formulaSat s2.assigns cs) = true := hall
    rw [hsat] at hall
    exact Bool.noConfusion hall

theorem solve_complete_witness :
    (∀ c ∈ [[((0 : Var), true)], [(0, false)]], ∀ l ∈ c, l.1 < 1) ∧
    (∀ c ∈ [[((0 : Var), true)], [(0, false)]], c ≠ []) ∧
    unsatB 1 [[(0, true)], [(0, false)]] = true ∧
    (∃ s2, solveTop (1 * (1 + 1) ^ (1 + 1) + 1 + 2) 1 [[(0, true)], [(0, false)]] =
      .ok (false, s2)) :=
  ⟨by decide, by decide, by decide,
    solve_complete 1 [[(0, true)], [(0, false)]] (by decide) (by decide) (by decide)⟩

/-! ### C4: an empty clause is invisible -/

/-- Index translation between a clause store holding an extra empty clause at
position `k` and the same store without it. -/
def shiftIdx (k j : Nat) : Nat := if j < k then j else j + 1

/-- What a run of `solve` reports: the verdict and the assignment vector. -/
def resultObs (r : Except RunErr (Bool × Solver)) : Except RunErr (Bool × List Bool) :=
  r.map (fun p => (p.1, p.2.assigns))

theorem shiftIdx_lt_self {k j : Nat} (hj : j < k) : shiftIdx k j = j := by
  unfold shiftIdx
  rw [if_pos hj]

theorem shiftIdx_ge {k j : Nat} (hj : ¬ j < k) : shiftIdx k j = j + 1 := by
  unfold shiftIdx
  rw [if_neg hj]

theorem shiftIdx_ne_k (k j : Nat) : shiftIdx k j ≠ k := by
  unfold shiftIdx
  split <;> omega

theorem shiftIdx_inj {k i j : Nat} (h : shiftIdx k i = shiftIdx k j) : i = j := by
  unfold shiftIdx at h
  split at h <;> split at h <;> omega

theorem shiftIdx_lt_iff {k j m : Nat} (hk : k ≤ m) : shiftIdx k j < m + 1 ↔ j < m := by
  unfold shiftIdx
  split <;> omega

theorem getD_oob {α : Type _} : ∀ (l : List α) (i : Nat) (d : α), l.length ≤ i →
    l.getD i d = d := by
  intro l
  induction l with
  | nil =>
    intro i d _
    cases i <;> rfl
  | cons a t ih =>
    intro i d h
    cases i with
    | zero => exact absurd h (by rw [List.length_cons]; omega)
    | succ i =>
      show t.getD i d = d
      apply ih
      rw [List.length_cons] at h
      omega

theorem set_oob {α : Type _} : ∀ (l : List α) (i : Nat) (x : α), l.length ≤ i →
    l.set i x = l := by
  intro l
  induction l with
  | nil =>
    intro i x _
    rfl
  | cons a t ih =>
    intro i x h
    cases i with
    | zero => exact absurd h (by rw [List.length_cons]; omega)
    | succ i =>
      show a :: t.set i x = a :: t
      rw [ih i x (by rw [List.length_cons] at h; omega)]

theorem getD_replicate_none : ∀ (n v : Nat),
    (List.replicate n (none : Option Nat)).getD v none = none := by
  intro n
  induction n with
  | zero =>
    intro v
    cases v <;> rfl
  | succ n ih =>
    intro v
    cases v with
    | zero => rfl
    | succ v => exact ih v

theorem map_shiftIdx_id {k : Nat} (m : List Nat) (hm : ∀ i ∈ m, i < k) :
    m.map (shiftIdx k) = m := by
  have h3 : m.map (shiftIdx k) = m.map id :=
    List.map_congr_left (fun i hi => by rw [shiftIdx_lt_self (hm i hi)]; rfl)
  rw [h3, List.map_id]

/-- Simulation between a solver whose clause store holds an extra empty clause
at position `k` and the same solver without it: the scalar search state agrees
and all clause ids are related by `shiftIdx k`. -/
structure Sim (k : Nat) (sA sB : Solver) : Prop where
  n_eq : sA.n = sB.n
  assigns_eq : sA.assigns = sB.assigns
  level_eq : sA.level = sB.level
  que_eq : sA.que = sB.que
  head_eq : sA.head = sB.head
  k_le : k ≤ sB.clauses.length
  len_cl : sA.clauses.length = sB.clauses.length + 1
  cl_rel : ∀ j, sA.clauses.getD (shiftIdx k j) [] = sB.clauses.getD j []
  cl_k : sA.clauses.getD k [] = []
  len_r : sA.reason.length = sB.reason.length
  reason_rel : ∀ v, sA.reason.getD v none = (sB.reason.getD v none).map (shiftIdx k)
  watch_rel : ∀ l, watchGet sA.watchers l = (watchGet sB.watchers l).map (shiftIdx k)

theorem sim_set_clause {k : Nat} {sA sB : Solver} (h : Sim k sA sB) (j : Nat)
    (cl : List Lit) :
    Sim k { sA with clauses := sA.clauses.set (shiftIdx k j) cl }
        { sB with clauses := sB.clauses.set j cl } := by
  obtain ⟨hn, ha, hl, hq, hh, hk, hlen, hrel, hck, hlr, hrr, hw⟩ := h
  refine ⟨hn, ha, hl, hq, hh, ?_, ?_, ?_, ?_, hlr, hrr, hw⟩
  · show k ≤ (sB.clauses.set j cl).length
    rw [List.length_set]
    exact hk
  · show (sA.clauses.set (shiftIdx k j) cl).length = (sB.clauses.set j cl).length + 1
    rw [List.length_set, List.length_set]
    exact hlen
  · intro j2
    show (sA.clauses.set (shiftIdx k j) cl).getD (shiftIdx k j2) [] =
      (sB.clauses.set j cl).getD j2 []
    by_cases hj : j2 = j
    · rw [hj]
      by_cases hjb : j < sB.clauses.length
      · rw [getD_set_self (by rw [hlen]; exact (shiftIdx_lt_iff hk).2 hjb),
          getD_set_self hjb]
      · have h1 : ¬ shiftIdx k j < sB.clauses.length + 1 := by
          rw [shiftIdx_lt_iff hk]
          omega
        rw [set_oob sA.clauses (shiftIdx k j) cl (by rw [hlen]; omega),
          set_oob sB.clauses j cl (by omega)]
        exact hrel j
    · rw [getD_set_ne (fun he => hj (shiftIdx_inj he).symm),
        getD_set_ne (fun he => hj he.symm)]
      exact hrel j2
  · show (sA.clauses.set (shiftIdx k j) cl).getD k [] = []
    rw [getD_set_ne (shiftIdx_ne_k k j)]
    exact hck

theorem sim_set_head {k : Nat} {sA sB : Solver} (h : Sim k sA sB) (hA hB : Nat)
    (hhh : hA = hB) : Sim k { sA with head := hA } { sB with head := hB } := by
  obtain ⟨hn, ha, hl, hq, _, hk, hlen, hrel, hck, hlr, hrr, hw⟩ := h
  exact ⟨hn, ha, hl, hq, hhh, hk, hlen, hrel, hck, hlr, hrr, hw⟩

theorem sim_set_level {k : Nat} {sA sB : Solver} (h : Sim k sA sB) {lA lB : List Nat}
    (hlev : lA = lB) : Sim k { sA with level := lA } { sB with level := lB } := by
  obtain ⟨hn, ha, _, hq, hh, hk, hlen, hrel, hck, hlr, hrr, hw⟩ := h
  exact ⟨hn, ha, hlev, hq, hh, hk, hlen, hrel, hck, hlr, hrr, hw⟩

theorem sim_enqueue {k : Nat} {sA sB : Solver} (h : Sim k sA sB) (v : Var) (a : Bool)
    (r : Option Nat) :
    Sim k (sA.enqueue v a (r.map (shiftIdx k))) (sB.enqueue v a r) := by
  obtain ⟨hn, ha, hl, hq, hh, hk, hlen, hrel, hck, hlr, hrr, hw⟩ := h
  have htl : tailLevel sA = tailLevel sB := by
    unfold tailLevel
    rw [hq, hl]
  refine ⟨hn, ?_, ?_, ?_, hh, hk, hlen, hrel, hck, ?_, ?_, hw⟩
  · show sA.assigns.set v a = sB.assigns.set v a
    rw [ha]
  · show sA.level.set v (tailLevel sA) = sB.level.set v (tailLevel sB)
    rw [hl, htl]
  · show sA.que ++ [v] = sB.que ++ [v]
    rw [hq]
  · show (sA.reason.set v (r.map (shiftIdx k))).length = (sB.reason.set v r).length
    rw [List.length_set, List.length_set, hlr]
  · intro v2
    show (sA.reason.set v (r.map (shiftIdx k))).getD v2 none =
      ((sB.reason.set v r).getD v2 none).map (shiftIdx k)
    by_cases hv : v2 = v
    · rw [hv]
      by_cases hvl : v < sB.reason.length
      · rw [getD_set_self (by rw [hlr]; exact hvl), getD_set_self hvl]
      · rw [set_oob sA.reason v (r.map (shiftIdx k)) (by
            rw [hlr]; exact Nat.le_of_not_lt hvl),
          set_oob sB.reason v r (Nat.le_of_not_lt hvl)]
        exact hrr v
    · rw [getD_set_ne (fun he => hv he.symm), getD_set_ne (fun he => hv he.symm)]
      exact hrr v2

theorem sim_cancelUntil {k : Nat} {sA sB : Solver} (h : Sim k sA sB) (bt : Nat) :
    Sim k (sA.cancelUntil bt) (sB.cancelUntil bt) := by
  refine ⟨h.n_eq, h.assigns_eq, ?_, ?_, h.head_eq, h.k_le, h.len_cl, h.cl_rel, h.cl_k,
    h.len_r, h.reason_rel, h.watch_rel⟩
  · show (cancelGo bt sA.que.reverse sA.level).2 = (cancelGo bt sB.que.reverse sB.level).2
    rw [h.que_eq, h.level_eq]
  · show ((cancelGo bt sA.que.reverse sA.level).1).reverse =
      ((cancelGo bt sB.que.reverse sB.level).1).reverse
    rw [h.que_eq, h.level_eq]

theorem sim_add_clause {k : Nat} {sA sB : Solver} (h : Sim k sA sB) (cl : List Lit) :
    Sim k (sA.add_clause cl) (sB.add_clause cl) := by
  obtain ⟨hn, ha, hl, hq, hh, hk, hlen, hrel, hck, hlr, hrr, hw⟩ := h
  have hsh : shiftIdx k sB.clauses.length = sA.clauses.length := by
    rw [shiftIdx_ge (by omega)]
    omega
  refine ⟨hn, ha, hl, hq, hh, ?_, ?_, ?_, ?_, hlr, hrr, ?_⟩
  · show k ≤ (sB.clauses ++ [cl]).length
    rw [List.length_append, List.length_singleton]
    omega
  · show (sA.clauses ++ [cl]).length = (sB.clauses ++ [cl]).length + 1
    rw [List.length_append, List.length_append, List.length_singleton]
    omega
  · intro j
    show (sA.clauses ++ [cl]).getD (shiftIdx k j) [] = (sB.clauses ++ [cl]).getD j []
    by_cases hj : j < sB.clauses.length
    · rw [getD_append_left (by rw [hlen]; exact (shiftIdx_lt_iff hk).2 hj),
        getD_append_left hj]
      exact hrel j
    · by_cases hj2 : j = sB.clauses.length
      · rw [hj2, hsh]
        exact (getD_concat_length _ _ _).trans (getD_concat_length _ _ _).symm
      · have h1 : shiftIdx k j = j + 1 := shiftIdx_ge (by omega)
        rw [getD_oob (sA.clauses ++ [cl]) (shiftIdx k j) [] (by
            rw [List.length_append, List.length_singleton, hlen, h1]; omega),
          getD_oob (sB.clauses ++ [cl]) j [] (by
            rw [List.length_append, List.length_singleton]; omega)]
  · show (sA.clauses ++ [cl]).getD k [] = []
    rw [getD_append_left (by omega)]
    exact hck
  · intro l
    show watchGet (cl.foldl (fun w c => watchAdd w c sA.clauses.length) sA.watchers) l =
      (watchGet (cl.foldl (fun w c => watchAdd w c sB.clauses.length) sB.watchers) l).map
        (shiftIdx k)
    rw [foldAdd_get, foldAdd_get, hw, List.map_append, List.map_replicate, hsh]

/-- Relatedness of the outcomes of handling one watched clause. -/
inductive PropStepRel (k : Nat) : PropStep → PropStep → Prop where
  | conflict {j : Nat} {sA sB : Solver} : Sim k sA sB →
      PropStepRel k (.conflict (shiftIdx k j) sA) (.conflict j sB)
  | next {sA sB : Solver} : Sim k sA sB → PropStepRel k (.next sA) (.next sB)

theorem propStepRel_inv {k : Nat} {a b : PropStep} (h : PropStepRel k a b) :
    (∃ j sA sB, a = .conflict (shiftIdx k j) sA ∧ b = .conflict j sB ∧ Sim k sA sB) ∨
    (∃ sA sB, a = .next sA ∧ b = .next sB ∧ Sim k sA sB) := by
  cases h with
  | conflict h2 => exact Or.inl ⟨_, _, _, rfl, rfl, h2⟩
  | next h2 => exact Or.inr ⟨_, _, rfl, rfl, h2⟩

theorem sim_propClause {k : Nat} {sA sB : Solver} (h : Sim k sA sB) (j : Nat) :
    PropStepRel k (propClause sA (shiftIdx k j)) (propClause sB j) := by
  cases hs : scanClause sB.assigns sB.level (sB.clauses.getD j []) with
  | satisfied cl2 =>
    have hsA : scanClause sA.assigns sA.level (sA.clauses.getD (shiftIdx k j) []) =
        .satisfied cl2 := by
      rw [h.assigns_eq, h.level_eq, h.cl_rel j]
      exact hs
    rw [propClause_eq_satisfied hsA, propClause_eq_satisfied hs]
    exact PropStepRel.next (sim_set_clause h j cl2)
  | scanned cl2 cnt =>
    have hsA : scanClause sA.assigns sA.level (sA.clauses.getD (shiftIdx k j) []) =
        .scanned cl2 cnt := by
      rw [h.assigns_eq, h.level_eq, h.cl_rel j]
      exact hs
    rw [propClause_eq_scanned hsA, propClause_eq_scanned hs]
    by_cases h0 : cnt = 0
    · rw [if_pos h0, if_pos h0]
      exact PropStepRel.conflict (sim_set_clause h j cl2)
    · rw [if_neg h0, if_neg h0]
      by_cases h1 : cnt = 1
      · rw [if_pos h1, if_pos h1]
        exact PropStepRel.next
          (sim_enqueue (sim_set_clause h j cl2) (cl2.getD 0 (0, false)).1
            (cl2.getD 0 (0, false)).2 (some j))
      · rw [if_neg h1, if_neg h1]
        exact PropStepRel.next (sim_set_clause h j cl2)

theorem sim_propClauses {k : Nat} : ∀ (lst : List Nat) {sA sB : Solver}, Sim k sA sB →
    PropStepRel k (propClauses sA (lst.map (shiftIdx k))) (propClauses sB lst) := by
  intro lst
  induction lst with
  | nil =>
    intro sA sB h
    exact PropStepRel.next h
  | cons j rest ih =>
    intro sA sB h
    rcases propStepRel_inv (sim_propClause h j) with
      ⟨j2, sA2, sB2, hA, hB, h2⟩ | ⟨sA2, sB2, hA, hB, h2⟩
    · have eA : propClauses sA (shiftIdx k j :: rest.map (shiftIdx k)) =
          .conflict (shiftIdx k j2) sA2 := by
        show (match propClause sA (shiftIdx k j) with
              | .conflict c s1 => PropStep.conflict c s1
              | .next s1 => propClauses s1 (rest.map (shiftIdx k))) = _
        rw [hA]
      have eB : propClauses sB (j :: rest) = .conflict j2 sB2 := by
        show (match propClause sB j with
              | .conflict c s1 => PropStep.conflict c s1
              | .next s1 => propClauses s1 rest) = _
        rw [hB]
      show PropStepRel k (propClauses sA (shiftIdx k j :: rest.map (shiftIdx k)))
        (propClauses sB (j :: rest))
      rw [eA, eB]
      exact PropStepRel.conflict h2
    · have eA : propClauses sA (shiftIdx k j :: rest.map (shiftIdx k)) =
          propClauses sA2 (rest.map (shiftIdx k)) := by
        show (match propClause sA (shiftIdx k j) with
              | .conflict c s1 => PropStep.conflict c s1
              | .next s1 => propClauses s1 (rest.map (shiftIdx k))) = _
        rw [hA]
      have eB : propClauses sB (j :: rest) = propClauses sB2 rest := by
        show (match propClause sB j with
              | .conflict c s1 => PropStep.conflict c s1
              | .next s1 => propClauses s1 rest) = _
        rw [hB]
      show PropStepRel k (propClauses sA (shiftIdx k j :: rest.map (shiftIdx k)))
        (propClauses sB (j :: rest))
      rw [eA, eB]
      exact ih h2

/-- Relatedness of the outcomes of a whole propagation pass. -/
inductive PropResRel (k : Nat) : Option PropResult → Option PropResult → Prop where
  | fuelOut : PropResRel k none none
  | done {sA sB : Solver} : Sim k sA sB →
      PropResRel k (some (.done sA)) (some (.done sB))
  | conflict {j : Nat} {sA sB : Solver} : Sim k sA sB →
      PropResRel k (some (.conflict (shiftIdx k j) sA)) (some (.conflict j sB))

theorem propResRel_inv {k : Nat} {a b : Option PropResult} (h : PropResRel k a b) :
    (a = none ∧ b = none) ∨
    (∃ sA sB, a = some (.done sA) ∧ b = some (.done sB) ∧ Sim k sA sB) ∨
    (∃ j sA sB, a = some (.conflict (shiftIdx k j) sA) ∧ b = some (.conflict j sB) ∧
      Sim k sA sB) := by
  cases h with
  | fuelOut => exact Or.inl ⟨rfl, rfl⟩
  | done h2 => exact Or.inr (Or.inl ⟨_, _, rfl, rfl, h2⟩)
  | conflict h2 => exact Or.inr (Or.inr ⟨_, _, _, rfl, rfl, h2⟩)

theorem sim_propagateGo {k : Nat} : ∀ (fuel : Nat) {sA sB : Solver}, Sim k sA sB →
    PropResRel k (propagateGo fuel sA) (propagateGo fuel sB) := by
  intro fuel
  induction fuel with
  | zero =>
    intro sA sB h
    exact PropResRel.fuelOut
  | succ fuel ih =>
    intro sA sB h
    by_cases hh : sB.head < sB.que.length
    · have hhA : sA.head < sA.que.length := by
        rw [h.head_eq, h.que_eq]
        exact hh
      have hbump : Sim k { sA with head := sA.head + 1 } { sB with head := sB.head + 1 } :=
        sim_set_head h (sA.head + 1) (sB.head + 1) (by rw [h.head_eq])
      have hlit : (sA.que.getD sA.head 0, !sA.assigns.getD (sA.que.getD sA.head 0) false) =
          (sB.que.getD sB.head 0, !sB.assigns.getD (sB.que.getD sB.head 0) false) := by
        rw [h.que_eq, h.head_eq, h.assigns_eq]
      have hwl : watchGet sA.watchers
          (sB.que.getD sB.head 0, !sB.assigns.getD (sB.que.getD sB.head 0) false) =
          (watchGet sB.watchers
            (sB.que.getD sB.head 0, !sB.assigns.getD (sB.que.getD sB.head 0) false)).map
            (shiftIdx k) := h.watch_rel _
      have eA : propagateGo (fuel + 1) sA =
          (match propClauses { sA with head := sA.head + 1 }
              ((watchGet sB.watchers
                (sB.que.getD sB.head 0,
                  !sB.assigns.getD (sB.que.getD sB.head 0) false)).map (shiftIdx k)) with
           | .conflict cr s2 => some (.conflict cr s2)
           | .next s2 => propagateGo fuel s2) := by
        rw [propagateGo_succ, if_pos hhA, hlit, hwl]
      have eB : propagateGo (fuel + 1) sB =
          (match propClauses { sB with head := sB.head + 1 }
              (watchGet sB.watchers
                (sB.que.getD sB.head 0,
                  !sB.assigns.getD (sB.que.getD sB.head 0) false)) with
           | .conflict cr s2 => some (.conflict cr s2)
           | .next s2 => propagateGo fuel s2) := by
        rw [propagateGo_succ, if_pos hh]
      rcases propStepRel_inv (sim_propClauses
          (watchGet sB.watchers
            (sB.que.getD sB.head 0, !sB.assigns.getD (sB.que.getD sB.head 0) false))
          hbump) with
        ⟨j2, sA2, sB2, hA, hB, h2⟩ | ⟨sA2, sB2, hA, hB, h2⟩
      · have eA2 : propagateGo (fuel + 1) sA = some (.conflict (shiftIdx k j2) sA2) := by
          rw [eA, hA]
        have eB2 : propagateGo (fuel + 1) sB = some (.conflict j2 sB2) := by
          rw [eB, hB]
        rw [eA2, eB2]
        exact PropResRel.conflict h2
      · have eA2 : propagateGo (fuel + 1) sA = propagateGo fuel sA2 := by
          rw [eA, hA]
        have eB2 : propagateGo (fuel + 1) sB = propagateGo fuel sB2 := by
          rw [eB, hB]
        rw [eA2, eB2]
        exact ih h2
    · have hhA : ¬ sA.head < sA.que.length := by
        rw [h.head_eq, h.que_eq]
        exact hh
      have eA : propagateGo (fuel + 1) sA = some (.done sA) := by
        rw [propagateGo_succ, if_neg hhA]
      have eB : propagateGo (fuel + 1) sB = some (.done sB) := by
        rw [propagateGo_succ, if_neg hh]
      rw [eA, eB]
      exact PropResRel.done h

theorem sim_analyzeGo {k : Nat} {sA sB : Solver} (h : Sim k sA sB) (cl : Nat) :
    ∀ (fuel confl : Nat) (st : AState) (qt : Nat),
      analyzeGo sA cl fuel (shiftIdx k confl) st qt = analyzeGo sB cl fuel confl st qt := by
  intro fuel
  induction fuel with
  | zero =>
    intro confl st qt
    rfl
  | succ fuel ih =>
    intro confl st qt
    have hstA : checkLits sA.level cl (sA.clauses.getD (shiftIdx k confl) []) st =
        checkLits sB.level cl (sB.clauses.getD confl []) st := by
      rw [h.level_eq, h.cl_rel confl]
    have hredA : analyzeGo sA cl (fuel + 1) (shiftIdx k confl) st qt =
        (match findTail (checkLits sB.level cl (sB.clauses.getD confl []) st).checked sA.que qt with
         | none => Except.error AnalyzeErr.tailMiss
         | some j =>
           if (checkLits sB.level cl (sB.clauses.getD confl []) st).slc - 1 ≤ 1 then
             Except.ok (j, (⟨(checkLits sB.level cl (sB.clauses.getD confl []) st).checked,
               (checkLits sB.level cl (sB.clauses.getD confl []) st).learnt,
               (checkLits sB.level cl (sB.clauses.getD confl []) st).bt,
               (checkLits sB.level cl (sB.clauses.getD confl []) st).slc - 1⟩ : AState))
           else
             match sA.reason.getD (sA.que.getD j 0) none with
             | none => Except.error AnalyzeErr.noReason
             | some confl2 =>
               analyzeGo sA cl fuel confl2
                 (⟨(checkLits sB.level cl (sB.clauses.getD confl []) st).checked,
               (checkLits sB.level cl (sB.clauses.getD confl []) st).learnt,
               (checkLits sB.level cl (sB.clauses.getD confl []) st).bt,
               (checkLits sB.level cl (sB.clauses.getD confl []) st).slc - 1⟩ : AState) j) := by
      rw [← hstA]
      rfl
    have hredB : analyzeGo sB cl (fuel + 1) confl st qt =
        (match findTail (checkLits sB.level cl (sB.clauses.getD confl []) st).checked sB.que qt with
         | none => Except.error AnalyzeErr.tailMiss
         | some j =>
           if (checkLits sB.level cl (sB.clauses.getD confl []) st).slc - 1 ≤ 1 then
             Except.ok (j, (⟨(checkLits sB.level cl (sB.clauses.getD confl []) st).checked,
               (checkLits sB.level cl (sB.clauses.getD confl []) st).learnt,
               (checkLits sB.level cl (sB.clauses.getD confl []) st).bt,
               (checkLits sB.level cl (sB.clauses.getD confl []) st).slc - 1⟩ : AState))
           else
             match sB.reason.getD (sB.que.getD j 0) none with
             | none => Except.error AnalyzeErr.noReason
             | some confl2 =>
               analyzeGo sB cl fuel confl2
                 (⟨(checkLits sB.level cl (sB.clauses.getD confl []) st).checked,
               (checkLits sB.level cl (sB.clauses.getD confl []) st).learnt,
               (checkLits sB.level cl (sB.clauses.getD confl []) st).bt,
               (checkLits sB.level cl (sB.clauses.getD confl []) st).slc - 1⟩ : AState) j) := rfl
    cases hft : findTail (checkLits sB.level cl (sB.clauses.getD confl []) st).checked sB.que qt with
    | none =>
      have hA2 : analyzeGo sA cl (fuel + 1) (shiftIdx k confl) st qt =
          Except.error AnalyzeErr.tailMiss := by
        rw [hredA, h.que_eq, hft]
      have hB2 : analyzeGo sB cl (fuel + 1) confl st qt =
          Except.error AnalyzeErr.tailMiss := by
        rw [hredB, hft]
      rw [hA2, hB2]
    | some j =>
      have hA2 : analyzeGo sA cl (fuel + 1) (shiftIdx k confl) st qt =
          (if (checkLits sB.level cl (sB.clauses.getD confl []) st).slc - 1 ≤ 1 then
             Except.ok (j, (⟨(checkLits sB.level cl (sB.clauses.getD confl []) st).checked,
               (checkLits sB.level cl (sB.clauses.getD confl []) st).learnt,
               (checkLits sB.level cl (sB.clauses.getD confl []) st).bt,
               (checkLits sB.level cl (sB.clauses.getD confl []) st).slc - 1⟩ : AState))
           else
             match sA.reason.getD (sB.que.getD j 0) none with
             | none => Except.error AnalyzeErr.noReason
             | some confl2 =>
               analyzeGo sA cl fuel confl2
                 (⟨(checkLits sB.level cl (sB.clauses.getD confl []) st).checked,
               (checkLits sB.level cl (sB.clauses.getD confl []) st).learnt,
               (checkLits sB.level cl (sB.clauses.getD confl []) st).bt,
               (checkLits sB.level cl (sB.clauses.getD confl []) st).slc - 1⟩ : AState) j) := by
        rw [hredA, h.que_eq, hft]
      have hB2 : analyzeGo sB cl (fuel + 1) confl st qt =
          (if (checkLits sB.level cl (sB.clauses.getD confl []) st).slc - 1 ≤ 1 then
             Except.ok (j, (⟨(checkLits sB.level cl (sB.clauses.getD confl []) st).checked,
               (checkLits sB.level cl (sB.clauses.getD confl []) st).learnt,
               (checkLits sB.level cl (sB.clauses.getD confl []) st).bt,
               (checkLits sB.level cl (sB.clauses.getD confl []) st).slc - 1⟩ : AState))
           else
             match sB.reason.getD (sB.que.getD j 0) none with
             | none => Except.error AnalyzeErr.noReason
             | some confl2 =>
               analyzeGo sB cl fuel confl2
                 (⟨(checkLits sB.level cl (sB.clauses.getD confl []) st).checked,
               (checkLits sB.level cl (sB.clauses.getD confl []) st).learnt,
               (checkLits sB.level cl (sB.clauses.getD confl []) st).bt,
               (checkLits sB.level cl (sB.clauses.getD confl []) st).slc - 1⟩ : AState) j) := by
        rw [hredB, hft]
      rw [hA2, hB2]
      by_cases hstop : (checkLits sB.level cl (sB.clauses.getD confl []) st).slc - 1 ≤ (1 : Int)
      · rw [if_pos hstop, if_pos hstop]
      · rw [if_neg hstop, if_neg hstop, h.reason_rel (sB.que.getD j 0)]
        cases hrr : sB.reason.getD (sB.que.getD j 0) none with
        | none => rfl
        | some confl2 =>
          exact ih confl2
            (⟨(checkLits sB.level cl (sB.clauses.getD confl []) st).checked,
               (checkLits sB.level cl (sB.clauses.getD confl []) st).learnt,
               (checkLits sB.level cl (sB.clauses.getD confl []) st).bt,
               (checkLits sB.level cl (sB.clauses.getD confl []) st).slc - 1⟩ : AState) j

/-- Relatedness of the outcomes of conflict analysis. -/
inductive AnaRel (k : Nat) : Except AnalyzeErr Solver → Except AnalyzeErr Solver →
    Prop where
  | err {e : AnalyzeErr} : AnaRel k (.error e) (.error e)
  | ok {sA sB : Solver} : Sim k sA sB → AnaRel k (.ok sA) (.ok sB)

theorem anaRel_inv {k : Nat} {a b : Except AnalyzeErr Solver} (h : AnaRel k a b) :
    (∃ e, a = .error e ∧ b = .error e) ∨
    (∃ sA sB, a = .ok sA ∧ b = .ok sB ∧ Sim k sA sB) := by
  cases h with
  | err => exact Or.inl ⟨_, rfl, rfl⟩
  | ok h2 => exact Or.inr ⟨_, _, rfl, rfl, h2⟩

theorem sim_analyze {k : Nat} {sA sB : Solver} (h : Sim k sA sB) (af confl : Nat) :
    AnaRel k (Solver.analyze af sA (shiftIdx k confl)) (Solver.analyze af sB confl) := by
  have hql : sA.que.length = sB.que.length := by rw [h.que_eq]
  set clA := sA.level.getD (sA.que.getD (sA.que.length - 1) 0) 0 with hclA
  set clB := sB.level.getD (sB.que.getD (sB.que.length - 1) 0) 0 with hclB
  have hcl2 : clA = clB := by
    rw [hclA, hclB, h.level_eq, h.que_eq]
  have hredA : Solver.analyze af sA (shiftIdx k confl) =
      (match analyzeGo sA clA af (shiftIdx k confl) ⟨[], [], 1, 0⟩ (sA.que.length - 1) with
       | .error e2 => .error e2
       | .ok (qt, st) =>
         .ok (({ (sA.cancelUntil st.bt).enqueue (sA.que.getD qt 0)
               (!(sA.cancelUntil st.bt).assigns.getD (sA.que.getD qt 0) false)
               (some (sA.cancelUntil st.bt).clauses.length) with
             head := ((sA.cancelUntil st.bt).enqueue (sA.que.getD qt 0)
               (!(sA.cancelUntil st.bt).assigns.getD (sA.que.getD qt 0) false)
               (some (sA.cancelUntil st.bt).clauses.length)).que.length - 1 }).add_clause
           (st.learnt ++ [(sA.que.getD qt 0, !sA.assigns.getD (sA.que.getD qt 0) false)]))) := by
    rw [hclA]
    rfl
  have hredB : Solver.analyze af sB confl =
      (match analyzeGo sB clB af confl ⟨[], [], 1, 0⟩ (sB.que.length - 1) with
       | .error e2 => .error e2
       | .ok (qt, st) =>
         .ok (({ (sB.cancelUntil st.bt).enqueue (sB.que.getD qt 0)
               (!(sB.cancelUntil st.bt).assigns.getD (sB.que.getD qt 0) false)
               (some (sB.cancelUntil st.bt).clauses.length) with
             head := ((sB.cancelUntil st.bt).enqueue (sB.que.getD qt 0)
               (!(sB.cancelUntil st.bt).assigns.getD (sB.que.getD qt 0) false)
               (some (sB.cancelUntil st.bt).clauses.length)).que.length - 1 }).add_clause
           (st.learnt ++ [(sB.que.getD qt 0, !sB.assigns.getD (sB.que.getD qt 0) false)]))) := by
    rw [hclB]
    rfl
  have hgo2 : analyzeGo sA clA af (shiftIdx k confl) ⟨[], [], 1, 0⟩ (sA.que.length - 1) =
      analyzeGo sB clB af confl ⟨[], [], 1, 0⟩ (sB.que.length - 1) := by
    rw [sim_analyzeGo h clA af confl ⟨[], [], 1, 0⟩ (sA.que.length - 1), hcl2, hql]
  cases hb : analyzeGo sB clB af confl ⟨[], [], 1, 0⟩ (sB.que.length - 1) with
  | error e =>
    have hA2 : Solver.analyze af sA (shiftIdx k confl) = .error e := by
      rw [hredA, hgo2, hb]
    have hB2 : Solver.analyze af sB confl = .error e := by
      rw [hredB, hb]
    rw [hA2, hB2]
    exact AnaRel.err
  | ok pr =>
    obtain ⟨qt, st⟩ := pr
    have hA2 : Solver.analyze af sA (shiftIdx k confl) =
        .ok (({ (sA.cancelUntil st.bt).enqueue (sA.que.getD qt 0)
               (!(sA.cancelUntil st.bt).assigns.getD (sA.que.getD qt 0) false)
               (some (sA.cancelUntil st.bt).clauses.length) with
             head := ((sA.cancelUntil st.bt).enqueue (sA.que.getD qt 0)
               (!(sA.cancelUntil st.bt).assigns.getD (sA.que.getD qt 0) false)
               (some (sA.cancelUntil st.bt).clauses.length)).que.length - 1 }).add_clause
           (st.learnt ++ [(sA.que.getD qt 0, !sA.assigns.getD (sA.que.getD qt 0) false)])) := by
      rw [hredA, hgo2, hb]
    have hB2 : Solver.analyze af sB confl =
        .ok (({ (sB.cancelUntil st.bt).enqueue (sB.que.getD qt 0)
               (!(sB.cancelUntil st.bt).assigns.getD (sB.que.getD qt 0) false)
               (some (sB.cancelUntil st.bt).clauses.length) with
             head := ((sB.cancelUntil st.bt).enqueue (sB.que.getD qt 0)
               (!(sB.cancelUntil st.bt).assigns.getD (sB.que.getD qt 0) false)
               (some (sB.cancelUntil st.bt).clauses.length)).que.length - 1 }).add_clause
           (st.learnt ++ [(sB.que.getD qt 0, !sB.assigns.getD (sB.que.getD qt 0) false)])) := by
      rw [hredB, hb]
    rw [hA2, hB2]
    refine AnaRel.ok ?_
    have hveq : sA.que.getD qt 0 = sB.que.getD qt 0 := by rw [h.que_eq]
    rw [hveq, h.assigns_eq]
    have hca : (sA.cancelUntil st.bt).assigns = (sB.cancelUntil st.bt).assigns :=
      h.assigns_eq
    rw [hca]
    have h1 := sim_cancelUntil h st.bt
    have hk1 := h1.k_le
    have hlencl := h1.len_cl
    have hsh : shiftIdx k ((sB.cancelUntil st.bt).clauses.length) =
        (sA.cancelUntil st.bt).clauses.length := by
      rw [shiftIdx_ge (by omega)]
      omega
    have h2 := sim_enqueue h1 (sB.que.getD qt 0)
      (!(sB.cancelUntil st.bt).assigns.getD (sB.que.getD qt 0) false)
      (some ((sB.cancelUntil st.bt).clauses.length))
    replace h2 : Sim k
        ((sA.cancelUntil st.bt).enqueue (sB.que.getD qt 0)
          (!(sB.cancelUntil st.bt).assigns.getD (sB.que.getD qt 0) false)
          (some (shiftIdx k ((sB.cancelUntil st.bt).clauses.length))))
        ((sB.cancelUntil st.bt).enqueue (sB.que.getD qt 0)
          (!(sB.cancelUntil st.bt).assigns.getD (sB.que.getD qt 0) false)
          (some ((sB.cancelUntil st.bt).clauses.length))) := h2
    rw [hsh] at h2
    have h3 := sim_set_head h2
      (((sA.cancelUntil st.bt).enqueue (sB.que.getD qt 0)
        (!(sB.cancelUntil st.bt).assigns.getD (sB.que.getD qt 0) false)
        (some (sA.cancelUntil st.bt).clauses.length)).que.length - 1)
      (((sB.cancelUntil st.bt).enqueue (sB.que.getD qt 0)
        (!(sB.cancelUntil st.bt).assigns.getD (sB.que.getD qt 0) false)
        (some (sB.cancelUntil st.bt).clauses.length)).que.length - 1)
      (by rw [h2.que_eq])
    exact sim_add_clause h3
      (st.learnt ++ [(sB.que.getD qt 0, !sB.assigns.getD (sB.que.getD qt 0) false)])

/-- Relatedness of the outcomes of one iteration of the solve loop. -/
inductive StepResRel (k : Nat) : Except RunErr Step → Except RunErr Step → Prop where
  | err {e : RunErr} : StepResRel k (.error e) (.error e)
  | sat {sA sB : Solver} : Sim k sA sB → StepResRel k (.ok (.sat sA)) (.ok (.sat sB))
  | unsat {sA sB : Solver} : Sim k sA sB →
      StepResRel k (.ok (.unsat sA)) (.ok (.unsat sB))
  | next {sA sB : Solver} : Sim k sA sB → StepResRel k (.ok (.next sA)) (.ok (.next sB))

theorem stepResRel_inv {k : Nat} {a b : Except RunErr Step} (h : StepResRel k a b) :
    (∃ e, a = .error e ∧ b = .error e) ∨
    (∃ sA sB, a = .ok (.sat sA) ∧ b = .ok (.sat sB) ∧ Sim k sA sB) ∨
    (∃ sA sB, a = .ok (.unsat sA) ∧ b = .ok (.unsat sB) ∧ Sim k sA sB) ∨
    (∃ sA sB, a = .ok (.next sA) ∧ b = .ok (.next sB) ∧ Sim k sA sB) := by
  cases h with
  | err => exact Or.inl ⟨_, rfl, rfl⟩
  | sat h2 => exact Or.inr (Or.inl ⟨_, _, rfl, rfl, h2⟩)
  | unsat h2 => exact Or.inr (Or.inr (Or.inl ⟨_, _, rfl, rfl, h2⟩))
  | next h2 => exact Or.inr (Or.inr (Or.inr ⟨_, _, rfl, rfl, h2⟩))

theorem sim_solveStep {k : Nat} {sA sB : Solver} (h : Sim k sA sB) (pf af : Nat) :
    StepResRel k (sA.solveStep pf af) (sB.solveStep pf af) := by
  have hredA := solveStep_red sA pf af
  have hredB := solveStep_red sB pf af
  rcases propResRel_inv (sim_propagateGo pf h) with
    ⟨hAn, hBn⟩ | ⟨sA1, sB1, hAd, hBd, h1⟩ | ⟨j, sA1, sB1, hAc, hBc, h1⟩
  · rw [hAn] at hredA
    rw [hBn] at hredB
    replace hredA : sA.solveStep pf af = .error .fuel := hredA
    replace hredB : sB.solveStep pf af = .error .fuel := hredB
    rw [hredA, hredB]
    exact StepResRel.err
  · rw [hAd] at hredA
    rw [hBd] at hredB
    replace hredA : sA.solveStep pf af =
        (match sA1.findUnassigned with
         | some p => .ok (.next { sA1.enqueue p (sA1.assigns.getD p false) none with
             level := (sA1.enqueue p (sA1.assigns.getD p false) none).level.set p
               ((sA1.enqueue p (sA1.assigns.getD p false) none).level.getD p 0 + 1) })
         | none => .ok (.sat sA1)) := hredA
    replace hredB : sB.solveStep pf af =
        (match sB1.findUnassigned with
         | some p => .ok (.next { sB1.enqueue p (sB1.assigns.getD p false) none with
             level := (sB1.enqueue p (sB1.assigns.getD p false) none).level.set p
               ((sB1.enqueue p (sB1.assigns.getD p false) none).level.getD p 0 + 1) })
         | none => .ok (.sat sB1)) := hredB
    have hfu : sA1.findUnassigned = sB1.findUnassigned := by
      unfold Solver.findUnassigned
      rw [h1.n_eq, h1.level_eq]
    cases hf : sB1.findUnassigned with
    | none =>
      rw [hfu, hf] at hredA
      rw [hf] at hredB
      replace hredA : sA.solveStep pf af = .ok (.sat sA1) := hredA
      replace hredB : sB.solveStep pf af = .ok (.sat sB1) := hredB
      rw [hredA, hredB]
      exact StepResRel.sat h1
    | some p =>
      rw [hfu, hf] at hredA
      rw [hf] at hredB
      replace hredA : sA.solveStep pf af =
          .ok (.next { sA1.enqueue p (sA1.assigns.getD p false) none with
            level := (sA1.enqueue p (sA1.assigns.getD p false) none).level.set p
              ((sA1.enqueue p (sA1.assigns.getD p false) none).level.getD p 0 + 1) }) :=
        hredA
      replace hredB : sB.solveStep pf af =
          .ok (.next { sB1.enqueue p (sB1.assigns.getD p false) none with
            level := (sB1.enqueue p (sB1.assigns.getD p false) none).level.set p
              ((sB1.enqueue p (sB1.assigns.getD p false) none).level.getD p 0 + 1) }) :=
        hredB
      rw [hredA, hredB]
      refine StepResRel.next ?_
      rw [h1.assigns_eq]
      have h2 := sim_enqueue h1 p (sB1.assigns.getD p false) none
      replace h2 : Sim k (sA1.enqueue p (sB1.assigns.getD p false) none)
          (sB1.enqueue p (sB1.assigns.getD p false) none) := h2
      exact sim_set_level h2 (by rw [h2.level_eq])
  · rw [hAc] at hredA
    rw [hBc] at hredB
    replace hredA : sA.solveStep pf af =
        (if sA1.level.getD (sA1.que.getLast?.getD 0) 0 = 1 then .ok (.unsat sA1)
         else
           match Solver.analyze af sA1 (shiftIdx k j) with
           | .error e => .error (.analyzePanic e)
           | .ok s2 => .ok (.next s2)) := hredA
    replace hredB : sB.solveStep pf af =
        (if sB1.level.getD (sB1.que.getLast?.getD 0) 0 = 1 then .ok (.unsat sB1)
         else
           match Solver.analyze af sB1 j with
           | .error e => .error (.analyzePanic e)
           | .ok s2 => .ok (.next s2)) := hredB
    have hcureq : sA1.level.getD (sA1.que.getLast?.getD 0) 0 =
        sB1.level.getD (sB1.que.getLast?.getD 0) 0 := by
      rw [h1.level_eq, h1.que_eq]
    by_cases hone : sB1.level.getD (sB1.que.getLast?.getD 0) 0 = 1
    · rw [if_pos (hcureq.trans hone)] at hredA
      rw [if_pos hone] at hredB
      rw [hredA, hredB]
      exact StepResRel.unsat h1
    · rw [if_neg (fun hc => hone (hcureq.symm.trans hc))] at hredA
      rw [if_neg hone] at hredB
      rcases anaRel_inv (sim_analyze h1 af j) with
        ⟨e, hAe, hBe⟩ | ⟨sA2, sB2, hAo, hBo, h2⟩
      · rw [hAe] at hredA
        rw [hBe] at hredB
        replace hredA : sA.solveStep pf af = .error (.analyzePanic e) := hredA
        replace hredB : sB.solveStep pf af = .error (.analyzePanic e) := hredB
        rw [hredA, hredB]
        exact StepResRel.err
      · rw [hAo] at hredA
        rw [hBo] at hredB
        replace hredA : sA.solveStep pf af = .ok (.next sA2) := hredA
        replace hredB : sB.solveStep pf af = .ok (.next sB2) := hredB
        rw [hredA, hredB]
        exact StepResRel.next h2

theorem sim_solveLoop {k : Nat} : ∀ (fuel pf af : Nat) {sA sB : Solver}, Sim k sA sB →
    resultObs (solveLoop fuel pf af sA) = resultObs (solveLoop fuel pf af sB) := by
  intro fuel
  induction fuel with
  | zero =>
    intro pf af sA sB h
    rfl
  | succ fuel ih =>
    intro pf af sA sB h
    have hredA : solveLoop (fuel + 1) pf af sA =
        (match sA.solveStep pf af with
         | .error e => .error e
         | .ok (.sat s1) => .ok (true, s1)
         | .ok (.unsat s1) => .ok (false, s1)
         | .ok (.next s1) => solveLoop fuel pf af s1) := rfl
    have hredB : solveLoop (fuel + 1) pf af sB =
        (match sB.solveStep pf af with
         | .error e => .error e
         | .ok (.sat s1) => .ok (true, s1)
         | .ok (.unsat s1) => .ok (false, s1)
         | .ok (.next s1) => solveLoop fuel pf af s1) := rfl
    rcases stepResRel_inv (sim_solveStep h pf af) with
      ⟨e, hAe, hBe⟩ | ⟨sA1, sB1, hA1, hB1, h1⟩ | ⟨sA1, sB1, hA1, hB1, h1⟩ |
      ⟨sA1, sB1, hA1, hB1, h1⟩
    · rw [hredA, hredB, hAe, hBe]
    · rw [hredA, hredB, hA1, hB1]
      show resultObs (.ok (true, sA1)) = resultObs (.ok (true, sB1))
      show Except.ok (true, sA1.assigns) = Except.ok (true, sB1.assigns)
      rw [h1.assigns_eq]
    · rw [hredA, hredB, hA1, hB1]
      show Except.ok (false, sA1.assigns) = Except.ok (false, sB1.assigns)
      rw [h1.assigns_eq]
    · rw [hredA, hredB, hA1, hB1]
      exact ih pf af h1

theorem sim_base {s : Solver} (hr : ∀ v, s.reason.getD v none = none)
    (hw : ∀ l cr, cr ∈ watchGet s.watchers l → cr < s.clauses.length) :
    Sim s.clauses.length (s.add_clause []) s := by
  refine ⟨rfl, rfl, rfl, rfl, rfl, Nat.le_refl _, ?_, ?_, ?_, rfl, ?_, ?_⟩
  · show (s.clauses ++ [[]]).length = s.clauses.length + 1
    rw [List.length_append, List.length_singleton]
  · intro j
    show (s.clauses ++ [[]]).getD (shiftIdx s.clauses.length j) [] = s.clauses.getD j []
    by_cases hj : j < s.clauses.length
    · rw [shiftIdx_lt_self hj]
      exact getD_append_left hj
    · rw [shiftIdx_ge hj]
      rw [getD_oob (s.clauses ++ [[]]) (j + 1) [] (by
          rw [List.length_append, List.length_singleton]; omega),
        getD_oob s.clauses j [] (by omega)]
  · show (s.clauses ++ [[]]).getD s.clauses.length [] = []
    exact getD_concat_length _ _ _
  · intro v
    show s.reason.getD v none =
      (s.reason.getD v none).map (shiftIdx s.clauses.length)
    rw [hr v]
    rfl
  · intro l
    show watchGet s.watchers l =
      (watchGet s.watchers l).map (shiftIdx s.clauses.length)
    exact (map_shiftIdx_id _ (fun i hi => hw l i hi)).symm

theorem sim_foldl {k : Nat} : ∀ (cls : List (List Lit)) {sA sB : Solver}, Sim k sA sB →
    Sim k (cls.foldl (fun s c => s.add_clause c) sA)
      (cls.foldl (fun s c => s.add_clause c) sB) := by
  intro cls
  induction cls with
  | nil =>
    intro sA sB h
    exact h
  | cons c rest ih =>
    intro sA sB h
    rw [List.foldl_cons, List.foldl_cons]
    exact ih (sim_add_clause h c)

theorem sim_new (n : Nat) (csL csR : List (List Lit)) :
    Sim csL.length (Solver.new n (csL ++ [[]] ++ csR)) (Solver.new n (csL ++ csR)) := by
  have hA : Solver.new n (csL ++ [[]] ++ csR) =
      csR.foldl (fun s c => s.add_clause c) ((Solver.new n csL).add_clause []) := by
    unfold Solver.new
    rw [List.foldl_append, List.foldl_append]
    rfl
  have hB : Solver.new n (csL ++ csR) =
      csR.foldl (fun s c => s.add_clause c) (Solver.new n csL) := by
    unfold Solver.new
    rw [List.foldl_append]
  obtain ⟨_, _, _, hrsn, _, _, hcls⟩ := new_fields n csL
  have hbase : Sim csL.length ((Solver.new n csL).add_clause []) (Solver.new n csL) := by
    have h1 : Sim (Solver.new n csL).clauses.length
        ((Solver.new n csL).add_clause []) (Solver.new n csL) := by
      apply sim_base
      · intro v
        rw [hrsn]
        exact getD_replicate_none n v
      · intro l cr hm
        exact ((new_WatchOk n csL) l cr).1 hm |>.1
    rw [hcls] at h1
    exact h1
  rw [hA, hB]
  exact sim_foldl csR hbase

theorem reachable_sim (n : Nat) (csL csR : List (List Lit)) :
    ∀ s, Reachable n (csL ++ [[]] ++ csR) s → ∃ sB, Sim csL.length s sB := by
  intro s hr
  induction hr with
  | init => exact ⟨Solver.new n (csL ++ csR), sim_new n csL csR⟩
  | @step s0 s2 pf af hr0 hstep ih =>
    obtain ⟨sB, hsim⟩ := ih
    rcases stepResRel_inv (sim_solveStep hsim pf af) with
      ⟨e, hAe, _⟩ | ⟨xA, xB, hA1, _, _⟩ | ⟨xA, xB, hA1, _, _⟩ | ⟨xA, xB, hA1, hB1, h1⟩
    · exact absurd (hstep.symm.trans hAe) (fun hc => Except.noConfusion hc)
    · exact absurd (Except.ok.inj (hstep.symm.trans hA1))
        (fun hc => Step.noConfusion hc)
    · exact absurd (Except.ok.inj (hstep.symm.trans hA1))
        (fun hc => Step.noConfusion hc)
    · have he := Step.next.inj (Except.ok.inj (hA1.symm.trans hstep))
      refine ⟨xB, ?_⟩
      rw [← he]
      exact h1

/-- C4: on an input whose clause list contains an empty clause, construction
registers the empty clause under no literal of the watcher index; in every
reachable state of the run the empty clause's id stays out of every watcher
list (so propagation never scans it) and no propagation pass ever reports it
as the conflict; and the whole run returns the same verdict and the same
assignment vector as on the identical input with the empty clause removed. -/
theorem empty_clause_invisible (n : Nat) (csL csR : List (List Lit)) :
    (∀ l, csL.length ∉ watchGet (Solver.new n (csL ++ [[]] ++ csR)).watchers l) ∧
    (∀ s, Reachable n (csL ++ [[]] ++ csR) s →
      (∀ l, csL.length ∉ watchGet s.watchers l) ∧
      (∀ pf cr s2, propagateGo pf s = some (.conflict cr s2) → cr ≠ csL.length)) ∧
    (∀ fuel, resultObs (solveTop fuel n (csL ++ [[]] ++ csR)) =
      resultObs (solveTop fuel n (csL ++ csR))) := by
  refine ⟨?_, ?_, ?_⟩
  · intro l hmem
    rw [(sim_new n csL csR).watch_rel l] at hmem
    obtain ⟨j, _, hje⟩ := List.mem_map.1 hmem
    exact shiftIdx_ne_k csL.length j hje
  · intro s hrch
    obtain ⟨sB, hsim⟩ := reachable_sim n csL csR s hrch
    constructor
    · intro l hmem
      rw [hsim.watch_rel l] at hmem
      obtain ⟨j, _, hje⟩ := List.mem_map.1 hmem
      exact shiftIdx_ne_k csL.length j hje
    · intro pf cr s2 hconf
      rcases propResRel_inv (sim_propagateGo pf hsim) with
        ⟨hAn, _⟩ | ⟨xA, xB, hAd, _, _⟩ | ⟨j, xA, xB, hAc, _, _⟩
      · exact absurd (hconf.symm.trans hAn) (fun hc => Option.noConfusion hc)
      · exact absurd (Option.some.inj (hconf.symm.trans hAd))
          (fun hc => PropResult.noConfusion hc)
      · have h2 := Option.some.inj (hAc.symm.trans hconf)
        have h3 : shiftIdx csL.length j = cr := (PropResult.conflict.inj h2).1
        intro hkk
        rw [hkk] at h3
        exact shiftIdx_ne_k csL.length j h3
  · intro fuel
    exact sim_solveLoop fuel fuel fuel (sim_new n csL csR)

end Screwsat
